import Mathlib

/-!
# Comparison sorts of `PeterGeorgeLab320krun.cpp`

A shallow embedding of the four sorting routines (`selectionSort`, `mergeSort`,
`quickSort`, `heapSort`), of their helpers and of the timing harness.

* `std::vector<T>` is `Array α`; the templates are kept generic in the element
  type, which only has to provide `operator<`.
* Index variables of type `int` are `Int` (they do become `-1`).  Where the
  source stores in an `int` a value that can leave the range of a 32-bit
  two's complement `int`, the stored value is `w32` of the mathematical one:
  the narrowing of `arr.size()` and of `arr.size() - 1` in the four entry
  points, the child indices `2 * i + 1` and `2 * i + 2` of `heapify`, and the
  loop counters of `heapSort`.  The remaining index arithmetic of the helpers
  (`mid + 1`, `p - 1`, `p + 1`, `k++`, `n - 1`, ...) is written in `ℤ`: on
  indices of a vector of at most `2^31 - 1` elements it stays inside the range
  of `int`.
* Every element access goes through `readAt` / `writeAt`, which fault with
  `Fault.outOfBounds` outside `0 .. size - 1`.
* `measureTime` and the loop body of `main` run on a `Store` of vector
  objects, so that passing a vector by value is an explicit copy.
* The definitions whose name ends in `Exact` are not part of the source: they
  repeat the heap routines with all index arithmetic in `ℤ` and serve the
  proofs only (`heapSort_eq_exact`: both agree up to `2^30 - 1` elements).
* Loops and recursive calls are driven by a fuel counter; running out of it is
  the separate fault `Fault.outOfFuel`, so that "returns a result" is a
  statement about termination as well.
-/

namespace SortBench

/-- The two ways a run of the embedded code can fail to produce a result. -/
inductive Fault where
  | outOfBounds
  | outOfFuel
deriving DecidableEq, Repr

/-- Result of running embedded code. -/
abbrev Res (β : Type) := Except Fault β

deriving instance DecidableEq for Except

/-- Value of an integer expression stored in a 32-bit two's complement `int`. -/
def w32 (x : Int) : Int := (x + 2147483648) % 4294967296 - 2147483648

section Generic
variable {α : Type}

/-- Reading `arr[i]`. -/
def readAt (arr : Array α) (i : Int) : Res α :=
  if 0 ≤ i then
    match arr[i.toNat]? with
    | some v => .ok v
    | none => .error .outOfBounds
  else .error .outOfBounds

/-- The assignment `arr[i] = v`. -/
def writeAt (arr : Array α) (i : Int) (v : α) : Res (Array α) :=
  if 0 ≤ i ∧ i < arr.size then .ok (arr.setD i.toNat v) else .error .outOfBounds

/-- The call `std::swap(arr[i], arr[j])`. -/
def swapAt (arr : Array α) (i j : Int) : Res (Array α) := do
  let a ← readAt arr i
  let b ← readAt arr j
  let arr1 ← writeAt arr i b
  writeAt arr1 j a

/-- Construction of a vector from the iterator range `[arr.begin() + a, arr.begin() + b)`. -/
def sliceVec (arr : Array α) (a b : Int) : Res (Array α) :=
  if 0 ≤ a ∧ a ≤ b ∧ b ≤ arr.size then .ok (arr.extract a.toNat b.toNat)
  else .error .outOfBounds

variable [LT α] [DecidableRel (fun a b : α => a < b)]

/-! ### Selection sort -/

/-- Inner loop of `selectionSort`: `for (j; j < n; ++j) if (arr[j] < arr[minIdx]) minIdx = j;`. -/
def selectMin (arr : Array α) (n : Int) : Nat → Int → Int → Res Int
  | 0, j, minIdx => if j < n then .error .outOfFuel else .ok minIdx
  | fuel + 1, j, minIdx =>
    if j < n then do
      let a ← readAt arr j
      let b ← readAt arr minIdx
      selectMin arr n fuel (j + 1) (if a < b then j else minIdx)
    else .ok minIdx

/-- Outer loop of `selectionSort`: `for (i; i < n - 1; ++i) { ... }`. -/
def selectionLoop (n : Int) : Nat → Array α → Int → Res (Array α)
  | 0, arr, i => if i < n - 1 then .error .outOfFuel else .ok arr
  | fuel + 1, arr, i =>
    if i < n - 1 then do
      let minIdx ← selectMin arr n (n - (i + 1)).toNat (i + 1) i
      let arr1 ← swapAt arr i minIdx
      selectionLoop n fuel arr1 (i + 1)
    else .ok arr

/-- Function `selectionSort`; `int n = arr.size();` narrows the size to `int`. -/
def selectionSort (arr : Array α) : Res (Array α) :=
  selectionLoop (w32 arr.size) arr.size arr 0

/-! ### Merge sort -/

/-- First loop of `merge`:
`while (i < leftVec.size() && j < rightVec.size())
   arr[k++] = (leftVec[i] < rightVec[j]) ? leftVec[i++] : rightVec[j++];`. -/
def mergeLoop (leftVec rightVec : Array α) :
    Nat → Array α → Int → Int → Int → Res (Array α × Int × Int × Int)
  | 0, arr, i, j, k =>
    if i < leftVec.size ∧ j < rightVec.size then .error .outOfFuel else .ok (arr, i, j, k)
  | fuel + 1, arr, i, j, k =>
    if i < leftVec.size ∧ j < rightVec.size then do
      let a ← readAt leftVec i
      let b ← readAt rightVec j
      if a < b then do
        let arr1 ← writeAt arr k a
        mergeLoop leftVec rightVec fuel arr1 (i + 1) j (k + 1)
      else do
        let arr1 ← writeAt arr k b
        mergeLoop leftVec rightVec fuel arr1 i (j + 1) (k + 1)
    else .ok (arr, i, j, k)

/-- The two trailing loops of `merge`: `while (i < vec.size()) arr[k++] = vec[i++];`. -/
def copyRest (vec : Array α) : Nat → Array α → Int → Int → Res (Array α × Int)
  | 0, arr, i, k => if i < vec.size then .error .outOfFuel else .ok (arr, k)
  | fuel + 1, arr, i, k =>
    if i < vec.size then do
      let a ← readAt vec i
      let arr1 ← writeAt arr k a
      copyRest vec fuel arr1 (i + 1) (k + 1)
    else .ok (arr, k)

/-- Body of `merge`, returning the final value of `k` next to the vector. -/
def mergeRun (arr : Array α) (left mid right : Int) : Res (Array α × Int) := do
  let leftVec ← sliceVec arr left (mid + 1)
  let rightVec ← sliceVec arr (mid + 1) (right + 1)
  let (arr1, i, j, k) ← mergeLoop leftVec rightVec (leftVec.size + rightVec.size) arr 0 0 left
  let (arr2, k2) ← copyRest leftVec leftVec.size arr1 i k
  copyRest rightVec rightVec.size arr2 j k2

/-- Function `merge`. -/
def merge (arr : Array α) (left mid right : Int) : Res (Array α) := do
  let (arr1, _) ← mergeRun arr left mid right
  pure arr1

/-- Function `mergeSortHelper`; `fuel` bounds the recursion depth. -/
def mergeSortHelper : Nat → Array α → Int → Int → Res (Array α)
  | 0, arr, left, right => if left < right then .error .outOfFuel else .ok arr
  | fuel + 1, arr, left, right =>
    if left < right then do
      let mid := left + Int.tdiv (right - left) 2
      let arr1 ← mergeSortHelper fuel arr left mid
      let arr2 ← mergeSortHelper fuel arr1 (mid + 1) right
      merge arr2 left mid right
    else .ok arr

/-- Function `mergeSort`; the unsigned `arr.size() - 1` is narrowed to the
`int` parameter `right` (for the empty vector it is `-1`). -/
def mergeSort (arr : Array α) : Res (Array α) :=
  mergeSortHelper arr.size arr 0 (w32 ((arr.size : Int) - 1))

/-! ### Quick sort -/

/-- Loop of `partition`:
`for (j; j < high; ++j) if (arr[j] < pivot) std::swap(arr[++i], arr[j]);`. -/
def partitionLoop (pivot : α) (high : Int) : Nat → Array α → Int → Int → Res (Array α × Int)
  | 0, arr, i, j => if j < high then .error .outOfFuel else .ok (arr, i)
  | fuel + 1, arr, i, j =>
    if j < high then do
      let x ← readAt arr j
      if x < pivot then do
        let arr1 ← swapAt arr (i + 1) j
        partitionLoop pivot high fuel arr1 (i + 1) (j + 1)
      else
        partitionLoop pivot high fuel arr i (j + 1)
    else .ok (arr, i)

/-- Function `partition` (Lomuto scheme, pivot `arr[high]`). -/
def partition (arr : Array α) (low high : Int) : Res (Array α × Int) := do
  let pivot ← readAt arr high
  let (arr1, i) ← partitionLoop pivot high (high - low).toNat arr (low - 1) low
  let arr2 ← swapAt arr1 (i + 1) high
  pure (arr2, i + 1)

/-- Function `quickSortHelper`; `fuel` bounds the recursion depth. -/
def quickSortHelper : Nat → Array α → Int → Int → Res (Array α)
  | 0, arr, low, high => if low < high then .error .outOfFuel else .ok arr
  | fuel + 1, arr, low, high =>
    if low < high then do
      let (arr1, p) ← partition arr low high
      let arr2 ← quickSortHelper fuel arr1 low (p - 1)
      quickSortHelper fuel arr2 (p + 1) high
    else .ok arr

/-- Function `quickSort`; the unsigned `arr.size() - 1` is narrowed to the
`int` parameter `high` (for the empty vector it is `-1`). -/
def quickSort (arr : Array α) : Res (Array α) :=
  quickSortHelper arr.size arr 0 (w32 ((arr.size : Int) - 1))

/-! ### Heap sort -/

/-- The index `largest` computed by the two `if` statements of `heapify`
(`arr[l] > arr[largest]` is `arr[largest] < arr[l]`; `&&` short-circuits);
`l = 2 * i + 1` and `r = 2 * i + 2` are `int` values. -/
def heapifyLargest (arr : Array α) (n i : Int) : Res Int := do
  let l := w32 (2 * i + 1)
  let r := w32 (2 * i + 2)
  let largest1 ←
    if l < n then do
      let a ← readAt arr l
      let b ← readAt arr i
      pure (if b < a then l else i)
    else pure i
  if r < n then do
    let a ← readAt arr r
    let b ← readAt arr largest1
    pure (if b < a then r else largest1)
  else pure largest1

/-- Function `heapify`; `fuel` bounds the recursion depth. -/
def heapify : Nat → Array α → Int → Int → Res (Array α)
  | 0, arr, n, i => do
    let largest ← heapifyLargest arr n i
    if largest ≠ i then .error .outOfFuel else .ok arr
  | fuel + 1, arr, n, i => do
    let largest ← heapifyLargest arr n i
    if largest ≠ i then do
      let arr1 ← swapAt arr i largest
      heapify fuel arr1 n largest
    else .ok arr

/-- First loop of `heapSort`: `for (i; i >= 0; --i) heapify(arr, n, i);`. -/
def buildHeapLoop (n : Int) : Nat → Array α → Int → Res (Array α)
  | 0, arr, i => if 0 ≤ i then .error .outOfFuel else .ok arr
  | fuel + 1, arr, i =>
    if 0 ≤ i then do
      let arr1 ← heapify n.toNat arr n i
      buildHeapLoop n fuel arr1 (w32 (i - 1))
    else .ok arr

/-- Second loop of `heapSort`:
`for (i; i > 0; --i) { std::swap(arr[0], arr[i]); heapify(arr, i, 0); }`. -/
def extractLoop : Nat → Array α → Int → Res (Array α)
  | 0, arr, i => if 0 < i then .error .outOfFuel else .ok arr
  | fuel + 1, arr, i =>
    if 0 < i then do
      let arr1 ← swapAt arr 0 i
      let arr2 ← heapify i.toNat arr1 i 0
      extractLoop fuel arr2 (w32 (i - 1))
    else .ok arr

/-- Function `heapSort`; `int n = arr.size();` narrows the size to `int`. -/
def heapSort (arr : Array α) : Res (Array α) := do
  let n : Int := w32 arr.size
  let arr1 ← buildHeapLoop n arr.size arr (w32 (Int.tdiv n 2 - 1))
  extractLoop arr.size arr1 (w32 (n - 1))

/-! ### Heap sort with index arithmetic in `ℤ` (used in proofs only) -/

/-- Proof device: `heapifyLargest` with `l` and `r` computed in `ℤ`. -/
def heapifyLargestExact (arr : Array α) (n i : Int) : Res Int := do
  let l := 2 * i + 1
  let r := 2 * i + 2
  let largest1 ←
    if l < n then do
      let a ← readAt arr l
      let b ← readAt arr i
      pure (if b < a then l else i)
    else pure i
  if r < n then do
    let a ← readAt arr r
    let b ← readAt arr largest1
    pure (if b < a then r else largest1)
  else pure largest1

/-- Proof device: `heapify` over `heapifyLargestExact`. -/
def heapifyExact : Nat → Array α → Int → Int → Res (Array α)
  | 0, arr, n, i => do
    let largest ← heapifyLargestExact arr n i
    if largest ≠ i then .error .outOfFuel else .ok arr
  | fuel + 1, arr, n, i => do
    let largest ← heapifyLargestExact arr n i
    if largest ≠ i then do
      let arr1 ← swapAt arr i largest
      heapifyExact fuel arr1 n largest
    else .ok arr

/-- Proof device: `buildHeapLoop` over `heapifyExact`, with the counter in `ℤ`. -/
def buildHeapLoopExact (n : Int) : Nat → Array α → Int → Res (Array α)
  | 0, arr, i => if 0 ≤ i then .error .outOfFuel else .ok arr
  | fuel + 1, arr, i =>
    if 0 ≤ i then do
      let arr1 ← heapifyExact n.toNat arr n i
      buildHeapLoopExact n fuel arr1 (i - 1)
    else .ok arr

/-- Proof device: `extractLoop` over `heapifyExact`, with the counter in `ℤ`. -/
def extractLoopExact : Nat → Array α → Int → Res (Array α)
  | 0, arr, i => if 0 < i then .error .outOfFuel else .ok arr
  | fuel + 1, arr, i =>
    if 0 < i then do
      let arr1 ← swapAt arr 0 i
      let arr2 ← heapifyExact i.toNat arr1 i 0
      extractLoopExact fuel arr2 (i - 1)
    else .ok arr

/-- Proof device: `heapSort` with `n` and every index computed in `ℤ`. -/
def heapSortExact (arr : Array α) : Res (Array α) := do
  let n : Int := arr.size
  let arr1 ← buildHeapLoopExact n arr.size arr (Int.tdiv n 2 - 1)
  extractLoopExact arr.size arr1 (n - 1)

end Generic

/-! ### Timing harness and driver -/

/-- What one call of `measureTime` leaves behind: the label it prints, the
vector its parameter `arr` held on entry and the one it held when the sort
returned.  The elapsed time itself is not modelled. -/
structure Measurement where
  sortName : String
  received : Array Int
  produced : Array Int
deriving DecidableEq, Repr

/-- The vector objects alive while `main` runs, in order of construction.  An
object is named by its position in the list; a reference is such a position. -/
structure Store where
  cells : List (Array Int)
deriving DecidableEq, Repr

/-- Value of the vector object at address `a`. -/
def Store.load (s : Store) (a : Nat) : Res (Array Int) :=
  match s.cells[a]? with
  | some v => .ok v
  | none => .error .outOfBounds

/-- Assignment of a new value to the vector object at address `a`. -/
def Store.store (s : Store) (a : Nat) (v : Array Int) : Res Store :=
  if a < s.cells.length then .ok (Store.mk (s.cells.set a v)) else .error .outOfBounds

/-- Construction of a new vector object holding `v`; returns its address. -/
def Store.construct (s : Store) (v : Array Int) : Store × Nat :=
  (Store.mk (s.cells ++ [v]), s.cells.length)

/-- Destruction of the most recently constructed vector object. -/
def Store.destroy (s : Store) : Store :=
  Store.mk s.cells.dropLast

/-- The call `sortFunc(arr)` where `arr` names the object at address `a`: every
sort takes `std::vector<T>& arr` and works in place on that object. -/
def callSort (sortFunc : Array Int → Res (Array Int)) (s : Store) (a : Nat) : Res Store := do
  let v ← s.load a
  let r ← sortFunc v
  s.store a r

/-- Function `measureTime`, called with the object at address `arg` as its
second argument.  The parameter `std::vector<int> arr` is passed by value: a
new object is copy-constructed from the argument, the sort is called on the
new object, and the new object is destroyed on return. -/
def measureTime (sortFunc : Array Int → Res (Array Int)) (s : Store) (arg : Nat)
    (sortName : String) : Res (Store × Measurement) := do
  let v ← s.load arg
  let (s1, arr) := s.construct v
  let received ← s1.load arr
  let s2 ← callSort sortFunc s1 arr
  let produced ← s2.load arr
  pure (s2.destroy, Measurement.mk sortName received produced)

/-- The vector `sizes` of `main`. -/
def sizes : List Int := [1000, 5000, 10000, 20000]

/-- One iteration of the `for (int size : sizes)` loop of `main`, from the
point where `original` (the object at address `0`) holds the generated vector.
Returns the store after the four calls and the four reports. -/
def driverRound (original : Array Int) : Res (Store × List Measurement) := do
  let s0 := Store.mk [original]
  let (s1, m1) ← measureTime selectionSort s0 0 "Selection Sort"
  let (s2, m2) ← measureTime mergeSort s1 0 "Merge Sort"
  let (s3, m3) ← measureTime quickSort s2 0 "Quick Sort"
  let (s4, m4) ← measureTime heapSort s3 0 "Heap Sort"
  pure (s4, [m1, m2, m3, m4])

/-! ### Array generator -/

/-- Failure conditions for `generateRandomArray`.  `invalidArgument` is the
condition the specification names; `lengthError` is the `std::length_error`
of the vector constructor; `distributionPrecondition` stands for the undefined
behaviour of a `std::uniform_int_distribution` built with `a > b`. -/
inductive GenFault where
  | invalidArgument
  | lengthError
  | distributionPrecondition
deriving DecidableEq, Repr

/-- Function `generateRandomArray`.  The random engine and the library
distribution are not part of the source: `sample k lo hi` stands for the value
of the `k`-th call `dist(gen)` of a `std::uniform_int_distribution<>(lo, hi)`.
`std::vector<int> arr(size)` converts a negative `size` to an unsigned count
above `max_size()` and throws; then the distribution is built, then every
element of the zero-filled vector is overwritten in index order. -/
def generateRandomArray (sample : Nat → Int → Int → Int) (size min max : Int) :
    Except GenFault (Array Int) :=
  if size < 0 then .error .lengthError
  else if max < min then .error .distributionPrecondition
  else .ok ((Array.mkArray size.toNat (0 : Int)).mapIdx (fun k _ => sample k min max))

/-! ### Elements with a key and a tag -/

/-- An element carrying a sort key and a tag; `operator<` compares keys only. -/
structure Tagged where
  key : Int
  tag : Nat
deriving DecidableEq, Repr

instance : LT Tagged := ⟨fun a b => a.key < b.key⟩

instance : DecidableRel (fun a b : Tagged => a < b) :=
  fun a b => inferInstanceAs (Decidable (a.key < b.key))

/-! ### Large inputs -/

/-- A vector of `2^30 = 1073741824` integers, all `0` but the last, which is `1`. -/
def overflowInput : Array Int := (Array.mkArray 1073741823 (0 : Int)).push 1

/-- A vector of `2^31 + 1 = 2147483649` integers: `2^31 - 1` zeros, then `1`, then `0`. -/
def narrowInput : Array Int := ((Array.mkArray 2147483647 (0 : Int)).push 1).push 0

/-! ### Vocabulary of the specification -/

/-- Value held at an `int` index; `0` when the index is outside the vector. -/
def gv (arr : Array Int) (k : Int) : Int :=
  if 0 ≤ k then (arr[k.toNat]?).getD 0 else 0

/-- The vector after exchanging the contents of positions `i` and `j`. -/
def swp (arr : Array Int) (i j : Int) : Array Int :=
  (arr.setD i.toNat (gv arr j)).setD j.toNat (gv arr i)

/-- Non-decreasing order: `arr[i] <= arr[i + 1]` for every `i < len - 1`. -/
def NonDecreasing (arr : Array Int) : Prop :=
  ∀ (i : Nat) (h : i + 1 < arr.size), arr[i] ≤ arr[i + 1]

instance (arr : Array Int) : Decidable (NonDecreasing arr) :=
  decidable_of_iff (∀ (i : Nat) (h : i < arr.size - 1), arr[i] ≤ arr[i + 1])
    ⟨fun h i hi => h i (by omega), fun h i hi => h i (by omega)⟩

/-- Same multiset of elements: a permutation, so every value occurs the same
number of times in both vectors. -/
def SameElements (r s : Array Int) : Prop :=
  r.toList.Perm s.toList ∧ ∀ v : Int, r.toList.count v = s.toList.count v

/-- Positions `lo .. hi` (both included) are in non-decreasing order. -/
def SortedOn (arr : Array Int) (lo hi : Int) : Prop :=
  ∀ a b : Int, lo ≤ a → a ≤ b → b ≤ hi → gv arr a ≤ gv arr b

/-- The vector `r` is `arr` with the contents of positions `lo .. hi`
rearranged among themselves and nothing else touched. -/
def PermOn (arr r : Array Int) (lo hi : Int) : Prop :=
  r.size = arr.size ∧ r.toList.Perm arr.toList ∧
  (∀ k : Int, k < lo ∨ hi < k → gv r k = gv arr k) ∧
  (∀ k : Int, lo ≤ k → k ≤ hi → ∃ k2 : Int, lo ≤ k2 ∧ k2 ≤ hi ∧ gv r k = gv arr k2)

/-- Max-heap order at every node `j` with `lo <= j < n`: no child of `j` below
the bound `n` is greater than `arr[j]`. -/
def HeapFrom (arr : Array Int) (lo n : Int) : Prop :=
  ∀ j : Int, lo ≤ j → j < n →
    (2 * j + 1 < n → gv arr (2 * j + 1) ≤ gv arr j) ∧
    (2 * j + 2 < n → gv arr (2 * j + 2) ≤ gv arr j)

/-- The list-level merge performed by the loops of `merge`: the front of the
left list is taken exactly when it is less than the front of the right list. -/
def mergeLists : List Int → List Int → List Int
  | [], ys => ys
  | x :: xs, [] => x :: xs
  | x :: xs, y :: ys =>
    if x < y then x :: mergeLists xs (y :: ys) else y :: mergeLists (x :: xs) ys

/-- Membership of node `j` in the subtree rooted at node `i`, in the
array-as-tree indexing of `heapify` (children of `k` at `2k + 1` and `2k + 2`). -/
inductive InSubtree (i : Int) : Int → Prop where
  | root : InSubtree i i
  | left {j : Int} : InSubtree i j → InSubtree i (2 * j + 1)
  | right {j : Int} : InSubtree i j → InSubtree i (2 * j + 2)

/-- Max-heap property of the subtree rooted at `i`, restricted to indices below
`n`: every node of the subtree is at least each of its children below `n`. -/
def HeapSubtree (arr : Array Int) (n i : Int) : Prop :=
  ∀ j : Int, InSubtree i j → j < n →
    (2 * j + 1 < n → gv arr (2 * j + 1) ≤ gv arr j) ∧
    (2 * j + 2 < n → gv arr (2 * j + 2) ≤ gv arr j)

/-- Positions `lo .. hi` of a vector, as a list. -/
def slice (arr : Array Int) (lo hi : Int) : List Int :=
  (arr.extract lo.toNat (hi + 1).toNat).toList

/-! ### Values that fit a 32-bit `int` -/

theorem w32_eq (x : Int) (h1 : -2147483648 ≤ x) (h2 : x < 2147483648) : w32 x = x := by
  unfold w32
  omega

theorem w32_range (x : Int) : -2147483648 ≤ w32 x ∧ w32 x < 2147483648 := by
  unfold w32
  omega

theorem w32_le (x : Int) (h : -2147483648 ≤ x) : w32 x ≤ x := by
  unfold w32
  omega

/-! ### Element access -/

theorem toList_setD {α : Type} (arr : Array α) (i : Nat) (v : α) :
    (arr.setD i v).toList = arr.toList.set i v := by
  unfold Array.setD
  split
  · simp
  · rename_i h
    rw [List.set_eq_of_length_le]
    simpa using h

theorem gv_of_nonneg (arr : Array Int) (k : Int) (h : 0 ≤ k) :
    gv arr k = (arr[k.toNat]?).getD 0 := by
  simp [gv, h]

theorem gv_natCast (arr : Array Int) (k : Nat) (h : k < arr.size) : gv arr (k : Int) = arr[k] := by
  simp [gv, Array.getElem?_eq_getElem h]

theorem gv_setD (arr : Array Int) (i : Nat) (v : Int) (k : Int) (hi : i < arr.size) :
    gv (arr.setD i v) k = if k = (i : Int) then v else gv arr k := by
  unfold gv
  by_cases hk : 0 ≤ k
  · simp only [hk, if_true]
    by_cases hki : k = (i : Int)
    · subst hki
      simp [hi]
    · have hne : i ≠ k.toNat := by omega
      simp only [hki, if_false]
      simp only [Array.setD, hi, dite_true]
      rw [Array.getElem?_set_ne _ _ _ hne]
  · have : k ≠ (i : Int) := by omega
    simp [hk, this]

theorem readAt_ok (arr : Array Int) (i : Int) (h0 : 0 ≤ i) (h1 : i < arr.size) :
    readAt arr i = .ok (gv arr i) := by
  have h : i.toNat < arr.size := by omega
  simp [readAt, gv, h0, Array.getElem?_eq_getElem h]

theorem writeAt_ok (arr : Array Int) (i v : Int) (h0 : 0 ≤ i) (h1 : i < arr.size) :
    writeAt arr i v = .ok (arr.setD i.toNat v) := by
  simp [writeAt, h0, h1]

theorem swapAt_ok (arr : Array Int) (i j : Int) (hi0 : 0 ≤ i) (hi1 : i < arr.size)
    (hj0 : 0 ≤ j) (hj1 : j < arr.size) : swapAt arr i j = .ok (swp arr i j) := by
  have h : (j : Int) < (arr.setD i.toNat (gv arr j)).size := by simpa using hj1
  simp only [swapAt, readAt_ok arr i hi0 hi1, readAt_ok arr j hj0 hj1,
    writeAt_ok arr i _ hi0 hi1, writeAt_ok _ j _ hj0 h, swp, bind, Except.bind]

@[simp] theorem size_swp (arr : Array Int) (i j : Int) : (swp arr i j).size = arr.size := by
  simp [swp]

theorem gv_swp (arr : Array Int) (i j k : Int) (hi0 : 0 ≤ i) (hi1 : i < arr.size)
    (hj0 : 0 ≤ j) (hj1 : j < arr.size) :
    gv (swp arr i j) k = if k = j then gv arr i else if k = i then gv arr j else gv arr k := by
  have hi : i.toNat < arr.size := by omega
  have hj : j.toNat < (arr.setD i.toNat (gv arr j)).size := by simp; omega
  unfold swp
  rw [gv_setD _ _ _ _ hj, gv_setD _ _ _ _ hi]
  have e1 : ((j.toNat : Nat) : Int) = j := by omega
  have e2 : ((i.toNat : Nat) : Int) = i := by omega
  rw [e1, e2]

theorem count_getElem_pos (l : List Int) (i : Nat) (h : i < l.length) (b : Int) :
    (if l[i] = b then 1 else 0) ≤ l.count b := by
  split
  · rename_i hb
    have : l[i] ∈ l := List.getElem_mem h
    rw [hb] at this
    exact List.count_pos_iff.mpr this
  · omega

theorem perm_set_set (l : List Int) (i j : Nat) (hi : i < l.length) (hj : j < l.length) :
    ((l.set i l[j]).set j l[i]).Perm l := by
  rw [List.perm_iff_count]
  intro b
  have hj2 : j < (l.set i l[j]).length := by simpa using hj
  rw [List.count_set _ _ _ _ hj2, List.count_set _ _ _ _ hi]
  have h1 := count_getElem_pos l i hi b
  have h2 := count_getElem_pos l j hj b
  simp only [beq_iff_eq]
  by_cases hij : i = j
  · subst hij
    simp only [List.getElem_set_self]
    by_cases hib : l[i] = b <;> simp only [hib, if_true, if_false] at h1 ⊢ <;> omega
  · rw [List.getElem_set_ne hij]
    by_cases hib : l[i] = b <;> by_cases hjb : l[j] = b <;>
      simp only [hib, hjb, if_true, if_false] at h1 h2 ⊢ <;> omega

theorem perm_swp (arr : Array Int) (i j : Int) (hi0 : 0 ≤ i) (hi1 : i < arr.size)
    (hj0 : 0 ≤ j) (hj1 : j < arr.size) : (swp arr i j).toList.Perm arr.toList := by
  have hi : i.toNat < arr.toList.length := by simp; omega
  have hj : j.toNat < arr.toList.length := by simp; omega
  have e1 : gv arr j = arr.toList[j.toNat] := by
    rw [gv_of_nonneg _ _ hj0, Array.getElem?_eq_getElem (by simpa using hj)]
    simp
  have e2 : gv arr i = arr.toList[i.toNat] := by
    rw [gv_of_nonneg _ _ hi0, Array.getElem?_eq_getElem (by simpa using hi)]
    simp
  unfold swp
  rw [toList_setD, toList_setD, e1, e2]
  exact perm_set_set _ _ _ hi hj

/-! ### Rearrangements inside a range -/

theorem PermOn.refl (arr : Array Int) (lo hi : Int) : PermOn arr arr lo hi :=
  ⟨rfl, List.Perm.refl _, fun _ _ => rfl, fun k h1 h2 => ⟨k, h1, h2, rfl⟩⟩

theorem PermOn.trans {a b c : Array Int} {lo hi : Int} (h1 : PermOn a b lo hi)
    (h2 : PermOn b c lo hi) : PermOn a c lo hi := by
  obtain ⟨s1, p1, f1, v1⟩ := h1
  obtain ⟨s2, p2, f2, v2⟩ := h2
  refine ⟨s2.trans s1, p2.trans p1, fun k hk => (f2 k hk).trans (f1 k hk), ?_⟩
  intro k hk1 hk2
  obtain ⟨k2, a1, a2, e2⟩ := v2 k hk1 hk2
  obtain ⟨k3, b1, b2, e3⟩ := v1 k2 a1 a2
  exact ⟨k3, b1, b2, e2.trans e3⟩

theorem PermOn.mono {a b : Array Int} {lo hi lo2 hi2 : Int} (h : PermOn a b lo hi)
    (hlo : lo2 ≤ lo) (hhi : hi ≤ hi2) : PermOn a b lo2 hi2 := by
  obtain ⟨s1, p1, f1, v1⟩ := h
  refine ⟨s1, p1, fun k hk => f1 k (by omega), ?_⟩
  intro k hk1 hk2
  by_cases hin : lo ≤ k ∧ k ≤ hi
  · obtain ⟨k2, a1, a2, e2⟩ := v1 k hin.1 hin.2
    exact ⟨k2, by omega, by omega, e2⟩
  · exact ⟨k, hk1, hk2, f1 k (by omega)⟩

theorem PermOn.swp (arr : Array Int) (lo hi i j : Int) (hlo : 0 ≤ lo) (hhi : hi < arr.size)
    (hi1 : lo ≤ i) (hi2 : i ≤ hi) (hj1 : lo ≤ j) (hj2 : j ≤ hi) :
    PermOn arr (swp arr i j) lo hi := by
  have g := fun k => gv_swp arr i j k (by omega) (by omega) (by omega) (by omega)
  refine ⟨size_swp _ _ _, perm_swp arr i j (by omega) (by omega) (by omega) (by omega), ?_, ?_⟩
  · intro k hk
    rw [g, if_neg (by omega), if_neg (by omega)]
  · intro k hk1 hk2
    rw [g]
    by_cases h1 : k = j
    · exact ⟨i, hi1, hi2, by rw [if_pos h1]⟩
    · by_cases h2 : k = i
      · exact ⟨j, hj1, hj2, by rw [if_neg h1, if_pos h2]⟩
      · exact ⟨k, hk1, hk2, by rw [if_neg h1, if_neg h2]⟩

theorem PermOn.forall_range {a b : Array Int} {lo hi : Int} (h : PermOn a b lo hi)
    (P : Int → Prop) (hP : ∀ k : Int, lo ≤ k → k ≤ hi → P (gv a k)) :
    ∀ k : Int, lo ≤ k → k ≤ hi → P (gv b k) := by
  intro k hk1 hk2
  obtain ⟨k2, a1, a2, e2⟩ := h.2.2.2 k hk1 hk2
  rw [e2]
  exact hP k2 a1 a2

/-! ### Sortedness of a whole vector -/

theorem nonDecreasing_of_sortedOn (r : Array Int) (h : SortedOn r 0 ((r.size : Int) - 1)) :
    NonDecreasing r := by
  intro i hi
  have := h (i : Int) ((i + 1 : Nat) : Int) (by omega) (by omega) (by omega)
  rwa [gv_natCast r i (by omega), gv_natCast r (i + 1) hi] at this

theorem sortedOn_of_nonDecreasing (r : Array Int) (h : NonDecreasing r) :
    SortedOn r 0 ((r.size : Int) - 1) := by
  have key : ∀ (d a : Nat), a + d < r.size → gv r (a : Int) ≤ gv r ((a + d : Nat) : Int) := by
    intro d
    induction d with
    | zero => intro a _; simp
    | succ d ih =>
      intro a had
      have h1 := ih a (by omega)
      have h2 := h (a + d) (by omega)
      rw [gv_natCast r (a + d) (by omega)] at h1
      rw [gv_natCast r (a + (d + 1)) had]
      exact le_trans h1 h2
  intro a b ha hab hb
  have := key (b - a).toNat a.toNat (by omega)
  have e1 : ((a.toNat : Nat) : Int) = a := by omega
  have e2 : ((a.toNat + (b - a).toNat : Nat) : Int) = b := by omega
  rwa [e1, e2] at this

theorem sorted_toList_of_sortedOn (r : Array Int) (h : SortedOn r 0 ((r.size : Int) - 1)) :
    r.toList.Sorted (· ≤ ·) := by
  unfold List.Sorted
  rw [List.pairwise_iff_getElem]
  intro i j hi hj hij
  have hj2 : j < r.size := by simpa using hj
  have := h (i : Int) (j : Int) (by omega) (by omega) (by omega)
  rw [gv_natCast r i (by omega), gv_natCast r j hj2] at this
  simpa using this

theorem eq_of_sortedOn_perm (r s : Array Int) (hr : SortedOn r 0 ((r.size : Int) - 1))
    (hs : SortedOn s 0 ((s.size : Int) - 1)) (hp : r.toList.Perm s.toList) : r = s := by
  have := List.eq_of_perm_of_sorted hp (sorted_toList_of_sortedOn r hr)
    (sorted_toList_of_sortedOn s hs)
  cases r; cases s; simpa using this

theorem sameElements_of_perm {r s : Array Int} (h : r.toList.Perm s.toList) : SameElements r s :=
  ⟨h, fun v => h.count_eq v⟩

theorem PermOn.whole {arr r : Array Int} {lo hi : Int} (h : PermOn arr r lo hi) :
    r.toList.Perm arr.toList := h.2.1

/-! ### Quick sort -/

theorem partitionLoop_spec (pivot low high : Int) :
    ∀ (fuel : Nat) (arr : Array Int) (i j : Int),
      0 ≤ low → high < arr.size → low - 1 ≤ i → i < j → j ≤ high →
      (high - j).toNat ≤ fuel →
      (∀ k : Int, low ≤ k → k ≤ i → gv arr k < pivot) →
      (∀ k : Int, i < k → k < j → pivot ≤ gv arr k) →
      ∃ (r : Array Int) (i2 : Int), partitionLoop pivot high fuel arr i j = .ok (r, i2) ∧
        low - 1 ≤ i2 ∧ i2 < high ∧ PermOn arr r low (high - 1) ∧
        (∀ k : Int, low ≤ k → k ≤ i2 → gv r k < pivot) ∧
        (∀ k : Int, i2 < k → k < high → pivot ≤ gv r k) := by
  intro fuel
  induction fuel with
  | zero =>
    intro arr i j hlo hhi hi hij hj hfuel hlt hge
    have hjh : ¬ j < high := by omega
    refine ⟨arr, i, by simp [partitionLoop, hjh], hi, by omega, PermOn.refl _ _ _, hlt, ?_⟩
    intro k hk1 hk2
    exact hge k hk1 (by omega)
  | succ fuel ih =>
    intro arr i j hlo hhi hi hij hj hfuel hlt hge
    by_cases hjh : j < high
    · have hread := readAt_ok arr j (by omega) (by omega)
      by_cases hx : gv arr j < pivot
      · have hswap := swapAt_ok arr (i + 1) j (by omega) (by omega) (by omega) (by omega)
        have g := fun k => gv_swp arr (i + 1) j k (by omega) (by omega) (by omega) (by omega)
        obtain ⟨r, i2, hrun, b1, b2, hperm, hlt2, hge2⟩ :=
          ih (swp arr (i + 1) j) (i + 1) (j + 1) hlo (by simpa using hhi) (by omega) (by omega)
            (by omega) (by omega)
            (by
              intro k hk1 hk2
              rw [g]
              by_cases e1 : k = j
              · rw [if_pos e1]
                have : k = i + 1 := by omega
                rw [← this, e1]; exact hx
              · rw [if_neg e1]
                by_cases e2 : k = i + 1
                · rw [if_pos e2]; exact hx
                · rw [if_neg e2]; exact hlt k hk1 (by omega))
            (by
              intro k hk1 hk2
              rw [g]
              by_cases e1 : k = j
              · rw [if_pos e1]
                exact hge (i + 1) (by omega) (by omega)
              · rw [if_neg e1, if_neg (by omega)]
                exact hge k (by omega) (by omega))
        refine ⟨r, i2, ?_, b1, b2, ?_, hlt2, hge2⟩
        · simp only [partitionLoop, hjh, if_true, hread, hx, hswap, bind, Except.bind]
          exact hrun
        · exact (PermOn.swp arr low (high - 1) (i + 1) j hlo (by omega) (by omega) (by omega)
            (by omega) (by omega)).trans hperm
      · obtain ⟨r, i2, hrun, b1, b2, hperm, hlt2, hge2⟩ :=
          ih arr i (j + 1) hlo hhi hi (by omega) (by omega) (by omega) hlt
            (by
              intro k hk1 hk2
              by_cases e1 : k = j
              · rw [e1]; omega
              · exact hge k hk1 (by omega))
        refine ⟨r, i2, ?_, b1, b2, hperm, hlt2, hge2⟩
        simp only [partitionLoop, hjh, if_true, hread, hx, if_false, bind, Except.bind]
        exact hrun
    · refine ⟨arr, i, by simp [partitionLoop, hjh], hi, by omega, PermOn.refl _ _ _, hlt, ?_⟩
      intro k hk1 hk2
      exact hge k hk1 (by omega)

theorem partition_spec (arr : Array Int) (low high : Int) (hlo : 0 ≤ low) (hlh : low ≤ high)
    (hhi : high < arr.size) :
    ∃ (r : Array Int) (p : Int), partition arr low high = .ok (r, p) ∧
      low ≤ p ∧ p ≤ high ∧ PermOn arr r low high ∧ gv r p = gv arr high ∧
      (∀ k : Int, low ≤ k → k < p → gv r k < gv arr high) ∧
      (∀ k : Int, p < k → k ≤ high → gv arr high ≤ gv r k) := by
  obtain ⟨r, i, hrun, b1, b2, hperm, hlt, hge⟩ :=
    partitionLoop_spec (gv arr high) low high (high - low).toNat arr (low - 1) low hlo hhi
      (by omega) (by omega) hlh (by omega) (fun k h1 h2 => by omega) (fun k h1 h2 => by omega)
  have hsize : r.size = arr.size := hperm.1
  have hswap := swapAt_ok r (i + 1) high (by omega) (by omega) (by omega) (by omega)
  have g := fun k => gv_swp r (i + 1) high k (by omega) (by omega) (by omega) (by omega)
  have hpiv : gv r high = gv arr high := hperm.2.2.1 high (by omega)
  refine ⟨swp r (i + 1) high, i + 1, ?_, by omega, by omega, ?_, ?_, ?_, ?_⟩
  · simp only [partition, readAt_ok arr high (by omega) hhi, hrun, hswap, bind, Except.bind,
      pure, Except.pure]
  · exact (hperm.mono (le_refl _) (by omega)).trans
      (PermOn.swp r low high (i + 1) high hlo (by omega) (by omega) (by omega) (by omega)
        (le_refl _))
  · rw [g]
    by_cases e : i + 1 = high
    · rw [if_pos e, e, hpiv]
    · rw [if_neg e, if_pos rfl, hpiv]
  · intro k hk1 hk2
    rw [g, if_neg (by omega), if_neg (by omega)]
    exact hlt k hk1 (by omega)
  · intro k hk1 hk2
    rw [g]
    by_cases e : k = high
    · rw [if_pos e]
      exact hge (i + 1) (by omega) (by omega)
    · rw [if_neg e, if_neg (by omega)]
      exact hge k (by omega) (by omega)

theorem quickSortHelper_spec :
    ∀ (fuel : Nat) (arr : Array Int) (low high : Int),
      0 ≤ low → high < arr.size → (high - low).toNat ≤ fuel →
      ∃ r : Array Int, quickSortHelper fuel arr low high = .ok r ∧
        PermOn arr r low high ∧ SortedOn r low high := by
  intro fuel
  induction fuel with
  | zero =>
    intro arr low high hlo hhi hfuel
    have h : ¬ low < high := by omega
    refine ⟨arr, by simp [quickSortHelper, h], PermOn.refl _ _ _, ?_⟩
    intro a b h1 h2 h3
    have : a = b := by omega
    rw [this]
  | succ fuel ih =>
    intro arr low high hlo hhi hfuel
    by_cases h : low < high
    · obtain ⟨a1, p, hpart, p1, p2, hperm1, hpiv, hlt, hge⟩ :=
        partition_spec arr low high hlo (by omega) hhi
      have s1 : a1.size = arr.size := hperm1.1
      obtain ⟨a2, hrun2, hperm2, hsort2⟩ := ih a1 low (p - 1) hlo (by omega) (by omega)
      have s2 : a2.size = a1.size := hperm2.1
      obtain ⟨a3, hrun3, hperm3, hsort3⟩ := ih a2 (p + 1) high (by omega) (by omega) (by omega)
      refine ⟨a3, ?_, ?_, ?_⟩
      · simp only [quickSortHelper, h, if_true, hpart, hrun2, bind, Except.bind]
        exact hrun3
      · exact hperm1.trans ((hperm2.mono (le_refl _) (by omega)).trans
          (hperm3.mono (by omega) (le_refl _)))
      · have hlt2 : ∀ k : Int, low ≤ k → k ≤ p - 1 → gv a2 k < gv arr high :=
          hperm2.forall_range (fun v => v < gv arr high) (fun k h1 h2 => hlt k h1 (by omega))
        have hge3 : ∀ k : Int, p + 1 ≤ k → k ≤ high → gv arr high ≤ gv a3 k :=
          hperm3.forall_range (fun v => gv arr high ≤ v) (fun k h1 h2 => by
            rw [hperm2.2.2.1 k (by omega)]
            exact hge k (by omega) h2)
        have hp3 : gv a3 p = gv arr high := by
          rw [hperm3.2.2.1 p (by omega), hperm2.2.2.1 p (by omega), hpiv]
        have hlow3 : ∀ k : Int, k ≤ p - 1 → gv a3 k = gv a2 k :=
          fun k hk => hperm3.2.2.1 k (by omega)
        intro a b h1 h2 h3
        by_cases ha : a < p
        · by_cases hb : b < p
          · rw [hlow3 a (by omega), hlow3 b (by omega)]
            exact hsort2 a b h1 h2 (by omega)
          · have := hlt2 a h1 (by omega)
            rw [hlow3 a (by omega)]
            by_cases hb2 : b = p
            · rw [hb2, hp3]; omega
            · have := hge3 b (by omega) h3
              omega
        · by_cases ha2 : a = p
          · by_cases hb2 : b = p
            · rw [ha2, hb2]
            · have := hge3 b (by omega) h3
              rw [ha2, hp3]; exact this
          · exact hsort3 a b (by omega) h2 h3
    · refine ⟨arr, ?_, PermOn.refl _ _ _, ?_⟩
      · simp [quickSortHelper, h]
      · intro a b h1 h2 h3
        have : a = b := by omega
        rw [this]

theorem quickSort_spec (arr : Array Int) (hsize : arr.size ≤ 2147483647) :
    ∃ r : Array Int, quickSort arr = .ok r ∧ r.size = arr.size ∧
      r.toList.Perm arr.toList ∧ SortedOn r 0 ((r.size : Int) - 1) := by
  unfold quickSort
  rw [w32_eq ((arr.size : Int) - 1) (by omega) (by omega)]
  obtain ⟨r, hrun, hperm, hsort⟩ :=
    quickSortHelper_spec arr.size arr 0 ((arr.size : Int) - 1) (le_refl _) (by omega) (by omega)
  refine ⟨r, hrun, hperm.1, hperm.2.1, ?_⟩
  rw [hperm.1]
  exact hsort

/-! ### Selection sort -/

theorem selectMin_spec (arr : Array Int) (n i : Int) (hn : n = arr.size) (hi : 0 ≤ i) :
    ∀ (fuel : Nat) (j m : Int), i ≤ m → m < j → j ≤ n → (n - j).toNat ≤ fuel →
      (∀ k : Int, i ≤ k → k < j → gv arr m ≤ gv arr k) →
      (∀ k : Int, i ≤ k → k < m → gv arr m < gv arr k) →
      ∃ m2 : Int, selectMin arr n fuel j m = .ok m2 ∧ i ≤ m2 ∧ m2 < n ∧
        (∀ k : Int, i ≤ k → k < n → gv arr m2 ≤ gv arr k) ∧
        (∀ k : Int, i ≤ k → k < m2 → gv arr m2 < gv arr k) := by
  intro fuel
  induction fuel with
  | zero =>
    intro j m h1 h2 h3 hfuel hmin hfirst
    have hj : ¬ j < n := by omega
    exact ⟨m, by simp [selectMin, hj], h1, by omega, fun k a b => hmin k a (by omega), hfirst⟩
  | succ fuel ih =>
    intro j m h1 h2 h3 hfuel hmin hfirst
    by_cases hj : j < n
    · have r1 := readAt_ok arr j (by omega) (by omega)
      have r2 := readAt_ok arr m (by omega) (by omega)
      by_cases hlt : gv arr j < gv arr m
      · obtain ⟨m2, hrun, c1, c2, c3, c4⟩ := ih (j + 1) j (by omega) (by omega) (by omega)
          (by omega)
          (by
            intro k a b
            by_cases e : k = j
            · rw [e]
            · have := hmin k a (by omega); omega)
          (by
            intro k a b
            have := hmin k a b; omega)
        refine ⟨m2, ?_, c1, c2, c3, c4⟩
        simp only [selectMin, hj, if_true, r1, r2, hlt, bind, Except.bind]
        exact hrun
      · obtain ⟨m2, hrun, c1, c2, c3, c4⟩ := ih (j + 1) m h1 (by omega) (by omega) (by omega)
          (by
            intro k a b
            by_cases e : k = j
            · rw [e]; omega
            · exact hmin k a (by omega))
          hfirst
        refine ⟨m2, ?_, c1, c2, c3, c4⟩
        simp only [selectMin, hj, if_true, r1, r2, hlt, if_false, bind, Except.bind]
        exact hrun
    · exact ⟨m, by simp [selectMin, hj], h1, by omega, fun k a b => hmin k a (by omega), hfirst⟩

theorem selectionLoop_spec (n : Int) :
    ∀ (fuel : Nat) (arr : Array Int) (i : Int), n = arr.size → 0 ≤ i →
      (n - 1 - i).toNat ≤ fuel → SortedOn arr 0 (i - 1) →
      (∀ a b : Int, 0 ≤ a → a < i → i ≤ b → b < n → gv arr a ≤ gv arr b) →
      ∃ r : Array Int, selectionLoop n fuel arr i = .ok r ∧ r.size = arr.size ∧
        r.toList.Perm arr.toList ∧ SortedOn r 0 (n - 1) := by
  intro fuel
  induction fuel with
  | zero =>
    intro arr i hn hi hfuel hsorted hcross
    have h : ¬ i < n - 1 := by omega
    refine ⟨arr, by simp [selectionLoop, h], rfl, List.Perm.refl _, ?_⟩
    intro a b h1 h2 h3
    by_cases hb : b ≤ i - 1
    · exact hsorted a b h1 h2 hb
    · by_cases hab : a = b
      · rw [hab]
      · exact hcross a b h1 (by omega) (by omega) (by omega)
  | succ fuel ih =>
    intro arr i hn hi hfuel hsorted hcross
    by_cases h : i < n - 1
    · obtain ⟨m, hmin, m1, m2, m3, _⟩ :=
        selectMin_spec arr n i hn hi (n - (i + 1)).toNat (i + 1) i (le_refl _) (by omega)
          (by omega) (by omega)
          (fun k a b => by have : k = i := by omega
                           rw [this])
          (fun k a b => by omega)
      have hswap := swapAt_ok arr i m hi (by omega) (by omega) (by omega)
      have hperm := PermOn.swp arr i (n - 1) i m hi (by omega) (le_refl _) (by omega) m1
        (by omega)
      have g := fun k => gv_swp arr i m k hi (by omega) (by omega) (by omega)
      have gi : gv (swp arr i m) i = gv arr m := by
        rw [g]
        by_cases e : i = m
        · rw [if_pos e, e]
        · rw [if_neg e, if_pos rfl]
      obtain ⟨r, hrun, hs, hp, hsort⟩ := ih (swp arr i m) (i + 1) (by simpa using hn)
        (by omega) (by omega)
        (by
          intro a b h1 h2 h3
          by_cases hb : b < i
          · rw [hperm.2.2.1 a (by omega), hperm.2.2.1 b (by omega)]
            exact hsorted a b h1 h2 (by omega)
          · have eb : b = i := by omega
            by_cases ea : a = i
            · rw [ea, eb]
            · rw [eb, gi, hperm.2.2.1 a (by omega)]
              exact hcross a m h1 (by omega) m1 m2)
        (by
          intro a b h1 h2 h3 h4
          obtain ⟨k2, q1, q2, q3⟩ := hperm.2.2.2 b (by omega) (by omega)
          rw [q3]
          by_cases ea : a = i
          · rw [ea, gi]
            exact m3 k2 q1 (by omega)
          · rw [hperm.2.2.1 a (by omega)]
            exact hcross a k2 h1 (by omega) q1 (by omega))
      refine ⟨r, ?_, by rw [hs]; simp, hp.trans hperm.2.1, hsort⟩
      simp only [selectionLoop, h, if_true, hmin, hswap, bind, Except.bind]
      exact hrun
    · refine ⟨arr, by simp [selectionLoop, h], rfl, List.Perm.refl _, ?_⟩
      intro a b h1 h2 h3
      by_cases hb : b ≤ i - 1
      · exact hsorted a b h1 h2 hb
      · by_cases hab : a = b
        · rw [hab]
        · exact hcross a b h1 (by omega) (by omega) (by omega)

theorem selectionSort_spec (arr : Array Int) (hsize : arr.size ≤ 2147483647) :
    ∃ r : Array Int, selectionSort arr = .ok r ∧ r.size = arr.size ∧
      r.toList.Perm arr.toList ∧ SortedOn r 0 ((r.size : Int) - 1) := by
  unfold selectionSort
  rw [w32_eq (arr.size : Int) (by omega) (by omega)]
  obtain ⟨r, hrun, hs, hp, hsort⟩ :=
    selectionLoop_spec (arr.size : Int) arr.size arr 0 rfl (le_refl _) (by omega)
      (fun a b h1 h2 h3 => by have : a = b := by omega
                              rw [this])
      (fun a b h1 h2 h3 h4 => by omega)
  refine ⟨r, hrun, hs, hp, ?_⟩
  rw [hs]
  exact hsort

/-! ### Heap sort with index arithmetic in `ℤ` -/

theorem heapifyLargestExact_spec (arr : Array Int) (n i : Int) (hi : 0 ≤ i) (hin : i < n)
    (hn : n ≤ arr.size) :
    ∃ L : Int, heapifyLargestExact arr n i = .ok L ∧
      (L = i ∨ L = 2 * i + 1 ∨ L = 2 * i + 2) ∧ L < n ∧
      gv arr i ≤ gv arr L ∧
      (2 * i + 1 < n → gv arr (2 * i + 1) ≤ gv arr L) ∧
      (2 * i + 2 < n → gv arr (2 * i + 2) ≤ gv arr L) ∧
      (L ≠ i → gv arr i < gv arr L) := by
  have ri := readAt_ok arr i hi (by omega)
  by_cases hl : 2 * i + 1 < n
  · have rl := readAt_ok arr (2 * i + 1) (by omega) (by omega)
    by_cases hr : 2 * i + 2 < n
    · have rr := readAt_ok arr (2 * i + 2) (by omega) (by omega)
      by_cases c1 : gv arr i < gv arr (2 * i + 1)
      · by_cases c2 : gv arr (2 * i + 1) < gv arr (2 * i + 2)
        · refine ⟨2 * i + 2, ?_, by omega, by omega, by omega, by omega, by omega, by omega⟩
          simp [heapifyLargestExact, hl, hr, ri, rl, rr, c1, c2, bind, Except.bind, pure, Except.pure]
        · refine ⟨2 * i + 1, ?_, by omega, by omega, by omega, by omega, by omega, by omega⟩
          simp [heapifyLargestExact, hl, hr, ri, rl, rr, c1, c2, bind, Except.bind, pure, Except.pure]
      · by_cases c2 : gv arr i < gv arr (2 * i + 2)
        · refine ⟨2 * i + 2, ?_, by omega, by omega, by omega, by omega, by omega, by omega⟩
          simp [heapifyLargestExact, hl, hr, ri, rl, rr, c1, c2, bind, Except.bind, pure, Except.pure]
        · refine ⟨i, ?_, by omega, by omega, by omega, by omega, by omega, by omega⟩
          simp [heapifyLargestExact, hl, hr, ri, rl, rr, c1, c2, bind, Except.bind, pure, Except.pure]
    · by_cases c1 : gv arr i < gv arr (2 * i + 1)
      · refine ⟨2 * i + 1, ?_, by omega, by omega, by omega, by omega, by omega, by omega⟩
        simp [heapifyLargestExact, hl, hr, ri, rl, c1, bind, Except.bind, pure, Except.pure]
      · refine ⟨i, ?_, by omega, by omega, by omega, by omega, by omega, by omega⟩
        simp [heapifyLargestExact, hl, hr, ri, rl, c1, bind, Except.bind, pure, Except.pure]
  · have hr : ¬ 2 * i + 2 < n := by omega
    refine ⟨i, ?_, by omega, by omega, by omega, by omega, by omega, by omega⟩
    simp [heapifyLargestExact, hl, hr, bind, Except.bind, pure, Except.pure]

theorem heapifyExact_spec (n : Int) :
    ∀ (fuel : Nat) (arr : Array Int) (i : Int), 0 ≤ i → i < n → n ≤ arr.size →
      (n - i).toNat ≤ fuel + 1 → HeapFrom arr (i + 1) n →
      ∃ r : Array Int, heapifyExact fuel arr n i = .ok r ∧ PermOn arr r i (n - 1) ∧
        HeapFrom r i n ∧
        (∀ k : Int, k ≠ i → k < 2 * i + 1 → gv r k = gv arr k) ∧
        (gv r i = gv arr i ∨ (2 * i + 1 < n ∧ gv r i = gv arr (2 * i + 1)) ∨
          (2 * i + 2 < n ∧ gv r i = gv arr (2 * i + 2))) := by
  intro fuel
  induction fuel with
  | zero =>
    intro arr i hi hin hn hfuel hheap
    obtain ⟨L, hL, hcase, hLn, hge, hcl, hcr, hne⟩ := heapifyLargestExact_spec arr n i hi hin hn
    have hLi : L = i := by omega
    subst hLi
    refine ⟨arr, by simp [heapifyExact, hL, bind, Except.bind], PermOn.refl _ _ _, ?_,
      fun _ _ _ => rfl, Or.inl rfl⟩
    intro j hj1 hj2
    by_cases e : j = L
    · rw [e]; exact ⟨hcl, hcr⟩
    · exact hheap j (by omega) hj2
  | succ fuel ih =>
    intro arr i hi hin hn hfuel hheap
    obtain ⟨L, hL, hcase, hLn, hge, hcl, hcr, hne⟩ := heapifyLargestExact_spec arr n i hi hin hn
    by_cases hLi : L = i
    · subst hLi
      refine ⟨arr, by simp [heapifyExact, hL, bind, Except.bind], PermOn.refl _ _ _, ?_,
        fun _ _ _ => rfl, Or.inl rfl⟩
      intro j hj1 hj2
      by_cases e : j = L
      · rw [e]; exact ⟨hcl, hcr⟩
      · exact hheap j (by omega) hj2
    · have hLgt : i < L := by omega
      have hswap := swapAt_ok arr i L hi (by omega) (by omega) (by omega)
      have g := fun k => gv_swp arr i L k hi (by omega) (by omega) (by omega)
      have gother : ∀ k : Int, k ≠ i → k ≠ L → gv (swp arr i L) k = gv arr k := by
        intro k h1 h2
        rw [g, if_neg h2, if_neg h1]
      have gi : gv (swp arr i L) i = gv arr L := by
        rw [g, if_neg (by omega), if_pos rfl]
      have gL : gv (swp arr i L) L = gv arr i := by
        rw [g, if_pos rfl]
      obtain ⟨r, hrun, hperm, hheap2, hframe, hroot⟩ :=
        ih (swp arr i L) L (by omega) hLn (by simpa using hn) (by omega)
          (by
            intro j hj1 hj2
            have := hheap j (by omega) hj2
            rw [gother j (by omega) (by omega), gother (2 * j + 1) (by omega) (by omega),
              gother (2 * j + 2) (by omega) (by omega)]
            exact this)
      have ri : gv r i = gv arr L := by
        rw [hframe i (by omega) (by omega), gi]
      refine ⟨r, ?_, ?_, ?_, ?_, ?_⟩
      · simp only [heapifyExact, hL, hLi, hswap, bind, Except.bind, ne_eq, not_false_eq_true, if_true]
        exact hrun
      · exact (PermOn.swp arr i (n - 1) i L hi (by omega) (le_refl _) (by omega) (by omega)
          (by omega)).trans (hperm.mono (by omega) (le_refl _))
      · intro j hj1 hj2
        by_cases e1 : L ≤ j
        · exact hheap2 j e1 hj2
        · by_cases e2 : j = i
          · subst e2
            have hLdom : 2 * L + 1 < n → gv arr (2 * L + 1) ≤ gv arr L :=
              (hheap L (by omega) hLn).1
            have hLdom2 : 2 * L + 2 < n → gv arr (2 * L + 2) ≤ gv arr L :=
              (hheap L (by omega) hLn).2
            have rL : gv r L ≤ gv arr L := by
              rcases hroot with h | ⟨h1, h2⟩ | ⟨h1, h2⟩
              · rw [h, gL]; exact hge
              · rw [h2, gother _ (by omega) (by omega)]; exact hLdom h1
              · rw [h2, gother _ (by omega) (by omega)]; exact hLdom2 h1
            have other : ∀ c : Int, (c = 2 * j + 1 ∨ c = 2 * j + 2) → c ≠ L →
                gv r c = gv arr c := by
              intro c hc hcL
              rw [hframe c hcL (by omega), gother c (by omega) hcL]
            rw [ri]
            constructor
            · intro hc
              by_cases eL : 2 * j + 1 = L
              · rw [eL]; exact rL
              · rw [other _ (Or.inl rfl) eL]; exact hcl hc
            · intro hc
              by_cases eL : 2 * j + 2 = L
              · rw [eL]; exact rL
              · rw [other _ (Or.inr rfl) eL]; exact hcr hc
          · have := hheap j (by omega) hj2
            rw [hframe j (by omega) (by omega), hframe (2 * j + 1) (by omega) (by omega),
              hframe (2 * j + 2) (by omega) (by omega),
              gother j e2 (by omega), gother (2 * j + 1) (by omega) (by omega),
              gother (2 * j + 2) (by omega) (by omega)]
            exact this
      · intro k hk1 hk2
        rw [hframe k (by omega) (by omega), gother k hk1 (by omega)]
      · rw [ri]
        rcases hcase with h | h | h
        · exact absurd h hLi
        · exact Or.inr (Or.inl ⟨by omega, by rw [h]⟩)
        · exact Or.inr (Or.inr ⟨by omega, by rw [h]⟩)

theorem heap_root_max (arr : Array Int) (m : Int) (h : HeapFrom arr 0 m) :
    ∀ (d : Nat) (k : Int), 0 ≤ k → k < m → k.toNat ≤ d → gv arr k ≤ gv arr 0 := by
  intro d
  induction d with
  | zero =>
    intro k h1 h2 h3
    have : k = 0 := by omega
    rw [this]
  | succ d ih =>
    intro k h1 h2 h3
    by_cases hk : k = 0
    · rw [hk]
    · have hp := ih ((k - 1) / 2) (by omega) (by omega) (by omega)
      have hnode := h ((k - 1) / 2) (by omega) (by omega)
      by_cases hodd : 2 * ((k - 1) / 2) + 1 = k
      · have := hnode.1 (by omega)
        rw [hodd] at this
        exact le_trans this hp
      · have e : 2 * ((k - 1) / 2) + 2 = k := by omega
        have := hnode.2 (by omega)
        rw [e] at this
        exact le_trans this hp

theorem buildHeapLoopExact_spec (n : Int) :
    ∀ (fuel : Nat) (arr : Array Int) (i : Int), n = arr.size → -1 ≤ i → i < n ∨ i = -1 →
      (i + 1).toNat ≤ fuel → HeapFrom arr (i + 1) n →
      ∃ r : Array Int, buildHeapLoopExact n fuel arr i = .ok r ∧ r.size = arr.size ∧
        r.toList.Perm arr.toList ∧ HeapFrom r 0 n := by
  intro fuel
  induction fuel with
  | zero =>
    intro arr i hn h1 h2 hfuel hheap
    have h : ¬ 0 ≤ i := by omega
    have e : i + 1 = 0 := by omega
    rw [e] at hheap
    exact ⟨arr, by simp [buildHeapLoopExact, h], rfl, List.Perm.refl _, hheap⟩
  | succ fuel ih =>
    intro arr i hn h1 h2 hfuel hheap
    by_cases h : 0 ≤ i
    · obtain ⟨a1, hrun1, hperm1, hheap1, _, _⟩ :=
        heapifyExact_spec n n.toNat arr i h (by omega) (by omega) (by omega) hheap
      obtain ⟨r, hrun, hs, hp, hh⟩ := ih a1 (i - 1) (by rw [hperm1.1]; exact hn) (by omega)
        (by omega) (by omega) (by rw [show i - 1 + 1 = i by omega]; exact hheap1)
      refine ⟨r, ?_, hs.trans hperm1.1, hp.trans hperm1.2.1, hh⟩
      simp only [buildHeapLoopExact, h, if_true, hrun1, bind, Except.bind]
      exact hrun
    · have e : i + 1 = 0 := by omega
      rw [e] at hheap
      exact ⟨arr, by simp [buildHeapLoopExact, h], rfl, List.Perm.refl _, hheap⟩

theorem extractLoopExact_spec (n : Int) :
    ∀ (fuel : Nat) (arr : Array Int) (i : Int), n = arr.size → -1 ≤ i → i < n →
      i.toNat ≤ fuel → HeapFrom arr 0 (i + 1) → SortedOn arr (i + 1) (n - 1) →
      (∀ a b : Int, 0 ≤ a → a ≤ i → i < b → b < n → gv arr a ≤ gv arr b) →
      ∃ r : Array Int, extractLoopExact fuel arr i = .ok r ∧ r.size = arr.size ∧
        r.toList.Perm arr.toList ∧ SortedOn r 0 (n - 1) := by
  have done : ∀ (arr : Array Int) (i : Int), -1 ≤ i → ¬ 0 < i →
      SortedOn arr (i + 1) (n - 1) →
      (∀ a b : Int, 0 ≤ a → a ≤ i → i < b → b < n → gv arr a ≤ gv arr b) →
      SortedOn arr 0 (n - 1) := by
    intro arr i h1 h2 hsorted hcross a b q1 q2 q3
    by_cases ha : i + 1 ≤ a
    · exact hsorted a b ha q2 q3
    · by_cases hab : a = b
      · rw [hab]
      · exact hcross a b q1 (by omega) (by omega) (by omega)
  intro fuel
  induction fuel with
  | zero =>
    intro arr i hn h1 h2 hfuel hheap hsorted hcross
    have h : ¬ 0 < i := by omega
    exact ⟨arr, by simp [extractLoopExact, h], rfl, List.Perm.refl _,
      done arr i h1 h hsorted hcross⟩
  | succ fuel ih =>
    intro arr i hn h1 h2 hfuel hheap hsorted hcross
    by_cases h : 0 < i
    · have hswap := swapAt_ok arr 0 i (le_refl _) (by omega) (by omega) (by omega)
      have g := fun k => gv_swp arr 0 i k (le_refl _) (by omega) (by omega) (by omega)
      have gother : ∀ k : Int, k ≠ 0 → k ≠ i → gv (swp arr 0 i) k = gv arr k := by
        intro k q1 q2
        rw [g, if_neg q2, if_neg q1]
      have g0 : gv (swp arr 0 i) 0 = gv arr i := by
        rw [g, if_neg (by omega), if_pos rfl]
      have gi : gv (swp arr 0 i) i = gv arr 0 := by
        rw [g, if_pos rfl]
      have hmax := heap_root_max arr (i + 1) hheap
      obtain ⟨a2, hrun2, hperm2, hheap2, _, _⟩ :=
        heapifyExact_spec i i.toNat (swp arr 0 i) 0 (le_refl _) h (by simp; omega) (by omega)
          (by
            intro j hj1 hj2
            have := hheap j (by omega) (by omega)
            rw [gother j (by omega) (by omega)]
            constructor
            · intro q
              rw [gother (2 * j + 1) (by omega) (by omega)]
              exact this.1 (by omega)
            · intro q
              rw [gother (2 * j + 2) (by omega) (by omega)]
              exact this.2 (by omega))
      have s2 : a2.size = arr.size := by rw [hperm2.1]; simp
      have hi2 : gv a2 i = gv arr 0 := by rw [hperm2.2.2.1 i (by omega), gi]
      have hhigh : ∀ k : Int, i < k → gv a2 k = gv arr k := by
        intro k hk
        rw [hperm2.2.2.1 k (by omega), gother k (by omega) (by omega)]
      have hlowval : ∀ k : Int, 0 ≤ k → k ≤ i - 1 → ∃ k2 : Int, 0 ≤ k2 ∧ k2 ≤ i ∧
          gv a2 k = gv arr k2 := by
        intro k q1 q2
        obtain ⟨k2, c1, c2, c3⟩ := hperm2.2.2.2 k q1 q2
        by_cases e : k2 = 0
        · exact ⟨i, by omega, le_refl _, by rw [c3, e, g0]⟩
        · exact ⟨k2, c1, by omega, by rw [c3, gother k2 e (by omega)]⟩
      obtain ⟨r, hrun, hs, hp, hsort⟩ := ih a2 (i - 1) (by rw [s2]; exact hn) (by omega)
        (by omega) (by omega) (by rw [show i - 1 + 1 = i by omega]; exact hheap2)
        (by
          rw [show i - 1 + 1 = i by omega]
          intro a b q1 q2 q3
          by_cases ea : a = i
          · by_cases eb : b = i
            · rw [ea, eb]
            · rw [ea, hi2, hhigh b (by omega)]
              exact hcross 0 b (le_refl _) (by omega) (by omega) (by omega)
          · rw [hhigh a (by omega), hhigh b (by omega)]
            exact hsorted a b (by omega) q2 q3)
        (by
          intro a b q1 q2 q3 q4
          obtain ⟨k2, c1, c2, c3⟩ := hlowval a q1 q2
          rw [c3]
          by_cases eb : b = i
          · rw [eb, hi2]
            exact hmax k2.toNat k2 c1 (by omega) (le_refl _)
          · rw [hhigh b (by omega)]
            exact hcross k2 b c1 c2 (by omega) q4)
      refine ⟨r, ?_, hs.trans s2, hp.trans (hperm2.2.1.trans
        (perm_swp arr 0 i (le_refl _) (by omega) (by omega) (by omega))), hsort⟩
      simp only [extractLoopExact, h, if_true, hswap, hrun2, bind, Except.bind]
      exact hrun
    · exact ⟨arr, by simp [extractLoopExact, h], rfl, List.Perm.refl _,
        done arr i h1 h hsorted hcross⟩

theorem heapSortExact_spec (arr : Array Int) :
    ∃ r : Array Int, heapSortExact arr = .ok r ∧ r.size = arr.size ∧
      r.toList.Perm arr.toList ∧ SortedOn r 0 ((r.size : Int) - 1) := by
  have hdiv : Int.tdiv (arr.size : Int) 2 = (arr.size : Int) / 2 :=
    Int.tdiv_eq_ediv (by omega) (by omega)
  obtain ⟨a1, hrun1, hs1, hp1, hheap1⟩ :=
    buildHeapLoopExact_spec (arr.size : Int) arr.size arr (Int.tdiv (arr.size : Int) 2 - 1) rfl
      (by omega) (by omega) (by omega)
      (by
        intro j hj1 hj2
        exact ⟨fun q => by omega, fun q => by omega⟩)
  obtain ⟨r, hrun, hs, hp, hsort⟩ :=
    extractLoopExact_spec (arr.size : Int) arr.size a1 ((arr.size : Int) - 1) (by rw [hs1])
      (by omega) (by omega) (by omega)
      (by rw [show (arr.size : Int) - 1 + 1 = arr.size by omega]; exact hheap1)
      (fun a b q1 q2 q3 => by omega)
      (fun a b q1 q2 q3 q4 => by omega)
  refine ⟨r, ?_, hs.trans hs1, hp.trans hp1, ?_⟩
  · simp only [heapSortExact, hrun1, bind, Except.bind]
    exact hrun
  · rw [hs.trans hs1]
    exact hsort

/-! ### Merge sort -/

theorem mergeLists_nil_left (ys : List Int) : mergeLists [] ys = ys := by
  simp [mergeLists]

theorem mergeLists_nil_right (xs : List Int) : mergeLists xs [] = xs := by
  cases xs <;> simp [mergeLists]

theorem mergeLists_cons_cons (x y : Int) (xs ys : List Int) :
    mergeLists (x :: xs) (y :: ys) =
      if x < y then x :: mergeLists xs (y :: ys) else y :: mergeLists (x :: xs) ys := by
  rw [mergeLists]

theorem mergeLists_perm : ∀ (n : Nat) (xs ys : List Int), xs.length + ys.length ≤ n →
    (mergeLists xs ys).Perm (xs ++ ys) := by
  intro n
  induction n with
  | zero =>
    intro xs ys h
    have h1 : xs = [] := List.length_eq_zero.mp (by omega)
    subst h1
    simp [mergeLists_nil_left]
  | succ n ih =>
    intro xs ys h
    cases xs with
    | nil => simp [mergeLists_nil_left]
    | cons x xs =>
      cases ys with
      | nil => simp [mergeLists_nil_right]
      | cons y ys =>
        rw [mergeLists_cons_cons]
        split
        · have := ih xs (y :: ys) (by simp at h ⊢; omega)
          simpa using this
        · have := ih (x :: xs) ys (by simp at h ⊢; omega)
          exact (List.Perm.cons y this).trans (List.perm_middle.symm)

theorem mergeLists_sorted : ∀ (n : Nat) (xs ys : List Int), xs.length + ys.length ≤ n →
    xs.Sorted (· ≤ ·) → ys.Sorted (· ≤ ·) → (mergeLists xs ys).Sorted (· ≤ ·) := by
  intro n
  induction n with
  | zero =>
    intro xs ys h hx hy
    have h1 : xs = [] := List.length_eq_zero.mp (by omega)
    subst h1
    simpa [mergeLists_nil_left] using hy
  | succ n ih =>
    intro xs ys h hx hy
    cases xs with
    | nil => simpa [mergeLists_nil_left] using hy
    | cons x xs =>
      cases ys with
      | nil => simpa [mergeLists_nil_right] using hx
      | cons y ys =>
        rw [mergeLists_cons_cons]
        have hx2 := List.sorted_cons.mp hx
        have hy2 := List.sorted_cons.mp hy
        split
        · rename_i hlt
          refine List.sorted_cons.mpr ⟨?_, ih xs (y :: ys) (by simp at h ⊢; omega) hx2.2 hy⟩
          intro b hb
          have hb2 := (mergeLists_perm _ xs (y :: ys) (le_refl _)).mem_iff.mp hb
          rcases List.mem_append.mp hb2 with hb3 | hb3
          · exact hx2.1 b hb3
          · rcases List.mem_cons.mp hb3 with hb4 | hb4
            · rw [hb4]; omega
            · have := hy2.1 b hb4; omega
        · rename_i hge
          refine List.sorted_cons.mpr ⟨?_, ih (x :: xs) ys (by simp at h ⊢; omega) hx hy2.2⟩
          intro b hb
          have hb2 := (mergeLists_perm _ (x :: xs) ys (le_refl _)).mem_iff.mp hb
          rcases List.mem_append.mp hb2 with hb3 | hb3
          · rcases List.mem_cons.mp hb3 with hb4 | hb4
            · rw [hb4]; omega
            · have := hx2.1 b hb4; omega
          · exact hy2.1 b hb3

theorem set_at_boundary (P Q : List Int) (v : Int) (hQ : 0 < Q.length) :
    (P ++ Q).set P.length v = (P ++ [v]) ++ Q.tail := by
  rw [List.set_append_right _ _ (le_refl _)]
  cases Q with
  | nil => simp at hQ
  | cons q Q => simp

theorem gv_eq_toList (arr : Array Int) (k : Nat) (h : k < arr.toList.length) :
    gv arr (k : Int) = arr.toList[k] := by
  rw [gv_natCast arr k (by simpa using h)]
  rfl

theorem drop_tail_pred (Q : List Int) (m : Nat) (hm : 0 < m) :
    Q.tail.drop (m - 1) = Q.drop m := by
  cases Q with
  | nil => simp
  | cons q Q =>
    obtain ⟨m2, rfl⟩ : ∃ m2, m = m2 + 1 := ⟨m - 1, by omega⟩
    simp

theorem copyRest_spec (V : Array Int) :
    ∀ (fuel : Nat) (arr : Array Int) (i k : Int) (iN : Nat) (P Q : List Int),
      arr.toList = P ++ Q → i = iN → k = P.length → iN ≤ V.size →
      V.size - iN ≤ Q.length → V.size - iN ≤ fuel →
      ∃ r : Array Int, copyRest V fuel arr i k = .ok (r, k + ((V.size - iN : Nat) : Int)) ∧
        r.toList = P ++ V.toList.drop iN ++ Q.drop (V.size - iN) := by
  intro fuel
  induction fuel with
  | zero =>
    intro arr i k iN P Q harr hi hk h1 h2 h3
    have hc : ¬ i < V.size := by omega
    have e : V.size - iN = 0 := by omega
    refine ⟨arr, by simp [copyRest, hc, e], ?_⟩
    have e2 : V.toList.drop iN = [] := List.drop_eq_nil_of_le (by simp; omega)
    rw [e, e2, harr]; simp
  | succ fuel ih =>
    intro arr i k iN P Q harr hi hk h1 h2 h3
    by_cases hc : i < V.size
    · have hiN : iN < V.toList.length := by simp; omega
      have hsize : arr.size = P.length + Q.length := by
        have := congrArg List.length harr
        simpa using this
      have hread : readAt V i = .ok (V.toList[iN]) := by
        rw [readAt_ok V i (by omega) hc, hi, gv_eq_toList V iN hiN]
      have hwrite := writeAt_ok arr k (V.toList[iN]) (by omega) (by omega)
      have hlist : (arr.setD k.toNat (V.toList[iN])).toList = (P ++ [V.toList[iN]]) ++ Q.tail := by
        rw [toList_setD, harr, show k.toNat = P.length by omega]
        exact set_at_boundary P Q _ (by omega)
      obtain ⟨r, hrun, hres⟩ := ih (arr.setD k.toNat (V.toList[iN])) (i + 1) (k + 1) (iN + 1)
        (P ++ [V.toList[iN]]) Q.tail hlist (by omega) (by simp; omega) (by simp at hiN; omega)
        (by simp; omega) (by omega)
      refine ⟨r, ?_, ?_⟩
      · simp only [copyRest, hc, if_true, hread, hwrite, bind, Except.bind]
        rw [hrun]
        have : k + 1 + ((V.size - (iN + 1) : Nat) : Int) = k + ((V.size - iN : Nat) : Int) := by
          omega
        rw [this]
      · rw [hres, List.drop_eq_getElem_cons hiN,
          show V.size - (iN + 1) = (V.size - iN) - 1 by omega,
          drop_tail_pred Q (V.size - iN) (by omega)]
        simp
    · have e : V.size - iN = 0 := by omega
      refine ⟨arr, by simp [copyRest, hc, e], ?_⟩
      have e2 : V.toList.drop iN = [] := List.drop_eq_nil_of_le (by simp; omega)
      rw [e, e2, harr]; simp

theorem mergeLoop_spec (L R : Array Int) :
    ∀ (fuel : Nat) (arr : Array Int) (i j k : Int) (iN jN : Nat) (P Q : List Int),
      arr.toList = P ++ Q → i = iN → j = jN → k = P.length → iN ≤ L.size → jN ≤ R.size →
      (L.size - iN) + (R.size - jN) ≤ Q.length → (L.size - iN) + (R.size - jN) ≤ fuel →
      ∃ (r1 : Array Int) (i2 j2 k2 : Int) (r2 : Array Int) (k3 : Int) (r3 : Array Int),
        mergeLoop L R fuel arr i j k = .ok (r1, i2, j2, k2) ∧
        copyRest L L.size r1 i2 k2 = .ok (r2, k3) ∧
        copyRest R R.size r2 j2 k3 =
          .ok (r3, k + (((L.size - iN) + (R.size - jN) : Nat) : Int)) ∧
        r3.toList = P ++ mergeLists (L.toList.drop iN) (R.toList.drop jN) ++
          Q.drop ((L.size - iN) + (R.size - jN)) := by
  have finish : ∀ (arr : Array Int) (i j k : Int) (iN jN : Nat) (P Q : List Int),
      arr.toList = P ++ Q → i = iN → j = jN → k = P.length → iN ≤ L.size → jN ≤ R.size →
      (L.size - iN) + (R.size - jN) ≤ Q.length → ¬ (i < L.size ∧ j < R.size) →
      ∃ (r2 : Array Int) (k3 : Int) (r3 : Array Int),
        copyRest L L.size arr i k = .ok (r2, k3) ∧
        copyRest R R.size r2 j k3 =
          .ok (r3, k + (((L.size - iN) + (R.size - jN) : Nat) : Int)) ∧
        r3.toList = P ++ mergeLists (L.toList.drop iN) (R.toList.drop jN) ++
          Q.drop ((L.size - iN) + (R.size - jN)) := by
    intro arr i j k iN jN P Q harr hi hj hk h1 h2 h3 hc
    obtain ⟨r2, hrun2, hres2⟩ := copyRest_spec L L.size arr i k iN P Q harr hi hk h1
      (by omega) (by omega)
    obtain ⟨r3, hrun3, hres3⟩ := copyRest_spec R R.size r2 j (k + ((L.size - iN : Nat) : Int)) jN
      (P ++ L.toList.drop iN) (Q.drop (L.size - iN)) (by rw [hres2]) hj
      (by simp; omega) h2 (by simp; omega) (by omega)
    refine ⟨r2, _, r3, hrun2, ?_, ?_⟩
    · rw [hrun3]
      have : k + ((L.size - iN : Nat) : Int) + ((R.size - jN : Nat) : Int) =
          k + (((L.size - iN) + (R.size - jN) : Nat) : Int) := by omega
      rw [this]
    · rw [hres3]
      by_cases e : iN = L.size
      · have e2 : L.toList.drop iN = [] := List.drop_eq_nil_of_le (by simp; omega)
        rw [e2, mergeLists_nil_left]
        simp [e]
      · have e3 : jN = R.size := by omega
        have e2 : R.toList.drop jN = [] := List.drop_eq_nil_of_le (by simp; omega)
        rw [e2, mergeLists_nil_right]
        simp [e3]
  intro fuel
  induction fuel with
  | zero =>
    intro arr i j k iN jN P Q harr hi hj hk h1 h2 h3 h4
    have hc : ¬ (i < L.size ∧ j < R.size) := by omega
    obtain ⟨r2, k3, r3, q1, q2, q3⟩ := finish arr i j k iN jN P Q harr hi hj hk h1 h2 h3 hc
    exact ⟨arr, i, j, k, r2, k3, r3, by simp [mergeLoop, hc], q1, q2, q3⟩
  | succ fuel ih =>
    intro arr i j k iN jN P Q harr hi hj hk h1 h2 h3 h4
    by_cases hc : i < L.size ∧ j < R.size
    · have hiN : iN < L.toList.length := by simp; omega
      have hjN : jN < R.toList.length := by simp; omega
      have hsize : arr.size = P.length + Q.length := by
        have := congrArg List.length harr
        simpa using this
      have hreadL : readAt L i = .ok (L.toList[iN]) := by
        rw [readAt_ok L i (by omega) hc.1, hi, gv_eq_toList L iN hiN]
      have hreadR : readAt R j = .ok (R.toList[jN]) := by
        rw [readAt_ok R j (by omega) hc.2, hj, gv_eq_toList R jN hjN]
      simp at hiN hjN
      by_cases hlt : L.toList[iN] < R.toList[jN]
      · have hwrite := writeAt_ok arr k (L.toList[iN]) (by omega) (by omega)
        have hlist : (arr.setD k.toNat (L.toList[iN])).toList =
            (P ++ [L.toList[iN]]) ++ Q.tail := by
          rw [toList_setD, harr, show k.toNat = P.length by omega]
          exact set_at_boundary P Q _ (by omega)
        obtain ⟨r1, i2, j2, k2, r2, k3, r3, q0, q1, q2, q3⟩ :=
          ih (arr.setD k.toNat (L.toList[iN])) (i + 1) j (k + 1) (iN + 1) jN
            (P ++ [L.toList[iN]]) Q.tail hlist (by omega) hj (by simp; omega) (by omega) h2
            (by simp; omega) (by omega)
        refine ⟨r1, i2, j2, k2, r2, k3, r3, ?_, q1, ?_, ?_⟩
        · simp only [mergeLoop, hc, and_self, if_true, hreadL, hreadR, hlt, hwrite, bind,
            Except.bind]
          exact q0
        · rw [q2]
          have : k + 1 + (((L.size - (iN + 1)) + (R.size - jN) : Nat) : Int) =
              k + (((L.size - iN) + (R.size - jN) : Nat) : Int) := by omega
          rw [this]
        · rw [q3, List.drop_eq_getElem_cons (by simpa using hiN : iN < L.toList.length),
            List.drop_eq_getElem_cons (by simpa using hjN : jN < R.toList.length),
            mergeLists_cons_cons, if_pos hlt,
            show (L.size - (iN + 1)) + (R.size - jN) = ((L.size - iN) + (R.size - jN)) - 1 by
              omega,
            drop_tail_pred Q _ (by omega)]
          simp
      · have hwrite := writeAt_ok arr k (R.toList[jN]) (by omega) (by omega)
        have hlist : (arr.setD k.toNat (R.toList[jN])).toList =
            (P ++ [R.toList[jN]]) ++ Q.tail := by
          rw [toList_setD, harr, show k.toNat = P.length by omega]
          exact set_at_boundary P Q _ (by omega)
        obtain ⟨r1, i2, j2, k2, r2, k3, r3, q0, q1, q2, q3⟩ :=
          ih (arr.setD k.toNat (R.toList[jN])) i (j + 1) (k + 1) iN (jN + 1)
            (P ++ [R.toList[jN]]) Q.tail hlist hi (by omega) (by simp; omega) h1 (by omega)
            (by simp; omega) (by omega)
        refine ⟨r1, i2, j2, k2, r2, k3, r3, ?_, q1, ?_, ?_⟩
        · simp only [mergeLoop, hc, and_self, if_true, hreadL, hreadR, hlt, if_false, hwrite,
            bind, Except.bind]
          exact q0
        · rw [q2]
          have : k + 1 + (((L.size - iN) + (R.size - (jN + 1)) : Nat) : Int) =
              k + (((L.size - iN) + (R.size - jN) : Nat) : Int) := by omega
          rw [this]
        · rw [q3, List.drop_eq_getElem_cons (by simpa using hiN : iN < L.toList.length),
            List.drop_eq_getElem_cons (by simpa using hjN : jN < R.toList.length),
            mergeLists_cons_cons, if_neg hlt,
            show (L.size - iN) + (R.size - (jN + 1)) = ((L.size - iN) + (R.size - jN)) - 1 by
              omega,
            drop_tail_pred Q _ (by omega)]
          simp
    · obtain ⟨r2, k3, r3, q1, q2, q3⟩ := finish arr i j k iN jN P Q harr hi hj hk h1 h2 h3 hc
      exact ⟨arr, i, j, k, r2, k3, r3, by simp [mergeLoop, hc], q1, q2, q3⟩

theorem sliceVec_ok (arr : Array Int) (a b : Int) (h1 : 0 ≤ a) (h2 : a ≤ b)
    (h3 : b ≤ arr.size) : sliceVec arr a b = .ok (arr.extract a.toNat b.toNat) := by
  simp [sliceVec, h1, h2, h3]

theorem mergeRun_spec (arr : Array Int) (left mid right : Int) (A X Y C : List Int)
    (harr : arr.toList = A ++ X ++ Y ++ C) (hl : left = A.length)
    (hm : mid + 1 = A.length + X.length) (hr : right + 1 = A.length + X.length + Y.length) :
    ∃ r : Array Int, mergeRun arr left mid right = .ok (r, right + 1) ∧
      r.toList = A ++ mergeLists X Y ++ C := by
  have hsize : arr.size = A.length + X.length + Y.length + C.length := by
    have := congrArg List.length harr
    simp at this
    omega
  have s1 := sliceVec_ok arr left (mid + 1) (by omega) (by omega) (by omega)
  have s2 := sliceVec_ok arr (mid + 1) (right + 1) (by omega) (by omega) (by omega)
  have e1 : (arr.extract left.toNat (mid + 1).toNat).toList = X := by
    rw [Array.toList_extract, harr, show left.toNat = A.length by omega,
      show (mid + 1).toNat - A.length = X.length by omega]
    simp [List.append_assoc]
  have e2 : (arr.extract (mid + 1).toNat (right + 1).toNat).toList = Y := by
    rw [Array.toList_extract, harr, show (mid + 1).toNat = (A ++ X).length by simp; omega,
      show (right + 1).toNat - (A ++ X).length = Y.length by simp; omega]
    simp [List.append_assoc]
  have z1 : (arr.extract left.toNat (mid + 1).toNat).size = X.length := by
    rw [← e1]
  have z2 : (arr.extract (mid + 1).toNat (right + 1).toNat).size = Y.length := by
    rw [← e2]
  obtain ⟨r1, i2, j2, k2, r2, k3, r3, q0, q1, q2, q3⟩ :=
    mergeLoop_spec (arr.extract left.toNat (mid + 1).toNat)
      (arr.extract (mid + 1).toNat (right + 1).toNat)
      ((arr.extract left.toNat (mid + 1).toNat).size +
        (arr.extract (mid + 1).toNat (right + 1).toNat).size)
      arr 0 0 left 0 0 A (X ++ Y ++ C) (by rw [harr]; simp) rfl rfl hl (Nat.zero_le _)
      (Nat.zero_le _) (by rw [z1, z2]; simp) (by omega)
  refine ⟨r3, ?_, ?_⟩
  · simp only [mergeRun, s1, s2, q0, q1, bind, Except.bind]
    rw [q2, z1, z2]
    have : left + ((X.length - 0 + (Y.length - 0) : Nat) : Int) = right + 1 := by omega
    rw [this]
  · rw [q3, e1, e2, z1, z2]
    simp

theorem merge_spec (arr : Array Int) (left mid right : Int) (A X Y C : List Int)
    (harr : arr.toList = A ++ X ++ Y ++ C) (hl : left = A.length)
    (hm : mid + 1 = A.length + X.length) (hr : right + 1 = A.length + X.length + Y.length) :
    ∃ r : Array Int, merge arr left mid right = .ok r ∧
      r.toList = A ++ mergeLists X Y ++ C := by
  obtain ⟨r, hrun, hres⟩ := mergeRun_spec arr left mid right A X Y C harr hl hm hr
  exact ⟨r, by simp [merge, hrun, bind, Except.bind, pure, Except.pure], hres⟩

theorem sorted_of_length_le_one (B : List Int) (h : B.length ≤ 1) : B.Sorted (· ≤ ·) := by
  cases B with
  | nil => exact List.sorted_nil
  | cons b B =>
    cases B with
    | nil => exact List.sorted_singleton b
    | cons c B => simp at h

theorem mergeSortHelper_spec :
    ∀ (fuel : Nat) (arr : Array Int) (left right : Int) (A B C : List Int),
      arr.toList = A ++ B ++ C → left = A.length → right + 1 = A.length + B.length →
      B.length - 1 ≤ fuel →
      ∃ (r : Array Int) (s : List Int), mergeSortHelper fuel arr left right = .ok r ∧
        r.toList = A ++ s ++ C ∧ s.Perm B ∧ s.Sorted (· ≤ ·) := by
  intro fuel
  induction fuel with
  | zero =>
    intro arr left right A B C harr hl hr hfuel
    have h : ¬ left < right := by omega
    exact ⟨arr, B, by simp [mergeSortHelper, h], harr, List.Perm.refl _,
      sorted_of_length_le_one B (by omega)⟩
  | succ fuel ih =>
    intro arr left right A B C harr hl hr hfuel
    by_cases h : left < right
    · have hdiv : Int.tdiv (right - left) 2 = (right - left) / 2 :=
        Int.tdiv_eq_ediv (by omega) (by omega)
      obtain ⟨hN, hhN⟩ : ∃ hN : Nat, (hN : Int) = (right - left) / 2 + 1 :=
        ⟨((right - left) / 2 + 1).toNat, by omega⟩
      have hlen1 : (B.take hN).length = hN := by
        rw [List.length_take]; omega
      have hlen2 : (B.drop hN).length = B.length - hN := by
        rw [List.length_drop]
      have hsplit : B.take hN ++ B.drop hN = B := List.take_append_drop hN B
      obtain ⟨a1, s1, run1, res1, perm1, sorted1⟩ :=
        ih arr left (left + (right - left) / 2) A (B.take hN) (B.drop hN ++ C)
          (by rw [harr, List.append_assoc A (B.take hN), ← List.append_assoc (B.take hN), hsplit,
            List.append_assoc]) hl
          (by rw [hlen1]; omega) (by rw [hlen1]; omega)
      have l1 : s1.length = hN := by rw [perm1.length_eq, hlen1]
      obtain ⟨a2, s2, run2, res2, perm2, sorted2⟩ :=
        ih a1 (left + (right - left) / 2 + 1) right (A ++ s1) (B.drop hN) C
          (by rw [res1]; simp [List.append_assoc]) (by simp [l1]; omega)
          (by simp [l1, hlen2]; omega) (by rw [hlen2]; omega)
      obtain ⟨r, run3, res3⟩ :=
        merge_spec a2 left (left + (right - left) / 2) right A s1 s2 C
          (by rw [res2]) hl (by rw [l1]; omega)
          (by rw [l1, perm2.length_eq, hlen2]; omega)
      refine ⟨r, mergeLists s1 s2, ?_, res3, ?_, ?_⟩
      · simp only [mergeSortHelper, h, if_true, hdiv, run1, run2, bind, Except.bind]
        exact run3
      · have := (mergeLists_perm _ s1 s2 (le_refl _)).trans (perm1.append perm2)
        rwa [hsplit] at this
      · exact mergeLists_sorted _ s1 s2 (le_refl _) sorted1 sorted2
    · exact ⟨arr, B, by simp [mergeSortHelper, h], harr, List.Perm.refl _,
        sorted_of_length_le_one B (by omega)⟩

theorem sortedOn_of_sorted_toList (r : Array Int) (h : r.toList.Sorted (· ≤ ·)) :
    SortedOn r 0 ((r.size : Int) - 1) := by
  unfold List.Sorted at h
  rw [List.pairwise_iff_getElem] at h
  intro a b h1 h2 h3
  by_cases hab : a = b
  · rw [hab]
  · have := h a.toNat b.toNat (by simp; omega) (by simp; omega) (by omega)
    rw [← gv_eq_toList r a.toNat (by simp; omega), ← gv_eq_toList r b.toNat (by simp; omega),
      show ((a.toNat : Nat) : Int) = a by omega, show ((b.toNat : Nat) : Int) = b by omega]
      at this
    exact this

theorem mergeSort_spec (arr : Array Int) (hsize : arr.size ≤ 2147483647) :
    ∃ r : Array Int, mergeSort arr = .ok r ∧ r.size = arr.size ∧
      r.toList.Perm arr.toList ∧ SortedOn r 0 ((r.size : Int) - 1) := by
  unfold mergeSort
  rw [w32_eq ((arr.size : Int) - 1) (by omega) (by omega)]
  obtain ⟨r, s, hrun, hres, hperm, hsorted⟩ :=
    mergeSortHelper_spec arr.size arr 0 ((arr.size : Int) - 1) [] arr.toList []
      (by simp) (by simp) (by simp) (by simp)
  have e : r.toList = s := by simpa using hres
  have hp : r.toList.Perm arr.toList := by rw [e]; exact hperm
  refine ⟨r, hrun, ?_, hp, sortedOn_of_sorted_toList r (by rw [e]; exact hsorted)⟩
  have := hp.length_eq
  simpa using this

/-! ### Further facts about the helpers -/

theorem swp_eq_self (arr : Array Int) (i j : Int) (hi0 : 0 ≤ i) (hi1 : i < arr.size)
    (hj0 : 0 ≤ j) (hj1 : j < arr.size) (h : gv arr i = gv arr j) : swp arr i j = arr := by
  apply Array.ext
  · simp
  · intro k h1 h2
    rw [← gv_natCast (swp arr i j) k h1, ← gv_natCast arr k h2, gv_swp arr i j k hi0 hi1 hj0 hj1]
    by_cases e1 : (k : Int) = j
    · rw [if_pos e1, e1, h]
    · rw [if_neg e1]
      by_cases e2 : (k : Int) = i
      · rw [if_pos e2, e2, h]
      · rw [if_neg e2]

theorem partitionLoop_no_smaller (pivot high : Int) :
    ∀ (fuel : Nat) (arr : Array Int) (i j : Int), 0 ≤ j → high < arr.size → j ≤ high →
      (high - j).toNat ≤ fuel → (∀ k : Int, j ≤ k → k < high → ¬ gv arr k < pivot) →
      partitionLoop pivot high fuel arr i j = .ok (arr, i) := by
  intro fuel
  induction fuel with
  | zero =>
    intro arr i j h0 h1 h2 h3 h4
    have hc : ¬ j < high := by omega
    simp [partitionLoop, hc]
  | succ fuel ih =>
    intro arr i j h0 h1 h2 h3 h4
    by_cases hc : j < high
    · have hread := readAt_ok arr j h0 (by omega)
      have hx := h4 j (le_refl _) hc
      simp only [partitionLoop, hc, if_true, hread, hx, if_false, bind, Except.bind]
      exact ih arr i (j + 1) (by omega) h1 (by omega) (by omega)
        (fun k q1 q2 => h4 k (by omega) q2)
    · simp [partitionLoop, hc]

theorem partition_all_equal (arr : Array Int) (low high : Int) (hlo : 0 ≤ low)
    (hlh : low ≤ high) (hhi : high < arr.size)
    (heq : ∀ k : Int, low ≤ k → k ≤ high → gv arr k = gv arr high) :
    partition arr low high = .ok (arr, low) := by
  have hloop := partitionLoop_no_smaller (gv arr high) high (high - low).toNat arr (low - 1) low
    hlo hhi hlh (le_refl _) (fun k q1 q2 => by rw [heq k q1 (by omega)]; omega)
  have hswap := swapAt_ok arr low high hlo (by omega) (by omega) hhi
  rw [swp_eq_self arr low high hlo (by omega) (by omega) hhi (heq low (le_refl _) hlh)] at hswap
  simp only [partition, readAt_ok arr high (by omega) hhi, hloop, bind, Except.bind,
    show low - 1 + 1 = low by omega, hswap, pure, Except.pure]

theorem heapifyExact_total (n : Int) :
    ∀ (fuel : Nat) (arr : Array Int) (i : Int), 0 ≤ i → i < n → n ≤ arr.size →
      (n - i).toNat ≤ fuel + 1 →
      ∃ r : Array Int, heapifyExact fuel arr n i = .ok r ∧ r.size = arr.size := by
  intro fuel
  induction fuel with
  | zero =>
    intro arr i hi hin hn hfuel
    obtain ⟨L, hL, hcase, hLn, _⟩ := heapifyLargestExact_spec arr n i hi hin hn
    have hLi : L = i := by omega
    exact ⟨arr, by simp [heapifyExact, hL, hLi, bind, Except.bind], rfl⟩
  | succ fuel ih =>
    intro arr i hi hin hn hfuel
    obtain ⟨L, hL, hcase, hLn, _⟩ := heapifyLargestExact_spec arr n i hi hin hn
    by_cases hLi : L = i
    · exact ⟨arr, by simp [heapifyExact, hL, hLi, bind, Except.bind], rfl⟩
    · have hswap := swapAt_ok arr i L hi (by omega) (by omega) (by omega)
      obtain ⟨r, hrun, hs⟩ := ih (swp arr i L) L (by omega) hLn (by simpa using hn) (by omega)
      refine ⟨r, ?_, by rw [hs]; simp⟩
      simp only [heapifyExact, hL, hLi, hswap, bind, Except.bind, ne_eq, not_false_eq_true, if_true]
      exact hrun

theorem heapifyLargestExact_index (arr : Array Int) (n i L : Int) (hi : 0 ≤ i)
    (h : heapifyLargestExact arr n i = .ok L) (hne : L ≠ i) : i < L ∧ L < n := by
  unfold heapifyLargestExact at h
  by_cases hl : 2 * i + 1 < n
  · by_cases hr : 2 * i + 2 < n
    · simp only [hl, hr, if_true, bind, Except.bind, pure, Except.pure] at h
      cases h1 : readAt arr (2 * i + 1) with
      | error e => simp [h1] at h
      | ok a =>
        cases h2 : readAt arr i with
        | error e => simp [h1, h2] at h
        | ok b =>
          cases h3 : readAt arr (2 * i + 2) with
          | error e => simp [h1, h2, h3] at h
          | ok c =>
            simp only [h1, h2, h3] at h
            cases h4 : readAt arr (if b < a then 2 * i + 1 else i) with
            | error e => simp [h4] at h
            | ok d =>
              simp only [h4, Except.ok.injEq] at h
              split at h <;> (try split at h) <;> omega
    · simp only [hl, hr, if_true, if_false, bind, Except.bind, pure, Except.pure] at h
      cases h1 : readAt arr (2 * i + 1) with
      | error e => simp [h1] at h
      | ok a =>
        cases h2 : readAt arr i with
        | error e => simp [h1, h2] at h
        | ok b =>
          simp only [h1, h2, Except.ok.injEq] at h
          split at h <;> omega
  · by_cases hr : 2 * i + 2 < n
    · omega
    · simp [hl, hr, bind, Except.bind, pure, Except.pure] at h
      omega

theorem mergeSortHelper_total (fuel : Nat) (arr : Array Int) (left right : Int)
    (hl : 0 ≤ left) (hr : right < arr.size) (hfuel : (right - left).toNat ≤ fuel) :
    ∃ r : Array Int, mergeSortHelper fuel arr left right = .ok r ∧ r.size = arr.size := by
  by_cases h : left < right
  · obtain ⟨r, s, hrun, hres, hperm, _⟩ :=
      mergeSortHelper_spec fuel arr left right (arr.toList.take left.toNat)
        ((arr.toList.drop left.toNat).take (right + 1 - left).toNat)
        ((arr.toList.drop left.toNat).drop (right + 1 - left).toNat)
        (by rw [List.append_assoc, List.take_append_drop, List.take_append_drop])
        (by rw [List.length_take]; simp; omega)
        (by rw [List.length_take, List.length_take, List.length_drop]; simp; omega)
        (by rw [List.length_take, List.length_drop]; simp; omega)
    refine ⟨r, hrun, ?_⟩
    have h1 := congrArg List.length hres
    have h2 := hperm.length_eq
    have h3 : arr.toList = arr.toList.take left.toNat ++
        (arr.toList.drop left.toNat).take (right + 1 - left).toNat ++
        (arr.toList.drop left.toNat).drop (right + 1 - left).toNat := by
      rw [List.append_assoc, List.take_append_drop, List.take_append_drop]
    have h4 := congrArg List.length h3
    simp only [List.length_append, Array.length_toList] at h1 h4
    omega
  · cases fuel <;> exact ⟨arr, by simp [mergeSortHelper, h], rfl⟩

theorem quickSortHelper_total (fuel : Nat) (arr : Array Int) (low high : Int)
    (hl : 0 ≤ low) (hr : high < arr.size) (hfuel : (high - low).toNat ≤ fuel) :
    ∃ r : Array Int, quickSortHelper fuel arr low high = .ok r ∧ r.size = arr.size := by
  obtain ⟨r, hrun, hperm, _⟩ := quickSortHelper_spec fuel arr low high hl hr hfuel
  exact ⟨r, hrun, hperm.1⟩

/-- Summary of the contract shared by the four sorts. -/
theorem sorts_of_spec (arr r : Array Int) (hp : r.toList.Perm arr.toList)
    (hs : SortedOn r 0 ((r.size : Int) - 1)) : NonDecreasing r ∧ SameElements r arr :=
  ⟨nonDecreasing_of_sortedOn r hs, sameElements_of_perm hp⟩

/-! ### Where the `int` arithmetic of heap sort is exact -/

theorem heapifyLargest_eq_exact (arr : Array Int) (n i : Int) (hi : 0 ≤ i)
    (h : i < 1073741823) : heapifyLargest arr n i = heapifyLargestExact arr n i := by
  unfold heapifyLargest heapifyLargestExact
  rw [w32_eq (2 * i + 1) (by omega) (by omega), w32_eq (2 * i + 2) (by omega) (by omega)]

theorem heapify_eq_exact (n : Int) (hn : n ≤ 1073741823) :
    ∀ (fuel : Nat) (arr : Array Int) (i : Int), 0 ≤ i → i < n →
      heapify fuel arr n i = heapifyExact fuel arr n i := by
  intro fuel
  induction fuel with
  | zero =>
    intro arr i hi hin
    simp only [heapify, heapifyExact, heapifyLargest_eq_exact arr n i hi (by omega)]
  | succ fuel ih =>
    intro arr i hi hin
    simp only [heapify, heapifyExact, heapifyLargest_eq_exact arr n i hi (by omega)]
    cases hL : heapifyLargestExact arr n i with
    | error e => rfl
    | ok L =>
      simp only [bind, Except.bind]
      by_cases hLi : L = i
      · simp [hLi]
      · have := heapifyLargestExact_index arr n i L hi hL hLi
        simp only [ne_eq, hLi, not_false_eq_true, if_true]
        cases hs : swapAt arr i L with
        | error e => rfl
        | ok arr1 => exact ih arr1 L (by omega) this.2

theorem buildHeapLoop_eq_exact (n : Int) (hn : n ≤ 1073741823) :
    ∀ (fuel : Nat) (arr : Array Int) (i : Int), i < n →
      buildHeapLoop n fuel arr i = buildHeapLoopExact n fuel arr i := by
  intro fuel
  induction fuel with
  | zero => intro arr i _; rfl
  | succ fuel ih =>
    intro arr i hin
    by_cases h : 0 ≤ i
    · simp only [buildHeapLoop, buildHeapLoopExact, h, if_true,
        heapify_eq_exact n hn _ arr i h hin, w32_eq (i - 1) (by omega) (by omega), bind,
        Except.bind]
      cases heapifyExact n.toNat arr n i with
      | error e => rfl
      | ok arr1 => exact ih arr1 (i - 1) (by omega)
    · simp [buildHeapLoop, buildHeapLoopExact, h]

theorem extractLoop_eq_exact :
    ∀ (fuel : Nat) (arr : Array Int) (i : Int), i ≤ 1073741823 →
      extractLoop fuel arr i = extractLoopExact fuel arr i := by
  intro fuel
  induction fuel with
  | zero => intro arr i _; rfl
  | succ fuel ih =>
    intro arr i hi
    by_cases h : 0 < i
    · simp only [extractLoop, extractLoopExact, h, if_true,
        w32_eq (i - 1) (by omega) (by omega), bind, Except.bind]
      cases swapAt arr 0 i with
      | error e => rfl
      | ok arr1 =>
        simp only [heapify_eq_exact i hi _ arr1 0 (le_refl _) h]
        cases heapifyExact i.toNat arr1 i 0 with
        | error e => rfl
        | ok arr2 => exact ih arr2 (i - 1) (by omega)
    · simp [extractLoop, extractLoopExact, h]

/-- On at most `2^30 - 1` elements no index computation of `heapSort` leaves the range of
a 32-bit `int`. -/
theorem heapSort_eq_exact (arr : Array Int) (h : arr.size ≤ 1073741823) :
    heapSort arr = heapSortExact arr := by
  have hdiv : Int.tdiv (arr.size : Int) 2 = (arr.size : Int) / 2 :=
    Int.tdiv_eq_ediv (by omega) (by omega)
  unfold heapSort heapSortExact
  simp only [w32_eq (arr.size : Int) (by omega) (by omega)]
  rw [w32_eq (Int.tdiv (arr.size : Int) 2 - 1) (by omega) (by omega),
    w32_eq ((arr.size : Int) - 1) (by omega) (by omega),
    buildHeapLoop_eq_exact (arr.size : Int) (by omega) _ arr _ (by omega)]
  simp only [bind, Except.bind]
  cases buildHeapLoopExact (arr.size : Int) arr.size arr (Int.tdiv (arr.size : Int) 2 - 1) with
  | error e => rfl
  | ok arr1 => exact extractLoop_eq_exact _ arr1 _ (by omega)

theorem heapSort_spec (arr : Array Int) (hsize : arr.size ≤ 1073741823) :
    ∃ r : Array Int, heapSort arr = .ok r ∧ r.size = arr.size ∧
      r.toList.Perm arr.toList ∧ SortedOn r 0 ((r.size : Int) - 1) := by
  rw [heapSort_eq_exact arr hsize]
  exact heapSortExact_spec arr

theorem heapify_total (n : Int) (hn : n ≤ 1073741823) (fuel : Nat) (arr : Array Int)
    (i : Int) (hi : 0 ≤ i) (hin : i < n) (hsize : n ≤ arr.size)
    (hfuel : (n - i).toNat ≤ fuel + 1) :
    ∃ r : Array Int, heapify fuel arr n i = .ok r ∧ r.size = arr.size := by
  rw [heapify_eq_exact n hn fuel arr i hi hin]
  exact heapifyExact_total n fuel arr i hi hin hsize hfuel

/-! ### Vectors whose elements are all equal -/

theorem gv_mkArray (n : Nat) (v k : Int) (h0 : 0 ≤ k) (h1 : k < n) :
    gv (Array.mkArray n v) k = v := by
  have e : ((k.toNat : Nat) : Int) = k := by omega
  rw [← e, gv_natCast _ _ (by simp; omega)]
  simp

theorem eq_mkArray_of_perm (n : Nat) (v : Int) (r : Array Int)
    (h : r.toList.Perm (Array.mkArray n v).toList) : r = Array.mkArray n v := by
  have h2 : r.toList = List.replicate n v := by simpa using h
  apply Array.ext'
  rw [h2]
  simp

theorem heapifyLargest_all_equal (arr : Array Int) (v m i : Int)
    (hall : ∀ k : Int, 0 ≤ k → k < arr.size → gv arr k = v) (hi : 0 ≤ i) (him : i < m)
    (hm : m ≤ arr.size) (hr : i < 1073741823) : heapifyLargest arr m i = .ok i := by
  rw [heapifyLargest_eq_exact arr m i hi hr]
  obtain ⟨L, hL, hcase, hLn, _, _, _, hne⟩ := heapifyLargestExact_spec arr m i hi him hm
  by_cases e : L = i
  · rw [hL, e]
  · have := hne e
    rw [hall i hi (by omega), hall L (by omega) (by omega)] at this
    omega

theorem heapify_all_equal (arr : Array Int) (v m i : Int)
    (hall : ∀ k : Int, 0 ≤ k → k < arr.size → gv arr k = v) (hi : 0 ≤ i) (him : i < m)
    (hm : m ≤ arr.size) (hr : i < 1073741823) (fuel : Nat) :
    heapify fuel arr m i = .ok arr := by
  cases fuel <;>
    simp [heapify, heapifyLargest_all_equal arr v m i hall hi him hm hr, bind, Except.bind]

theorem buildHeapLoop_all_equal (arr : Array Int) (v n : Int)
    (hall : ∀ k : Int, 0 ≤ k → k < arr.size → gv arr k = v) (hn : n ≤ arr.size) :
    ∀ (fuel : Nat) (i : Int), (0 ≤ i → i < n) → i < 1073741823 → (i + 1).toNat ≤ fuel →
      buildHeapLoop n fuel arr i = .ok arr := by
  intro fuel
  induction fuel with
  | zero =>
    intro i _ _ hfuel
    have h : ¬ 0 ≤ i := by omega
    simp [buildHeapLoop, h]
  | succ fuel ih =>
    intro i hin hr hfuel
    by_cases h : 0 ≤ i
    · simp only [buildHeapLoop, h, if_true,
        heapify_all_equal arr v n i hall h (hin h) hn hr, bind, Except.bind,
        w32_eq (i - 1) (by omega) (by omega)]
      exact ih (i - 1) (fun _ => by have := hin h; omega) (by omega) (by omega)
    · simp [buildHeapLoop, h]

theorem extractLoop_all_equal (arr : Array Int) (v : Int)
    (hall : ∀ k : Int, 0 ≤ k → k < arr.size → gv arr k = v) :
    ∀ (fuel : Nat) (i : Int), i < arr.size → i ≤ 2147483647 → i.toNat ≤ fuel →
      extractLoop fuel arr i = .ok arr := by
  intro fuel
  induction fuel with
  | zero =>
    intro i _ _ hfuel
    have h : ¬ 0 < i := by omega
    simp [extractLoop, h]
  | succ fuel ih =>
    intro i hin hr hfuel
    by_cases h : 0 < i
    · have hswap := swapAt_ok arr 0 i (le_refl _) (by omega) (by omega) hin
      rw [swp_eq_self arr 0 i (le_refl _) (by omega) (by omega) hin
        (by rw [hall 0 (le_refl _) (by omega), hall i (by omega) hin])] at hswap
      simp only [extractLoop, h, if_true, hswap,
        heapify_all_equal arr v i 0 hall (le_refl _) h (by omega) (by omega), bind,
        Except.bind, w32_eq (i - 1) (by omega) (by omega)]
      exact ih (i - 1) (by omega) (by omega) (by omega)
    · simp [extractLoop, h]

theorem tdiv_two_bounds (n : Int) :
    (0 ≤ n → Int.tdiv n 2 = n / 2) ∧ (n < 0 → Int.tdiv n 2 = -((-n) / 2)) := by
  constructor
  · intro h
    exact Int.tdiv_eq_ediv h (by omega)
  · intro h
    have e : Int.tdiv n 2 = -(Int.tdiv (-n) 2) := by
      rw [← Int.neg_tdiv, neg_neg]
    rw [e, Int.tdiv_eq_ediv (by omega) (by omega)]

theorem heapSort_all_equal (arr : Array Int) (v : Int)
    (hall : ∀ k : Int, 0 ≤ k → k < arr.size → gv arr k = v) : heapSort arr = .ok arr := by
  have hd := tdiv_two_bounds (w32 (arr.size : Int))
  have hw := w32_range (arr.size : Int)
  have hle := w32_le (arr.size : Int) (by omega)
  have hb : buildHeapLoop (w32 (arr.size : Int)) arr.size arr
      (w32 (Int.tdiv (w32 (arr.size : Int)) 2 - 1)) = .ok arr := by
    apply buildHeapLoop_all_equal arr v _ hall hle
    · intro h0
      by_cases hneg : w32 (arr.size : Int) < 0
      · have := hd.2 hneg
        rw [w32_eq _ (by omega) (by omega)] at h0 ⊢
        omega
      · have := hd.1 (by omega)
        rw [w32_eq _ (by omega) (by omega)] at h0 ⊢
        omega
    · by_cases hneg : w32 (arr.size : Int) < 0
      · have := hd.2 hneg
        rw [w32_eq _ (by omega) (by omega)]
        omega
      · have := hd.1 (by omega)
        rw [w32_eq _ (by omega) (by omega)]
        omega
    · by_cases hneg : w32 (arr.size : Int) < 0
      · have := hd.2 hneg
        rw [w32_eq _ (by omega) (by omega)]
        omega
      · have := hd.1 (by omega)
        rw [w32_eq _ (by omega) (by omega)]
        omega
  have he : extractLoop arr.size arr (w32 (w32 (arr.size : Int) - 1)) = .ok arr := by
    have h1 := w32_range (w32 (arr.size : Int) - 1)
    have h2 : w32 (w32 (arr.size : Int) - 1) < arr.size := by
      unfold w32
      omega
    exact extractLoop_all_equal arr v hall _ _ h2 (by omega) (by omega)
  simp only [heapSort, hb, he, bind, Except.bind]

theorem selectMin_all_equal (arr : Array Int) (v n : Int)
    (hall : ∀ k : Int, 0 ≤ k → k < arr.size → gv arr k = v) (hn : n ≤ arr.size) :
    ∀ (fuel : Nat) (j m : Int), 0 ≤ m → m < arr.size → 0 ≤ j → (n - j).toNat ≤ fuel →
      selectMin arr n fuel j m = .ok m := by
  intro fuel
  induction fuel with
  | zero =>
    intro j m _ _ _ hfuel
    have h : ¬ j < n := by omega
    simp [selectMin, h]
  | succ fuel ih =>
    intro j m hm0 hm1 hj hfuel
    by_cases h : j < n
    · have r1 := readAt_ok arr j hj (by omega)
      have r2 := readAt_ok arr m hm0 hm1
      have hlt : ¬ gv arr j < gv arr m := by
        rw [hall j hj (by omega), hall m hm0 hm1]
        omega
      simp only [selectMin, h, if_true, r1, r2, hlt, if_false, bind, Except.bind]
      exact ih (j + 1) m hm0 hm1 (by omega) (by omega)
    · simp [selectMin, h]

theorem selectionLoop_all_equal (arr : Array Int) (v n : Int)
    (hall : ∀ k : Int, 0 ≤ k → k < arr.size → gv arr k = v) (hn : n ≤ arr.size) :
    ∀ (fuel : Nat) (i : Int), 0 ≤ i → (n - 1 - i).toNat ≤ fuel →
      selectionLoop n fuel arr i = .ok arr := by
  intro fuel
  induction fuel with
  | zero =>
    intro i _ hfuel
    have h : ¬ i < n - 1 := by omega
    simp [selectionLoop, h]
  | succ fuel ih =>
    intro i hi hfuel
    by_cases h : i < n - 1
    · have hmin := selectMin_all_equal arr v n hall hn (n - (i + 1)).toNat (i + 1) i hi
        (by omega) (by omega) (le_refl _)
      have hswap := swapAt_ok arr i i hi (by omega) hi (by omega)
      rw [swp_eq_self arr i i hi (by omega) hi (by omega) rfl] at hswap
      simp only [selectionLoop, h, if_true, hmin, hswap, bind, Except.bind]
      exact ih (i + 1) (by omega) (by omega)
    · simp [selectionLoop, h]

theorem selectionSort_all_equal (arr : Array Int) (v : Int)
    (hall : ∀ k : Int, 0 ≤ k → k < arr.size → gv arr k = v) : selectionSort arr = .ok arr := by
  have hle := w32_le (arr.size : Int) (by omega)
  exact selectionLoop_all_equal arr v _ hall hle arr.size 0 (le_refl _) (by omega)

theorem mergeSortHelper_perm (fuel : Nat) (arr : Array Int) (left right : Int)
    (hl : 0 ≤ left) (hr : right < arr.size) (hfuel : (right - left).toNat ≤ fuel) :
    ∃ r : Array Int, mergeSortHelper fuel arr left right = .ok r ∧
      r.toList.Perm arr.toList := by
  by_cases h : left < right
  · obtain ⟨r, s, hrun, hres, hperm, _⟩ :=
      mergeSortHelper_spec fuel arr left right (arr.toList.take left.toNat)
        ((arr.toList.drop left.toNat).take (right + 1 - left).toNat)
        ((arr.toList.drop left.toNat).drop (right + 1 - left).toNat)
        (by rw [List.append_assoc, List.take_append_drop, List.take_append_drop])
        (by rw [List.length_take]; simp; omega)
        (by rw [List.length_take, List.length_take, List.length_drop]; simp; omega)
        (by rw [List.length_take, List.length_drop]; simp; omega)
    refine ⟨r, hrun, ?_⟩
    have h3 : arr.toList = arr.toList.take left.toNat ++
        (arr.toList.drop left.toNat).take (right + 1 - left).toNat ++
        (arr.toList.drop left.toNat).drop (right + 1 - left).toNat := by
      rw [List.append_assoc, List.take_append_drop, List.take_append_drop]
    rw [hres]
    exact List.Perm.trans ((List.Perm.append_left _ hperm).append_right _) (by rw [← h3])
  · cases fuel <;> exact ⟨arr, by simp [mergeSortHelper, h], List.Perm.refl _⟩

theorem mergeSort_all_equal (n : Nat) (v : Int) :
    mergeSort (Array.mkArray n v) = .ok (Array.mkArray n v) := by
  have hle := w32_le (((Array.mkArray n v).size : Int) - 1) (by omega)
  obtain ⟨r, hrun, hp⟩ := mergeSortHelper_perm (Array.mkArray n v).size (Array.mkArray n v) 0
    (w32 (((Array.mkArray n v).size : Int) - 1)) (le_refl _) (by omega) (by omega)
  unfold mergeSort
  rw [hrun, eq_mkArray_of_perm n v r hp]

theorem quickSort_all_equal (n : Nat) (v : Int) :
    quickSort (Array.mkArray n v) = .ok (Array.mkArray n v) := by
  have hle := w32_le (((Array.mkArray n v).size : Int) - 1) (by omega)
  obtain ⟨r, hrun, hp, _⟩ := quickSortHelper_spec (Array.mkArray n v).size (Array.mkArray n v) 0
    (w32 (((Array.mkArray n v).size : Int) - 1)) (le_refl _) (by omega) (by omega)
  unfold quickSort
  rw [hrun, eq_mkArray_of_perm n v r hp.2.1]

/-! ### Agreement of the four sorts where the index arithmetic is exact -/

theorem sorts_agree (A : Array Int) (hsize : A.size ≤ 1073741823) :
    ∃ r : Array Int, selectionSort A = .ok r ∧ mergeSort A = .ok r ∧ quickSort A = .ok r ∧
      heapSort A = .ok r ∧ NonDecreasing r ∧ SameElements r A := by
  obtain ⟨r1, run1, _, p1, s1⟩ := selectionSort_spec A (by omega)
  obtain ⟨r2, run2, _, p2, s2⟩ := mergeSort_spec A (by omega)
  obtain ⟨r3, run3, _, p3, s3⟩ := quickSort_spec A (by omega)
  obtain ⟨r4, run4, _, p4, s4⟩ := heapSort_spec A hsize
  have e2 : r2 = r1 := eq_of_sortedOn_perm r2 r1 s2 s1 (p2.trans p1.symm)
  have e3 : r3 = r1 := eq_of_sortedOn_perm r3 r1 s3 s1 (p3.trans p1.symm)
  have e4 : r4 = r1 := eq_of_sortedOn_perm r4 r1 s4 s1 (p4.trans p1.symm)
  exact ⟨r1, run1, e2 ▸ run2, e3 ▸ run3, e4 ▸ run4, sorts_of_spec A r1 p1 s1⟩

/-! ### Loops and recursions that are not entered -/

theorem selectionLoop_skip (n : Int) (fuel : Nat) (arr : Array Int) (i : Int)
    (h : ¬ i < n - 1) : selectionLoop n fuel arr i = .ok arr := by
  cases fuel <;> simp [selectionLoop, h]

theorem mergeSortHelper_skip (fuel : Nat) (arr : Array Int) (left right : Int)
    (h : ¬ left < right) : mergeSortHelper fuel arr left right = .ok arr := by
  cases fuel <;> simp [mergeSortHelper, h]

theorem quickSortHelper_skip (fuel : Nat) (arr : Array Int) (low high : Int)
    (h : ¬ low < high) : quickSortHelper fuel arr low high = .ok arr := by
  cases fuel <;> simp [quickSortHelper, h]

theorem buildHeapLoop_skip (n : Int) (fuel : Nat) (arr : Array Int) (i : Int)
    (h : ¬ 0 ≤ i) : buildHeapLoop n fuel arr i = .ok arr := by
  cases fuel <;> simp [buildHeapLoop, h]

theorem extractLoop_skip (fuel : Nat) (arr : Array Int) (i : Int)
    (h : ¬ 0 < i) : extractLoop fuel arr i = .ok arr := by
  cases fuel <;> simp [extractLoop, h]

/-! ### Values of the large inputs -/

theorem gv_push_lt (a : Array Int) (x k : Int) (h0 : 0 ≤ k) (h1 : k < a.size) :
    gv (a.push x) k = gv a k := by
  have hne : k.toNat ≠ a.size := by omega
  rw [gv_of_nonneg _ _ h0, gv_of_nonneg _ _ h0, Array.getElem?_push, if_neg hne]

theorem gv_push_eq (a : Array Int) (x k : Int) (hk : k = a.size) : gv (a.push x) k = x := by
  have he : k.toNat = a.size := by omega
  rw [gv_of_nonneg _ _ (by omega), Array.getElem?_push, if_pos he]
  rfl

theorem overflowInput_size : overflowInput.size = 1073741824 := by
  simp [overflowInput]

theorem overflowInput_low (k : Int) (h0 : 0 ≤ k) (h1 : k < 1073741823) :
    gv overflowInput k = 0 := by
  unfold overflowInput
  rw [gv_push_lt _ _ _ h0 (by rw [Array.size_mkArray]; omega)]
  exact gv_mkArray 1073741823 0 k h0 (by omega)

theorem overflowInput_last : gv overflowInput 1073741823 = 1 := by
  unfold overflowInput
  exact gv_push_eq _ _ _ (by rw [Array.size_mkArray]; rfl)

theorem overflowInput_values :
    gv overflowInput 536870911 = 0 ∧ gv overflowInput 1073741823 = 1 :=
  ⟨overflowInput_low 536870911 (by omega) (by omega), overflowInput_last⟩

theorem overflowInput_sorted : NonDecreasing overflowInput := by
  intro i h
  have hs := overflowInput_size
  rw [← gv_natCast overflowInput i (by omega), ← gv_natCast overflowInput (i + 1) h]
  rw [overflowInput_low (i : Int) (by omega) (by omega)]
  by_cases e : i + 1 = 1073741823
  · have hcast : ((i + 1 : Nat) : Int) = 1073741823 := by omega
    rw [hcast, overflowInput_last]
    decide
  · rw [overflowInput_low ((i + 1 : Nat) : Int) (by omega) (by omega)]

theorem narrowInput_size : narrowInput.size = 2147483649 := by
  simp [narrowInput]

theorem narrowInput_values :
    gv narrowInput 1073741823 = 0 ∧ gv narrowInput 2147483647 = 1 ∧
      gv narrowInput 2147483648 = 0 := by
  unfold narrowInput
  refine ⟨?_, ?_, ?_⟩
  · rw [gv_push_lt _ _ _ (by omega) (by rw [Array.size_push, Array.size_mkArray]; omega),
      gv_push_lt _ _ _ (by omega) (by rw [Array.size_mkArray]; omega)]
    exact gv_mkArray 2147483647 0 1073741823 (by omega) (by omega)
  · rw [gv_push_lt _ _ _ (by omega) (by rw [Array.size_push, Array.size_mkArray]; omega)]
    exact gv_push_eq _ _ _ (by rw [Array.size_mkArray]; rfl)
  · exact gv_push_eq _ _ _ (by rw [Array.size_push, Array.size_mkArray]; rfl)

theorem narrowInput_not_sorted : ¬ NonDecreasing narrowInput := by
  intro h
  have hs := narrowInput_size
  have := sortedOn_of_nonDecreasing narrowInput h 2147483647 2147483648 (by omega) (by omega)
    (by omega)
  rw [narrowInput_values.2.1, narrowInput_values.2.2] at this
  omega

/-! ### The four entry points on `narrowInput`: the length does not fit `int` -/

theorem w32_narrow_facts :
    w32 ((2147483649 : Nat) : Int) = -2147483647 ∧
      w32 (((2147483649 : Nat) : Int) - 1) = -2147483648 ∧
      w32 (Int.tdiv (-2147483647) 2 - 1) = -1073741824 ∧
      w32 (-2147483647 - 1) = -2147483648 := by
  have h := (tdiv_two_bounds (-2147483647)).2 (by omega)
  refine ⟨?_, ?_, ?_, ?_⟩
  · unfold w32
    omega
  · unfold w32
    omega
  · rw [h]
    unfold w32
    omega
  · unfold w32
    omega

theorem selectionSort_narrowInput : selectionSort narrowInput = .ok narrowInput := by
  unfold selectionSort
  rw [narrowInput_size, w32_narrow_facts.1]
  exact selectionLoop_skip _ _ _ _ (by omega)

theorem mergeSort_narrowInput : mergeSort narrowInput = .ok narrowInput := by
  unfold mergeSort
  rw [narrowInput_size, w32_narrow_facts.2.1]
  exact mergeSortHelper_skip _ _ _ _ (by omega)

theorem quickSort_narrowInput : quickSort narrowInput = .ok narrowInput := by
  unfold quickSort
  rw [narrowInput_size, w32_narrow_facts.2.1]
  exact quickSortHelper_skip _ _ _ _ (by omega)

theorem buildHeap_narrowInput :
    buildHeapLoop (w32 (narrowInput.size : Int)) narrowInput.size narrowInput
      (w32 (Int.tdiv (w32 (narrowInput.size : Int)) 2 - 1)) = .ok narrowInput := by
  rw [narrowInput_size, w32_narrow_facts.1, w32_narrow_facts.2.2.1]
  exact buildHeapLoop_skip _ _ _ _ (by omega)

theorem heapSort_skip (arr : Array Int)
    (h1 : ¬ 0 ≤ w32 (Int.tdiv (w32 (arr.size : Int)) 2 - 1))
    (h2 : ¬ 0 < w32 (w32 (arr.size : Int) - 1)) : heapSort arr = .ok arr := by
  unfold heapSort
  simp only [buildHeapLoop_skip _ _ _ _ h1, extractLoop_skip _ _ _ h2, bind, Except.bind]

theorem heapSort_narrowInput : heapSort narrowInput = .ok narrowInput := by
  apply heapSort_skip
  · rw [narrowInput_size, w32_narrow_facts.1, w32_narrow_facts.2.2.1]
    omega
  · rw [narrowInput_size, w32_narrow_facts.1, w32_narrow_facts.2.2.2]
    omega

/-! ### Heap sort on `overflowInput`: `2 * i + 2` leaves the range of `int` -/

theorem heapifyLargest_overflow (arr : Array Int) :
    heapifyLargest arr 1073741824 1073741823 = .error .outOfBounds := by
  have e1 : w32 2147483647 = 2147483647 := by decide
  have e2 : w32 2147483648 = -2147483648 := by decide
  have e3 : readAt arr (-2147483648) = .error .outOfBounds := by simp [readAt]
  simp [heapifyLargest, e1, e2, e3, bind, Except.bind, pure, Except.pure]

theorem heapify_overflow (fuel : Nat) (arr : Array Int) :
    heapify fuel arr 1073741824 1073741823 = .error .outOfBounds := by
  cases fuel <;> simp [heapify, heapifyLargest_overflow, bind, Except.bind]

theorem heapSort_fault (arr : Array Int) (hsize : arr.size = 1073741824)
    (h : gv arr 536870911 < gv arr 1073741823) : heapSort arr = .error .outOfBounds := by
  have e0 : w32 ((1073741824 : Nat) : Int) = 1073741824 := by decide
  have e1 : w32 (Int.tdiv 1073741824 2 - 1) = 536870911 := by decide
  have e2 : w32 1073741823 = 1073741823 := by decide
  have e3 : w32 1073741824 = 1073741824 := by decide
  have r1 := readAt_ok arr 1073741823 (by omega) (by omega)
  have r2 := readAt_ok arr 536870911 (by omega) (by omega)
  have hL : heapifyLargest arr 1073741824 536870911 = .ok 1073741823 := by
    simp [heapifyLargest, e2, e3, r1, r2, h, bind, Except.bind, pure, Except.pure]
  have hswap := swapAt_ok arr 536870911 1073741823 (by omega) (by omega) (by omega) (by omega)
  have hheap : ∀ fuel : Nat, heapify (fuel + 1) arr 1073741824 536870911 =
      .error .outOfBounds := by
    intro fuel
    simp [heapify, hL, hswap, heapify_overflow, bind, Except.bind]
  have hbuild : ∀ fuel : Nat, buildHeapLoop 1073741824 (fuel + 1) arr 536870911 =
      .error .outOfBounds := by
    intro fuel
    have := hheap 1073741823
    simp only [buildHeapLoop, bind, Except.bind]
    rw [show (1073741824 : Int).toNat = 1073741823 + 1 by decide, this]
    simp
  unfold heapSort
  simp only [hsize, e0, e1, bind, Except.bind]
  rw [show (1073741824 : Nat) = 1073741823 + 1 by rfl, hbuild 1073741823]

theorem heapSort_overflowInput : heapSort overflowInput = .error .outOfBounds :=
  heapSort_fault overflowInput overflowInput_size
    (by rw [overflowInput_values.1, overflowInput_values.2]; decide)

/-! ### The by-value parameter of `measureTime` -/

theorem measureTime_run (sortFunc : Array Int → Res (Array Int)) (s : Store) (a : Nat)
    (sortName : String) (v : Array Int) (hv : s.load a = .ok v) :
    measureTime sortFunc s a sortName =
      (sortFunc v >>= fun r => pure (s, Measurement.mk sortName v r)) := by
  cases s with
  | mk cells =>
    have ha : cells[a]? = some v := by
      unfold Store.load at hv
      split at hv <;> simp_all
    have h1 : (cells ++ [v])[cells.length]? = some v := by simp
    cases hr : sortFunc v with
    | error e =>
      simp [measureTime, ha, Store.construct, Store.load, callSort, h1, hr, bind, Except.bind]
    | ok r =>
      have h2 : ((cells ++ [v]).set cells.length r)[cells.length]? = some r := by simp
      have h3 : ((cells ++ [v]).set cells.length r).dropLast = cells := by simp
      simp [measureTime, ha, Store.construct, Store.load, Store.store, Store.destroy, callSort,
        h1, hr, bind, Except.bind, pure, Except.pure]

/-- The store does tell a reference from a copy: a sort called on the argument object
itself changes that object. -/
theorem callSort_changes_object :
    callSort selectionSort (Store.mk [#[3, 1, 2]]) 0 = .ok (Store.mk [#[1, 2, 3]]) := by
  decide

theorem driverRound_run (original : Array Int) :
    driverRound original =
      (selectionSort original >>= fun r1 => mergeSort original >>= fun r2 =>
        quickSort original >>= fun r3 => heapSort original >>= fun r4 =>
          pure (Store.mk [original],
            [Measurement.mk "Selection Sort" original r1,
              Measurement.mk "Merge Sort" original r2,
              Measurement.mk "Quick Sort" original r3,
              Measurement.mk "Heap Sort" original r4])) := by
  have hv : (Store.mk [original]).load 0 = .ok original := rfl
  unfold driverRound
  cases h1 : selectionSort original with
  | error e => simp [measureTime_run _ _ 0 _ original hv, h1, bind, Except.bind]
  | ok r1 =>
    cases h2 : mergeSort original with
    | error e =>
      simp [measureTime_run _ _ 0 _ original hv, h1, h2, bind, Except.bind, pure, Except.pure]
    | ok r2 =>
      cases h3 : quickSort original with
      | error e =>
        simp [measureTime_run _ _ 0 _ original hv, h1, h2, h3, bind, Except.bind, pure,
          Except.pure]
      | ok r3 =>
        cases h4 : heapSort original with
        | error e =>
          simp [measureTime_run _ _ 0 _ original hv, h1, h2, h3, h4, bind, Except.bind, pure,
            Except.pure]
        | ok r4 =>
          simp [measureTime_run _ _ 0 _ original hv, h1, h2, h3, h4, bind, Except.bind, pure,
            Except.pure]

/-! ### The claims on the four sorts -/

/-- C1 fails on `narrowInput`, a vector of `2^31 + 1` integers that is not in
non-decreasing order: `arr.size() - 1 = 2^31` is
narrowed to `high = -2^31`, `quickSortHelper` finds `low < high` false, so `quickSort` returns the vector as it
received it. -/
theorem quickSort_narrowing_counterexample :
    narrowInput.size = 2147483649 ∧ quickSort narrowInput = .ok narrowInput ∧
      ¬ NonDecreasing narrowInput ∧
      ¬ ∃ r : Array Int, quickSort narrowInput = .ok r ∧ NonDecreasing r ∧
        SameElements r narrowInput := by
  refine ⟨narrowInput_size, quickSort_narrowInput, narrowInput_not_sorted, ?_⟩
  rintro ⟨r, hrun, hsorted, _⟩
  rw [quickSort_narrowInput] at hrun
  cases hrun
  exact narrowInput_not_sorted hsorted

/-- C1, amended: for every vector `S` of at most `2^31 - 1` integers, the empty one
included, `quickSort` returns a vector in non-decreasing order (`r[i] <= r[i + 1]` for every
`i < len - 1`) that is a permutation of `S`, every value occurring as often as in `S`;
and `[5, 3, 8, 1, 9, 2]` becomes `[1, 2, 3, 5, 8, 9]`. -/
theorem quickSort_sorted_permutation (S : Array Int) (hsize : S.size ≤ 2147483647) :
    (∃ r : Array Int, quickSort S = .ok r ∧ NonDecreasing r ∧ SameElements r S) ∧
      quickSort (#[5, 3, 8, 1, 9, 2] : Array Int) = .ok #[1, 2, 3, 5, 8, 9] := by
  obtain ⟨r, hrun, _, hp, hs⟩ := quickSort_spec S hsize
  exact ⟨⟨r, hrun, sorts_of_spec S r hp hs⟩, by decide⟩

/-- Witness of C1 as amended, on the vector `[5, 3, 8, 1, 9, 2]`. -/
theorem quickSort_sorted_permutation_witness :
    (#[5, 3, 8, 1, 9, 2] : Array Int).size ≤ 2147483647 ∧
      ((∃ r : Array Int, quickSort (#[5, 3, 8, 1, 9, 2] : Array Int) = .ok r ∧ NonDecreasing r ∧
        SameElements r (#[5, 3, 8, 1, 9, 2] : Array Int)) ∧
      quickSort (#[5, 3, 8, 1, 9, 2] : Array Int) = .ok #[1, 2, 3, 5, 8, 9]) :=
  ⟨by decide, quickSort_sorted_permutation #[5, 3, 8, 1, 9, 2] (by decide)⟩

/-- C2 fails on `narrowInput`, a vector of `2^31 + 1` integers that is not in
non-decreasing order: `int n = arr.size()` narrows the
length to `-(2^31 - 1)`, neither loop is entered, so `heapSort` returns the vector as it
received it. -/
theorem heapSort_narrowing_counterexample :
    narrowInput.size = 2147483649 ∧ heapSort narrowInput = .ok narrowInput ∧
      ¬ NonDecreasing narrowInput ∧
      ¬ ∃ r : Array Int, heapSort narrowInput = .ok r ∧ NonDecreasing r ∧
        SameElements r narrowInput := by
  refine ⟨narrowInput_size, heapSort_narrowInput, narrowInput_not_sorted, ?_⟩
  rintro ⟨r, hrun, hsorted, _⟩
  rw [heapSort_narrowInput] at hrun
  cases hrun
  exact narrowInput_not_sorted hsorted

/-- C2, amended: for every vector `S` of at most `2^30 - 1` integers, the empty one
included, `heapSort` returns a vector in non-decreasing order (`r[i] <= r[i + 1]` for every
`i < len - 1`) that is a permutation of `S`, every value occurring as often as in `S`;
and `[5, 3, 8, 1, 9, 2]` becomes `[1, 2, 3, 5, 8, 9]`. -/
theorem heapSort_sorted_permutation (S : Array Int) (hsize : S.size ≤ 1073741823) :
    (∃ r : Array Int, heapSort S = .ok r ∧ NonDecreasing r ∧ SameElements r S) ∧
      heapSort (#[5, 3, 8, 1, 9, 2] : Array Int) = .ok #[1, 2, 3, 5, 8, 9] := by
  obtain ⟨r, hrun, _, hp, hs⟩ := heapSort_spec S hsize
  exact ⟨⟨r, hrun, sorts_of_spec S r hp hs⟩, by decide⟩

/-- Witness of C2 as amended, on the vector `[5, 3, 8, 1, 9, 2]`. -/
theorem heapSort_sorted_permutation_witness :
    (#[5, 3, 8, 1, 9, 2] : Array Int).size ≤ 1073741823 ∧
      ((∃ r : Array Int, heapSort (#[5, 3, 8, 1, 9, 2] : Array Int) = .ok r ∧ NonDecreasing r ∧
        SameElements r (#[5, 3, 8, 1, 9, 2] : Array Int)) ∧
      heapSort (#[5, 3, 8, 1, 9, 2] : Array Int) = .ok #[1, 2, 3, 5, 8, 9]) :=
  ⟨by decide, heapSort_sorted_permutation #[5, 3, 8, 1, 9, 2] (by decide)⟩

/-- C3 fails on `narrowInput`, a vector of `2^31 + 1` integers that is not in
non-decreasing order: `arr.size() - 1 = 2^31` is
narrowed to `right = -2^31`, `mergeSortHelper` finds `left < right` false, so `mergeSort` returns the vector as it
received it. -/
theorem mergeSort_narrowing_counterexample :
    narrowInput.size = 2147483649 ∧ mergeSort narrowInput = .ok narrowInput ∧
      ¬ NonDecreasing narrowInput ∧
      ¬ ∃ r : Array Int, mergeSort narrowInput = .ok r ∧ NonDecreasing r ∧
        SameElements r narrowInput := by
  refine ⟨narrowInput_size, mergeSort_narrowInput, narrowInput_not_sorted, ?_⟩
  rintro ⟨r, hrun, hsorted, _⟩
  rw [mergeSort_narrowInput] at hrun
  cases hrun
  exact narrowInput_not_sorted hsorted

/-- C3, amended: for every vector `S` of at most `2^31 - 1` integers, the empty one
included, `mergeSort` returns a vector in non-decreasing order (`r[i] <= r[i + 1]` for every
`i < len - 1`) that is a permutation of `S`, every value occurring as often as in `S`;
and `[5, 3, 8, 1, 9, 2]` becomes `[1, 2, 3, 5, 8, 9]`. -/
theorem mergeSort_sorted_permutation (S : Array Int) (hsize : S.size ≤ 2147483647) :
    (∃ r : Array Int, mergeSort S = .ok r ∧ NonDecreasing r ∧ SameElements r S) ∧
      mergeSort (#[5, 3, 8, 1, 9, 2] : Array Int) = .ok #[1, 2, 3, 5, 8, 9] := by
  obtain ⟨r, hrun, _, hp, hs⟩ := mergeSort_spec S hsize
  exact ⟨⟨r, hrun, sorts_of_spec S r hp hs⟩, by decide⟩

/-- Witness of C3 as amended, on the vector `[5, 3, 8, 1, 9, 2]`. -/
theorem mergeSort_sorted_permutation_witness :
    (#[5, 3, 8, 1, 9, 2] : Array Int).size ≤ 2147483647 ∧
      ((∃ r : Array Int, mergeSort (#[5, 3, 8, 1, 9, 2] : Array Int) = .ok r ∧ NonDecreasing r ∧
        SameElements r (#[5, 3, 8, 1, 9, 2] : Array Int)) ∧
      mergeSort (#[5, 3, 8, 1, 9, 2] : Array Int) = .ok #[1, 2, 3, 5, 8, 9]) :=
  ⟨by decide, mergeSort_sorted_permutation #[5, 3, 8, 1, 9, 2] (by decide)⟩

/-- C4 fails on `narrowInput`, a vector of `2^31 + 1` integers that is not in
non-decreasing order: `int n = arr.size()` narrows
the length to `-(2^31 - 1)`, the loop is not entered, so `selectionSort` returns the vector as it
received it. -/
theorem selectionSort_narrowing_counterexample :
    narrowInput.size = 2147483649 ∧ selectionSort narrowInput = .ok narrowInput ∧
      ¬ NonDecreasing narrowInput ∧
      ¬ ∃ r : Array Int, selectionSort narrowInput = .ok r ∧ NonDecreasing r ∧
        SameElements r narrowInput := by
  refine ⟨narrowInput_size, selectionSort_narrowInput, narrowInput_not_sorted, ?_⟩
  rintro ⟨r, hrun, hsorted, _⟩
  rw [selectionSort_narrowInput] at hrun
  cases hrun
  exact narrowInput_not_sorted hsorted

/-- C4, amended: for every vector `S` of at most `2^31 - 1` integers, the empty one
included, `selectionSort` returns a vector in non-decreasing order (`r[i] <= r[i + 1]` for every
`i < len - 1`) that is a permutation of `S`, every value occurring as often as in `S`;
and `[5, 3, 8, 1, 9, 2]` becomes `[1, 2, 3, 5, 8, 9]`. -/
theorem selectionSort_sorted_permutation (S : Array Int) (hsize : S.size ≤ 2147483647) :
    (∃ r : Array Int, selectionSort S = .ok r ∧ NonDecreasing r ∧ SameElements r S) ∧
      selectionSort (#[5, 3, 8, 1, 9, 2] : Array Int) = .ok #[1, 2, 3, 5, 8, 9] := by
  obtain ⟨r, hrun, _, hp, hs⟩ := selectionSort_spec S hsize
  exact ⟨⟨r, hrun, sorts_of_spec S r hp hs⟩, by decide⟩

/-- Witness of C4 as amended, on the vector `[5, 3, 8, 1, 9, 2]`. -/
theorem selectionSort_sorted_permutation_witness :
    (#[5, 3, 8, 1, 9, 2] : Array Int).size ≤ 2147483647 ∧
      ((∃ r : Array Int, selectionSort (#[5, 3, 8, 1, 9, 2] : Array Int) = .ok r ∧ NonDecreasing r ∧
        SameElements r (#[5, 3, 8, 1, 9, 2] : Array Int)) ∧
      selectionSort (#[5, 3, 8, 1, 9, 2] : Array Int) = .ok #[1, 2, 3, 5, 8, 9]) :=
  ⟨by decide, selectionSort_sorted_permutation #[5, 3, 8, 1, 9, 2] (by decide)⟩

/-- Where the index arithmetic is exact (at most `2^30 - 1` elements) the four sorts, each
run on its own copy of `A`, return one and the same vector. -/
theorem sorts_agree_in_range (A : Array Int) (hsize : A.size ≤ 1073741823) :
    ∃ r : Array Int, selectionSort A = .ok r ∧ mergeSort A = .ok r ∧ quickSort A = .ok r ∧
      heapSort A = .ok r := by
  obtain ⟨r, h1, h2, h3, h4, _⟩ := sorts_agree A hsize
  exact ⟨r, h1, h2, h3, h4⟩

/-- A sort meeting the contract returns a vector that is already in order unchanged. -/
theorem sort_fixes_sorted (sort : Array Int → Res (Array Int)) (arr : Array Int)
    (hspec : ∃ r : Array Int, sort arr = .ok r ∧ r.size = arr.size ∧
      r.toList.Perm arr.toList ∧ SortedOn r 0 ((r.size : Int) - 1))
    (harr : NonDecreasing arr) : sort arr = .ok arr := by
  obtain ⟨r, hrun, _, hp, hs⟩ := hspec
  rw [hrun, eq_of_sortedOn_perm r arr hs (sortedOn_of_nonDecreasing arr harr) hp]

/-- Where the index arithmetic is exact (at most `2^30 - 1` elements) each sort returns
a vector that is already in non-decreasing order unchanged, hence fixes its own output. -/
theorem sorts_idempotent_in_range (S : Array Int) (hsize : S.size ≤ 1073741823)
    (hS : NonDecreasing S) :
    selectionSort S = .ok S ∧ mergeSort S = .ok S ∧ quickSort S = .ok S ∧
      heapSort S = .ok S :=
  ⟨sort_fixes_sorted _ S (selectionSort_spec S (by omega)) hS,
    sort_fixes_sorted _ S (mergeSort_spec S (by omega)) hS,
    sort_fixes_sorted _ S (quickSort_spec S (by omega)) hS,
    sort_fixes_sorted _ S (heapSort_spec S hsize) hS⟩

/-- C5 at its failing input `overflowInput`, a vector of `2^30` integers (a length that
fits `int`) already in non-decreasing order: `selectionSort`, `mergeSort` and `quickSort`
return it, while `heapSort` ends in an out-of-bounds read (the overflow of `2 * i + 2` in
`heapify`), so the four do not produce identical output. -/
theorem four_sorts_differ_on_overflowInput :
    overflowInput.size = 1073741824 ∧
      selectionSort overflowInput = .ok overflowInput ∧
      mergeSort overflowInput = .ok overflowInput ∧
      quickSort overflowInput = .ok overflowInput ∧
      heapSort overflowInput = .error .outOfBounds := by
  have hs := overflowInput_size
  exact ⟨hs, sort_fixes_sorted _ _ (selectionSort_spec _ (by omega)) overflowInput_sorted,
    sort_fixes_sorted _ _ (mergeSort_spec _ (by omega)) overflowInput_sorted,
    sort_fixes_sorted _ _ (quickSort_spec _ (by omega)) overflowInput_sorted,
    heapSort_overflowInput⟩

/-- C6 at its failing input `overflowInput`: the vector is in non-decreasing order, and
`heapSort` does not return it unchanged: the run ends in an out-of-bounds read, so
`heapSort` has no result there to be sorted again. -/
theorem heapSort_sorted_input_fault :
    NonDecreasing overflowInput ∧ heapSort overflowInput = .error .outOfBounds ∧
      heapSort overflowInput ≠ .ok overflowInput ∧
      ¬ ∃ r : Array Int, heapSort overflowInput = .ok r ∧ heapSort r = .ok r := by
  refine ⟨overflowInput_sorted, heapSort_overflowInput, ?_, ?_⟩
  · rw [heapSort_overflowInput]
    simp
  · rintro ⟨r, hrun, _⟩
    rw [heapSort_overflowInput] at hrun
    cases hrun

/-- C7: each of the four sorts maps the empty vector to the empty vector and a
one-element vector `[x]` to `[x]`.  On the empty vector `mergeSort` and `quickSort` enter
their helpers with `right = high = size - 1 = -1`, which return without any recursive
call, the loops of `selectionSort` and `heapSort` (bounds `n - 1`, `n / 2 - 1`, `n - 1`)
run zero times, and no element is read or written: on the empty vector every access is
out of bounds, and an out-of-bounds access would make the run fail. -/
theorem sorts_empty_and_singleton (x : Int) :
    (selectionSort (#[] : Array Int) = .ok #[] ∧ mergeSort (#[] : Array Int) = .ok #[] ∧
      quickSort (#[] : Array Int) = .ok #[] ∧ heapSort (#[] : Array Int) = .ok #[]) ∧
    (selectionSort #[x] = .ok #[x] ∧ mergeSort #[x] = .ok #[x] ∧
      quickSort #[x] = .ok #[x] ∧ heapSort #[x] = .ok #[x]) ∧
    (((#[] : Array Int).size : Int) - 1 = -1 ∧
      mergeSortHelper 0 (#[] : Array Int) 0 (-1) = .ok #[] ∧
      quickSortHelper 0 (#[] : Array Int) 0 (-1) = .ok #[]) ∧
    (selectionLoop 0 0 (#[] : Array Int) 0 = .ok #[] ∧
      buildHeapLoop 0 0 (#[] : Array Int) (Int.tdiv 0 2 - 1) = .ok #[] ∧
      extractLoop 0 (#[] : Array Int) (0 - 1) = .ok #[]) ∧
    (∀ i : Int, readAt (#[] : Array Int) i = .error .outOfBounds) ∧
    (∀ i v : Int, writeAt (#[] : Array Int) i v = .error .outOfBounds) := by
  have single : ∀ (sort : Array Int → Res (Array Int)),
      (∃ r : Array Int, sort #[x] = .ok r ∧ r.size = (#[x] : Array Int).size ∧
        r.toList.Perm (#[x] : Array Int).toList ∧ SortedOn r 0 ((r.size : Int) - 1)) →
      sort #[x] = .ok #[x] := by
    intro sort hspec
    obtain ⟨r, hrun, _, hp, _⟩ := hspec
    have : r.toList = [x] := by simpa using hp
    have e : r = #[x] := by cases r; simpa using this
    rw [hrun, e]
  have h1 : (#[x] : Array Int).size = 1 := rfl
  refine ⟨by decide, ⟨single _ (selectionSort_spec _ (by omega)),
    single _ (mergeSort_spec _ (by omega)), single _ (quickSort_spec _ (by omega)),
    single _ (heapSort_spec _ (by omega))⟩, by decide, by decide, ?_, ?_⟩
  · intro i
    unfold readAt
    split <;> simp
  · intro i v
    unfold writeAt
    have : ¬ (0 ≤ i ∧ i < ((#[] : Array Int).size : Int)) := by simp
    rw [if_neg this]

/-! ### The claims on degenerate inputs, the harness and termination -/

/-- C8: on a vector whose elements all equal `v` (any length `n`, any `v`) each of the
four sorts returns the vector it was given, so no access leaves `0 .. n - 1` (such an
access would make the run fail).  Every `partition` call on a valid range returns `low`
and leaves the vector as it is.  `heapify` at a node `i < 2^30 - 1` finds `largest = i`
and exchanges nothing; every `heapify` call of `heapSort` is at such a node: the first
loop visits `0 <= i <= n / 2 - 1` under the bound `n`, the second loop only the root
under a bound `0 < i < length` (`n` being the length narrowed to `int`). -/
theorem sorts_all_equal (n : Nat) (v : Int) :
    (selectionSort (Array.mkArray n v) = .ok (Array.mkArray n v) ∧
      mergeSort (Array.mkArray n v) = .ok (Array.mkArray n v) ∧
      quickSort (Array.mkArray n v) = .ok (Array.mkArray n v) ∧
      heapSort (Array.mkArray n v) = .ok (Array.mkArray n v)) ∧
    (∀ low high : Int, 0 ≤ low → low ≤ high → high < n →
      partition (Array.mkArray n v) low high = .ok (Array.mkArray n v, low)) ∧
    (∀ (m i : Int) (fuel : Nat), 0 ≤ i → i < m → m ≤ n → i < 1073741823 →
      heapifyLargest (Array.mkArray n v) m i = .ok i ∧
        heapify fuel (Array.mkArray n v) m i = .ok (Array.mkArray n v)) ∧
    (∀ i : Int, 0 ≤ i → i ≤ w32 (Int.tdiv (w32 n) 2 - 1) →
      i < w32 n ∧ w32 n ≤ n ∧ i < 1073741823) ∧
    (∀ i : Int, 0 < i → i ≤ w32 (w32 n - 1) → i < n) := by
  have hall : ∀ k : Int, 0 ≤ k → k < (Array.mkArray n v).size →
      gv (Array.mkArray n v) k = v := by
    intro k h0 h1
    exact gv_mkArray n v k h0 (by simpa using h1)
  have hd := tdiv_two_bounds (w32 (n : Int))
  have hw := w32_range (n : Int)
  have hle := w32_le (n : Int) (by omega)
  refine ⟨⟨selectionSort_all_equal _ v hall, mergeSort_all_equal n v, quickSort_all_equal n v,
    heapSort_all_equal _ v hall⟩, ?_, ?_, ?_, ?_⟩
  · intro low high h0 h1 h2
    exact partition_all_equal _ low high h0 h1 (by simpa using h2)
      (fun k q1 q2 => by
        rw [gv_mkArray n v k (by omega) (by omega), gv_mkArray n v high (by omega) h2])
  · intro m i fuel h0 h1 h2 h3
    exact ⟨heapifyLargest_all_equal _ v m i hall h0 h1 (by simpa using h2) h3,
      heapify_all_equal _ v m i hall h0 h1 (by simpa using h2) h3 fuel⟩
  · intro i h0 h1
    by_cases hneg : w32 (n : Int) < 0
    · have := hd.2 hneg
      rw [w32_eq _ (by omega) (by omega)] at h1
      omega
    · have := hd.1 (by omega)
      rw [w32_eq _ (by omega) (by omega)] at h1
      omega
  · intro i h0 h1
    have : w32 (w32 (n : Int) - 1) < n := by
      unfold w32
      omega
    omega

/-- Witness of C8 on the vector `[7, 7, 7]`: the range `0 .. 2`, the node `0`, and the
loop bounds of `heapSort` for the length `3`. -/
theorem sorts_all_equal_witness :
    partition (Array.mkArray 3 (7 : Int)) 0 2 = .ok (Array.mkArray 3 (7 : Int), 0) ∧
      (heapifyLargest (Array.mkArray 3 (7 : Int)) 3 0 = .ok 0 ∧
        heapify 3 (Array.mkArray 3 (7 : Int)) 3 0 = .ok (Array.mkArray 3 (7 : Int))) ∧
      ((0 : Int) < w32 ((3 : Nat) : Int) ∧ w32 ((3 : Nat) : Int) ≤ ((3 : Nat) : Int) ∧
        (0 : Int) < 1073741823) ∧
      (2 : Int) < ((3 : Nat) : Int) :=
  ⟨(sorts_all_equal 3 7).2.1 0 2 (by decide) (by decide) (by decide),
    (sorts_all_equal 3 7).2.2.1 3 0 3 (by decide) (by decide) (by decide) (by decide),
    (sorts_all_equal 3 7).2.2.2.1 0 (by decide) (by decide),
    (sorts_all_equal 3 7).2.2.2.2 2 (by decide) (by decide)⟩

/-- C9: `measureTime` takes the vector by value.  Whatever sort it is given and whatever
object its argument names, a call that returns leaves the store as it found it (the
argument object included), and the vector the sort received is the value of the argument
object.  So whenever a round of the driver (`measureTime` with `selectionSort`,
`mergeSort`, `quickSort`, `heapSort`, in that order, on `original`) returns, `original`
is unchanged and each of the four sorts received `original` as generated, none the output
of an earlier one; and the round does return on every vector of at most `2^30 - 1`
elements, in particular on the vectors generated for the four sizes of `main`. -/
theorem driver_round_non_interference :
    (∀ (sortFunc : Array Int → Res (Array Int)) (s s2 : Store) (a : Nat) (sortName : String)
        (v : Array Int) (m : Measurement),
      s.load a = .ok v → measureTime sortFunc s a sortName = .ok (s2, m) →
        s2 = s ∧ s2.load a = .ok v ∧ m.received = v ∧ sortFunc v = .ok m.produced) ∧
    (∀ (original : Array Int) (st : Store) (ms : List Measurement),
      driverRound original = .ok (st, ms) →
        st.load 0 = .ok original ∧
        ms.map Measurement.received = [original, original, original, original] ∧
        ms.map Measurement.sortName =
          ["Selection Sort", "Merge Sort", "Quick Sort", "Heap Sort"]) ∧
    (∀ original : Array Int, original.size ≤ 1073741823 →
      ∃ r : Array Int, driverRound original = .ok (Store.mk [original],
        [Measurement.mk "Selection Sort" original r, Measurement.mk "Merge Sort" original r,
          Measurement.mk "Quick Sort" original r, Measurement.mk "Heap Sort" original r])) ∧
    (∀ (sample : Nat → Int → Int → Int) (size : Int), size ∈ sizes →
      ∃ original : Array Int, generateRandomArray sample size 1 100000 = .ok original ∧
        original.size ≤ 1073741823) := by
  refine ⟨?_, ?_, ?_, ?_⟩
  · intro sortFunc s s2 a sortName v m hv hrun
    rw [measureTime_run sortFunc s a sortName v hv] at hrun
    cases hr : sortFunc v with
    | error e => simp [hr, bind, Except.bind] at hrun
    | ok r =>
      simp only [hr, bind, Except.bind, pure, Except.pure, Except.ok.injEq,
        Prod.mk.injEq] at hrun
      obtain ⟨e1, e2⟩ := hrun
      subst e1
      subst e2
      exact ⟨rfl, hv, rfl, rfl⟩
  · intro original st ms hrun
    rw [driverRound_run] at hrun
    cases h1 : selectionSort original with
    | error e => simp [h1, bind, Except.bind] at hrun
    | ok r1 =>
      cases h2 : mergeSort original with
      | error e => simp [h1, h2, bind, Except.bind] at hrun
      | ok r2 =>
        cases h3 : quickSort original with
        | error e => simp [h1, h2, h3, bind, Except.bind] at hrun
        | ok r3 =>
          cases h4 : heapSort original with
          | error e => simp [h1, h2, h3, h4, bind, Except.bind] at hrun
          | ok r4 =>
            simp only [h1, h2, h3, h4, bind, Except.bind, pure, Except.pure, Except.ok.injEq,
              Prod.mk.injEq] at hrun
            obtain ⟨e1, e2⟩ := hrun
            subst e1
            subst e2
            exact ⟨rfl, rfl, rfl⟩
  · intro original hsize
    obtain ⟨r, h1, h2, h3, h4, _⟩ := sorts_agree original hsize
    exact ⟨r, by simp only [driverRound_run, h1, h2, h3, h4, bind, Except.bind, pure,
      Except.pure]⟩
  · intro sample size hmem
    have h : size = 1000 ∨ size = 5000 ∨ size = 10000 ∨ size = 20000 := by
      simpa [sizes] using hmem
    have h2 : ¬ size < 0 := by omega
    refine ⟨(Array.mkArray size.toNat (0 : Int)).mapIdx (fun k _ => sample k 1 100000),
      by simp [generateRandomArray, h2], ?_⟩
    simp only [Array.size_mapIdx, Array.size_mkArray]
    omega

theorem measureTime_heapSort_small :
    measureTime heapSort (Store.mk [#[3, 1, 2]]) 0 "Heap Sort" =
      .ok (Store.mk [#[3, 1, 2]], Measurement.mk "Heap Sort" #[3, 1, 2] #[1, 2, 3]) := by
  rw [measureTime_run heapSort (Store.mk [#[3, 1, 2]]) 0 "Heap Sort" #[3, 1, 2] rfl,
    (by decide : heapSort (#[3, 1, 2] : Array Int) = .ok #[1, 2, 3])]
  rfl

theorem driverRound_small :
    driverRound (#[3, 1, 2] : Array Int) = .ok (Store.mk [#[3, 1, 2]],
      [Measurement.mk "Selection Sort" #[3, 1, 2] #[1, 2, 3],
        Measurement.mk "Merge Sort" #[3, 1, 2] #[1, 2, 3],
        Measurement.mk "Quick Sort" #[3, 1, 2] #[1, 2, 3],
        Measurement.mk "Heap Sort" #[3, 1, 2] #[1, 2, 3]]) := by
  rw [driverRound_run, (by decide : selectionSort (#[3, 1, 2] : Array Int) = .ok #[1, 2, 3]),
    (by decide : mergeSort (#[3, 1, 2] : Array Int) = .ok #[1, 2, 3]),
    (by decide : quickSort (#[3, 1, 2] : Array Int) = .ok #[1, 2, 3]),
    (by decide : heapSort (#[3, 1, 2] : Array Int) = .ok #[1, 2, 3])]
  rfl

/-- Witness of C9 on the vector `[3, 1, 2]` and on the size `1000` of `main`. -/
theorem driver_round_non_interference_witness :
    ((Store.mk [#[3, 1, 2]]).load 0 = .ok #[3, 1, 2] ∧
      measureTime heapSort (Store.mk [#[3, 1, 2]]) 0 "Heap Sort" =
        .ok (Store.mk [#[3, 1, 2]], Measurement.mk "Heap Sort" #[3, 1, 2] #[1, 2, 3])) ∧
    (Store.mk [#[3, 1, 2]] = Store.mk [#[3, 1, 2]] ∧
      (Store.mk [#[3, 1, 2]]).load 0 = .ok #[3, 1, 2] ∧
      (Measurement.mk "Heap Sort" #[3, 1, 2] #[1, 2, 3]).received = #[3, 1, 2] ∧
      heapSort (#[3, 1, 2] : Array Int) =
        .ok (Measurement.mk "Heap Sort" #[3, 1, 2] #[1, 2, 3]).produced) ∧
    ((Store.mk [#[3, 1, 2]]).load 0 = .ok #[3, 1, 2] ∧
      [Measurement.mk "Selection Sort" #[3, 1, 2] #[1, 2, 3],
        Measurement.mk "Merge Sort" #[3, 1, 2] #[1, 2, 3],
        Measurement.mk "Quick Sort" #[3, 1, 2] #[1, 2, 3],
        Measurement.mk "Heap Sort" #[3, 1, 2] #[1, 2, 3]].map Measurement.received =
          [#[3, 1, 2], #[3, 1, 2], #[3, 1, 2], #[3, 1, 2]] ∧
      [Measurement.mk "Selection Sort" #[3, 1, 2] #[1, 2, 3],
        Measurement.mk "Merge Sort" #[3, 1, 2] #[1, 2, 3],
        Measurement.mk "Quick Sort" #[3, 1, 2] #[1, 2, 3],
        Measurement.mk "Heap Sort" #[3, 1, 2] #[1, 2, 3]].map Measurement.sortName =
          ["Selection Sort", "Merge Sort", "Quick Sort", "Heap Sort"]) ∧
    ((#[3, 1, 2] : Array Int).size ≤ 1073741823 ∧
      ∃ r : Array Int, driverRound (#[3, 1, 2] : Array Int) = .ok (Store.mk [#[3, 1, 2]],
        [Measurement.mk "Selection Sort" #[3, 1, 2] r, Measurement.mk "Merge Sort" #[3, 1, 2] r,
          Measurement.mk "Quick Sort" #[3, 1, 2] r,
          Measurement.mk "Heap Sort" #[3, 1, 2] r])) ∧
    ((1000 : Int) ∈ sizes ∧
      ∃ original : Array Int,
        generateRandomArray (fun _ lo _ => lo) 1000 1 100000 = .ok original ∧
          original.size ≤ 1073741823) :=
  ⟨⟨rfl, measureTime_heapSort_small⟩,
    driver_round_non_interference.1 heapSort (Store.mk [#[3, 1, 2]]) (Store.mk [#[3, 1, 2]]) 0
      "Heap Sort" #[3, 1, 2] (Measurement.mk "Heap Sort" #[3, 1, 2] #[1, 2, 3]) rfl
      measureTime_heapSort_small,
    driver_round_non_interference.2.1 #[3, 1, 2] (Store.mk [#[3, 1, 2]])
      [Measurement.mk "Selection Sort" #[3, 1, 2] #[1, 2, 3],
        Measurement.mk "Merge Sort" #[3, 1, 2] #[1, 2, 3],
        Measurement.mk "Quick Sort" #[3, 1, 2] #[1, 2, 3],
        Measurement.mk "Heap Sort" #[3, 1, 2] #[1, 2, 3]] driverRound_small,
    ⟨by decide, driver_round_non_interference.2.2.1 #[3, 1, 2] (by decide)⟩,
    ⟨by decide, driver_round_non_interference.2.2.2 (fun _ lo _ => lo) 1000 (by decide)⟩⟩

/-- Where the index arithmetic is exact the recursions are well founded: `mergeSortHelper`
recurses on `[left, mid]` and `[mid + 1, right]` with `left <= mid < right`,
`quickSortHelper` on `[low, p - 1]` and `[p + 1, high]` with `low <= p <= high`, `heapify`
at a node `i < 2^30 - 1` only on an index `largest` with `i < largest < n`; with fuel the
range length (resp. `n - i - 1`) each helper returns a vector. -/
theorem helpers_terminate_in_range :
    (∀ left right : Int, left < right →
      left ≤ left + Int.tdiv (right - left) 2 ∧ left + Int.tdiv (right - left) 2 < right) ∧
    (∀ (arr : Array Int) (left right : Int) (fuel : Nat), 0 ≤ left → right < arr.size →
      (right - left).toNat ≤ fuel →
      ∃ r : Array Int, mergeSortHelper fuel arr left right = .ok r ∧ r.size = arr.size) ∧
    (∀ (arr : Array Int) (low high : Int), 0 ≤ low → low ≤ high → high < arr.size →
      ∃ (r : Array Int) (p : Int), partition arr low high = .ok (r, p) ∧
        r.size = arr.size ∧ low ≤ p ∧ p ≤ high) ∧
    (∀ (arr : Array Int) (low high : Int) (fuel : Nat), 0 ≤ low → high < arr.size →
      (high - low).toNat ≤ fuel →
      ∃ r : Array Int, quickSortHelper fuel arr low high = .ok r ∧ r.size = arr.size) ∧
    (∀ (arr : Array Int) (n i largest : Int), 0 ≤ i → i < 1073741823 →
      heapifyLargest arr n i = .ok largest → largest ≠ i → i < largest ∧ largest < n) ∧
    (∀ (arr : Array Int) (n i : Int) (fuel : Nat), 0 ≤ i → i < n → n ≤ arr.size →
      n ≤ 1073741823 → (n - i).toNat ≤ fuel + 1 →
      ∃ r : Array Int, heapify fuel arr n i = .ok r ∧ r.size = arr.size) := by
  refine ⟨?_, ?_, ?_, ?_, ?_, ?_⟩
  · intro left right h
    rw [Int.tdiv_eq_ediv (by omega) (by omega)]
    omega
  · intro arr left right fuel h1 h2 h3
    exact mergeSortHelper_total fuel arr left right h1 h2 h3
  · intro arr low high h1 h2 h3
    obtain ⟨r, p, hrun, b1, b2, hperm, _⟩ := partition_spec arr low high h1 h2 h3
    exact ⟨r, p, hrun, hperm.1, b1, b2⟩
  · intro arr low high fuel h1 h2 h3
    exact quickSortHelper_total fuel arr low high h1 h2 h3
  · intro arr n i largest h1 h2 h3 h4
    rw [heapifyLargest_eq_exact arr n i h1 h2] at h3
    exact heapifyLargestExact_index arr n i largest h1 h3 h4
  · intro arr n i fuel h1 h2 h3 h4 h5
    exact heapify_total n h4 fuel arr i h1 h2 h3 h5

/-- C10 at its failing input `overflowInput` (`2^30` integers): `heapify(arr, n, i)` with
`n = 2^30` and the leaf `i = 2^30 - 1`, a call with `0 <= i < n <= length`, returns no
vector whatever the recursion depth allowed: `r = 2 * i + 2` overflows and `arr[r]` is
read out of bounds.  `heapSort` reaches that call, so it returns no vector either. -/
theorem heapSort_no_result_on_overflowInput :
    (0 : Int) ≤ 1073741823 ∧ (1073741823 : Int) < 1073741824 ∧
      (1073741824 : Int) ≤ overflowInput.size ∧
      (∀ fuel : Nat, heapify fuel overflowInput 1073741824 1073741823 =
        .error .outOfBounds) ∧
      heapSort overflowInput = .error .outOfBounds ∧
      ¬ ∃ r : Array Int, heapSort overflowInput = .ok r := by
  refine ⟨by decide, by decide, by rw [overflowInput_size]; decide,
    fun fuel => heapify_overflow fuel overflowInput, heapSort_overflowInput, ?_⟩
  rintro ⟨r, hrun⟩
  rw [heapSort_overflowInput] at hrun
  cases hrun

/-! ### Ranges of a vector as lists -/

theorem gv_eq_getElem? (arr : Array Int) (k : Nat) :
    gv arr (k : Int) = (arr.toList[k]?).getD 0 := by
  rw [gv_of_nonneg arr k (by omega), Array.getElem?_eq_getElem?_toList]
  simp

theorem getElem?_eq_of_gv (arr r : Array Int) (k : Nat) (hs : r.size = arr.size)
    (h : gv r (k : Int) = gv arr (k : Int)) : r.toList[k]? = arr.toList[k]? := by
  by_cases hk : k < arr.size
  · have h1 : k < arr.toList.length := by simpa using hk
    have h2 : k < r.toList.length := by simp; omega
    rw [gv_eq_toList r k h2, gv_eq_toList arr k h1] at h
    rw [List.getElem?_eq_getElem h1, List.getElem?_eq_getElem h2, h]
  · rw [List.getElem?_eq_none (by simp; omega), List.getElem?_eq_none (by simp; omega)]

theorem slice_eq (arr : Array Int) (lo hi : Int) :
    slice arr lo hi = (arr.toList.drop lo.toNat).take ((hi + 1).toNat - lo.toNat) := by
  simp [slice]

theorem toList_decomp (arr : Array Int) (lo hi : Int) (h0 : 0 ≤ lo) (h1 : lo ≤ hi + 1)
    (h2 : hi < arr.size) :
    arr.toList = arr.toList.take lo.toNat ++ slice arr lo hi ++ arr.toList.drop (hi + 1).toNat ∧
      (arr.toList.take lo.toNat).length = lo.toNat ∧
      (slice arr lo hi).length = (hi + 1 - lo).toNat := by
  have e : (hi + 1).toNat = lo.toNat + ((hi + 1).toNat - lo.toNat) := by omega
  refine ⟨?_, ?_, ?_⟩
  · have hd : arr.toList.drop (hi + 1).toNat =
        (arr.toList.drop lo.toNat).drop ((hi + 1).toNat - lo.toNat) := by
      rw [List.drop_drop]
      congr 1
    rw [slice_eq, hd, List.append_assoc, List.take_append_drop, List.take_append_drop]
  · rw [List.length_take]; simp; omega
  · rw [slice_eq, List.length_take, List.length_drop]; simp; omega

theorem frame_of_decomp (arr r : Array Int) (A M M2 C : List Int)
    (harr : arr.toList = A ++ M ++ C) (hr : r.toList = A ++ M2 ++ C)
    (hlen : M2.length = M.length) (k : Int)
    (hk : k < A.length ∨ (A.length : Int) + M.length ≤ k) : gv r k = gv arr k := by
  by_cases h0 : 0 ≤ k
  · have e : ((k.toNat : Nat) : Int) = k := by omega
    rw [← e, gv_eq_getElem?, gv_eq_getElem?, harr, hr]
    rcases hk with hk | hk
    · have hlt : k.toNat < A.length := by omega
      rw [List.append_assoc, List.append_assoc, List.getElem?_append_left hlt,
        List.getElem?_append_left hlt]
    · rw [List.getElem?_append_right (by simp; omega),
        List.getElem?_append_right (by simp; omega)]
      simp [hlen]
  · simp [gv, h0]

theorem PermOn.slice_perm {arr r : Array Int} {lo hi : Int} (h : PermOn arr r lo hi)
    (h0 : 0 ≤ lo) (h1 : lo ≤ hi + 1) (h2 : hi < arr.size) :
    (slice r lo hi).Perm (slice arr lo hi) := by
  obtain ⟨hs, hp, hf, _⟩ := h
  obtain ⟨d1, _, _⟩ := toList_decomp arr lo hi h0 h1 h2
  obtain ⟨d2, _, _⟩ := toList_decomp r lo hi h0 h1 (by omega)
  have eA : r.toList.take lo.toNat = arr.toList.take lo.toNat := by
    apply List.ext_getElem?
    intro n
    rw [List.getElem?_take, List.getElem?_take]
    split
    · exact getElem?_eq_of_gv arr r n hs (hf n (by omega))
    · rfl
  have eC : r.toList.drop (hi + 1).toNat = arr.toList.drop (hi + 1).toNat := by
    apply List.ext_getElem?
    intro n
    rw [List.getElem?_drop, List.getElem?_drop]
    exact getElem?_eq_of_gv arr r _ hs (hf _ (by omega))
  rw [d1, d2, eA, eC] at hp
  exact (List.perm_append_left_iff _).mp ((List.perm_append_right_iff _).mp hp)

/-! ### Partition and merge on a range -/

theorem InSubtree.le {i j : Int} (h : InSubtree i j) (hi : 0 ≤ i) : i ≤ j := by
  induction h with
  | root => exact le_refl _
  | left _ ih => omega
  | right _ ih => omega

theorem InSubtree.chain {a b c : Int} (h1 : InSubtree a b) (h2 : InSubtree b c) :
    InSubtree a c := by
  induction h2 with
  | root => exact h1
  | left _ ih => exact InSubtree.left ih
  | right _ ih => exact InSubtree.right ih

theorem InSubtree.parent {a j : Int} (h : InSubtree a j) (hne : j ≠ a) :
    InSubtree a ((j - 1) / 2) := by
  cases h with
  | root => exact absurd rfl hne
  | left h2 =>
    rename_i j2
    have : (2 * j2 + 1 - 1) / 2 = j2 := by omega
    rw [this]; exact h2
  | right h2 =>
    rename_i j2
    have : (2 * j2 + 2 - 1) / 2 = j2 := by omega
    rw [this]; exact h2

theorem InSubtree.split {i j : Int} (h : InSubtree i j) :
    j = i ∨ InSubtree (2 * i + 1) j ∨ InSubtree (2 * i + 2) j := by
  induction h with
  | root => exact Or.inl rfl
  | left _ ih =>
    rcases ih with e | e | e
    · rw [e]; exact Or.inr (Or.inl InSubtree.root)
    · exact Or.inr (Or.inl (InSubtree.left e))
    · exact Or.inr (Or.inr (InSubtree.left e))
  | right _ ih =>
    rcases ih with e | e | e
    · rw [e]; exact Or.inr (Or.inr InSubtree.root)
    · exact Or.inr (Or.inl (InSubtree.right e))
    · exact Or.inr (Or.inr (InSubtree.right e))

theorem InSubtree.unique_path {a b j : Int} (h1 : InSubtree a j) (h2 : InSubtree b j)
    (ha : 0 ≤ a) (hab : a ≤ b) : InSubtree a b := by
  induction h1 with
  | root =>
    have := h2.le (by omega)
    have e : b = a := by omega
    rw [e]; exact InSubtree.root
  | left h ih =>
    rename_i j2
    by_cases e : 2 * j2 + 1 = b
    · rw [← e]; exact InSubtree.left h
    · have := h2.parent e
      rw [show (2 * j2 + 1 - 1) / 2 = j2 by omega] at this
      exact ih this
  | right h ih =>
    rename_i j2
    by_cases e : 2 * j2 + 2 = b
    · rw [← e]; exact InSubtree.right h
    · have := h2.parent e
      rw [show (2 * j2 + 2 - 1) / 2 = j2 by omega] at this
      exact ih this

theorem InSubtree.siblings_disjoint {i j : Int} (hi : 0 ≤ i) (h1 : InSubtree (2 * i + 1) j)
    (h2 : InSubtree (2 * i + 2) j) : False := by
  have h := h1.unique_path h2 (by omega) (by omega)
  have hp := h.parent (by omega)
  rw [show (2 * i + 2 - 1) / 2 = i by omega] at hp
  have := hp.le (by omega)
  omega

theorem InSubtree.of_child {i c j : Int} (hc : c = 2 * i + 1 ∨ c = 2 * i + 2)
    (h : InSubtree c j) : InSubtree i j := by
  rcases hc with e | e
  · exact (e ▸ InSubtree.left InSubtree.root : InSubtree i c).chain h
  · exact (e ▸ InSubtree.right InSubtree.root : InSubtree i c).chain h

theorem heapSubtree_of_leaf (arr : Array Int) (n i : Int) (hi : 0 ≤ i) (h : n ≤ 2 * i + 1) :
    HeapSubtree arr n i := by
  intro j hj hjn
  have := hj.le hi
  exact ⟨fun q => by omega, fun q => by omega⟩

/-! ### Sift-down on a subtree -/

theorem heapifyExact_subtree_spec (n : Int) :
    ∀ (fuel : Nat) (arr : Array Int) (i : Int), 0 ≤ i → i < n → n ≤ arr.size →
      (n - i).toNat ≤ fuel + 1 →
      ∃ r : Array Int, heapifyExact fuel arr n i = .ok r ∧ PermOn arr r i (n - 1) ∧
        (∀ k : Int, ¬ InSubtree i k → gv r k = gv arr k) ∧
        (gv r i = gv arr i ∨ (2 * i + 1 < n ∧ gv r i = gv arr (2 * i + 1)) ∨
          (2 * i + 2 < n ∧ gv r i = gv arr (2 * i + 2))) ∧
        (HeapSubtree arr n (2 * i + 1) → HeapSubtree arr n (2 * i + 2) →
          HeapSubtree r n i) := by
  intro fuel
  induction fuel with
  | zero =>
    intro arr i hi hin hn hfuel
    obtain ⟨L, hL, hcase, hLn, hge, hcl, hcr, hne⟩ := heapifyLargestExact_spec arr n i hi hin hn
    have hLi : L = i := by omega
    subst hLi
    refine ⟨arr, by simp [heapifyExact, hL, bind, Except.bind], PermOn.refl _ _ _,
      fun _ _ => rfl, Or.inl rfl, ?_⟩
    intro p1 p2 j hj hjn
    rcases hj.split with e | e | e
    · rw [e]; exact ⟨hcl, hcr⟩
    · exact p1 j e hjn
    · exact p2 j e hjn
  | succ fuel ih =>
    intro arr i hi hin hn hfuel
    obtain ⟨L, hL, hcase, hLn, hge, hcl, hcr, hne⟩ := heapifyLargestExact_spec arr n i hi hin hn
    by_cases hLi : L = i
    · subst hLi
      refine ⟨arr, by simp [heapifyExact, hL, bind, Except.bind], PermOn.refl _ _ _,
        fun _ _ => rfl, Or.inl rfl, ?_⟩
      intro p1 p2 j hj hjn
      rcases hj.split with e | e | e
      · rw [e]; exact ⟨hcl, hcr⟩
      · exact p1 j e hjn
      · exact p2 j e hjn
    · have hchild : L = 2 * i + 1 ∨ L = 2 * i + 2 := by
        rcases hcase with h | h | h
        · exact absurd h hLi
        · exact Or.inl h
        · exact Or.inr h
      have hLgt : i < L := by omega
      have hswap := swapAt_ok arr i L hi (by omega) (by omega) (by omega)
      have g := fun k => gv_swp arr i L k hi (by omega) (by omega) (by omega)
      have gother : ∀ k : Int, k ≠ i → k ≠ L → gv (swp arr i L) k = gv arr k := by
        intro k h1 h2
        rw [g, if_neg h2, if_neg h1]
      have gi : gv (swp arr i L) i = gv arr L := by
        rw [g, if_neg (by omega), if_pos rfl]
      have gL : gv (swp arr i L) L = gv arr i := by
        rw [g, if_pos rfl]
      obtain ⟨r, hrun, hperm, hframe, hroot, hheap⟩ :=
        ih (swp arr i L) L (by omega) hLn (by simpa using hn) (by omega)
      have notInL_i : ¬ InSubtree L i := fun h => by
        have := h.le (by omega)
        omega
      have ri : gv r i = gv arr L := by
        rw [hframe i notInL_i, gi]
      refine ⟨r, ?_, ?_, ?_, ?_, ?_⟩
      · simp only [heapifyExact, hL, hLi, hswap, bind, Except.bind, ne_eq, not_false_eq_true, if_true]
        exact hrun
      · exact (PermOn.swp arr i (n - 1) i L hi (by omega) (le_refl _) (by omega) (by omega)
          (by omega)).trans (hperm.mono (by omega) (le_refl _))
      · intro k hk
        have hkL : ¬ InSubtree L k := fun h => hk (InSubtree.of_child hchild h)
        have hki : k ≠ i := fun e => hk (e ▸ InSubtree.root)
        have hkL2 : k ≠ L := fun e => hkL (e ▸ InSubtree.root)
        rw [hframe k hkL, gother k hki hkL2]
      · rw [ri]
        rcases hchild with h | h
        · exact Or.inr (Or.inl ⟨by omega, by rw [h]⟩)
        · exact Or.inr (Or.inr ⟨by omega, by rw [h]⟩)
      · intro p1 p2
        have preL : HeapSubtree arr n L := by
          rcases hchild with h | h
          · rw [h]; exact p1
          · rw [h]; exact p2
        -- nodes strictly below `L` keep their values under the exchange
        have below : ∀ c : Int, (c = 2 * L + 1 ∨ c = 2 * L + 2) →
            HeapSubtree (swp arr i L) n c := by
          intro c hc j hj hjn
          have hjc := hj.le (by omega)
          have := preL j (InSubtree.of_child hc hj) hjn
          rw [gother j (by omega) (by omega), gother (2 * j + 1) (by omega) (by omega),
            gother (2 * j + 2) (by omega) (by omega)]
          exact this
        have postL := hheap (below _ (Or.inl rfl)) (below _ (Or.inr rfl))
        have nodeL := preL L InSubtree.root hLn
        have rL : gv r L ≤ gv arr L := by
          rcases hroot with h | ⟨h1, h2⟩ | ⟨h1, h2⟩
          · rw [h, gL]; exact hge
          · rw [h2, gother _ (by omega) (by omega)]; exact nodeL.1 h1
          · rw [h2, gother _ (by omega) (by omega)]; exact nodeL.2 h1
        -- a node of the sibling subtree is untouched, and so are its children
        have sibling : ∀ (s j : Int), (s = 2 * i + 1 ∨ s = 2 * i + 2) → s ≠ L →
            InSubtree s j → gv r j = gv arr j := by
          intro s j hs hsL hj
          have hnot : ¬ InSubtree L j := by
            intro hLj
            rcases hs with e1 | e1 <;> rcases hchild with e2 | e2
            · omega
            · exact InSubtree.siblings_disjoint hi (e1 ▸ hj) (e2 ▸ hLj)
            · exact InSubtree.siblings_disjoint hi (e2 ▸ hLj) (e1 ▸ hj)
            · omega
          have hjs := hj.le (by omega)
          have hjL : j ≠ L := fun e => hnot (e ▸ InSubtree.root)
          rw [hframe j hnot, gother j (by omega) hjL]
        intro j hj hjn
        rcases hj.split with e | e | e
        · subst e
          rw [ri]
          constructor
          · intro hc
            by_cases eL : 2 * j + 1 = L
            · rw [eL]; exact rL
            · rw [sibling (2 * j + 1) (2 * j + 1) (Or.inl rfl) eL InSubtree.root]
              exact hcl hc
          · intro hc
            by_cases eL : 2 * j + 2 = L
            · rw [eL]; exact rL
            · rw [sibling (2 * j + 2) (2 * j + 2) (Or.inr rfl) eL InSubtree.root]
              exact hcr hc
        · by_cases eL : 2 * i + 1 = L
          · exact postL j (eL ▸ e) hjn
          · rw [sibling _ j (Or.inl rfl) eL e, sibling _ _ (Or.inl rfl) eL (InSubtree.left e),
              sibling _ _ (Or.inl rfl) eL (InSubtree.right e)]
            exact p1 j e hjn
        · by_cases eL : 2 * i + 2 = L
          · exact postL j (eL ▸ e) hjn
          · rw [sibling _ j (Or.inr rfl) eL e, sibling _ _ (Or.inr rfl) eL (InSubtree.left e),
              sibling _ _ (Or.inr rfl) eL (InSubtree.right e)]
            exact p2 j e hjn

/-! ### Frames of the helpers -/

theorem mergeSortHelper_frame (fuel : Nat) (arr : Array Int) (left right : Int)
    (hl : 0 ≤ left) (hr : right < arr.size) (hfuel : (right - left).toNat ≤ fuel) :
    ∃ r : Array Int, mergeSortHelper fuel arr left right = .ok r ∧ r.size = arr.size ∧
      ∀ k : Int, k < left ∨ right < k → gv r k = gv arr k := by
  by_cases h : left < right
  · obtain ⟨d, lenA, lenM⟩ := toList_decomp arr left right hl (by omega) hr
    obtain ⟨r, s, hrun, hres, hperm, _⟩ :=
      mergeSortHelper_spec fuel arr left right _ _ _ d (by omega) (by omega) (by omega)
    have hlen := hperm.length_eq
    refine ⟨r, hrun, ?_, ?_⟩
    · have e1 := congrArg List.length hres
      have e2 := congrArg List.length d
      simp only [List.length_append, Array.length_toList] at e1 e2
      omega
    · intro k hk
      exact frame_of_decomp arr r _ _ _ _ d hres hlen k (by omega)
  · cases fuel <;> exact ⟨arr, by simp [mergeSortHelper, h], rfl, fun _ _ => rfl⟩

theorem merge_frame (arr : Array Int) (left mid right : Int) (h0 : 0 ≤ left)
    (h1 : left ≤ mid) (h2 : mid < right) (h3 : right < arr.size) :
    ∃ r : Array Int, merge arr left mid right = .ok r ∧ r.size = arr.size ∧
      ∀ k : Int, k < left ∨ right < k → gv r k = gv arr k := by
  obtain ⟨d, lenA, lenM⟩ := toList_decomp arr left right h0 (by omega) h3
  obtain ⟨hN, hhN⟩ : ∃ hN : Nat, (hN : Int) = mid + 1 - left := ⟨(mid + 1 - left).toNat, by omega⟩
  have lenX : ((slice arr left right).take hN).length = hN := by
    rw [List.length_take]; omega
  have lenY : ((slice arr left right).drop hN).length = (slice arr left right).length - hN := by
    rw [List.length_drop]
  have hsplit := List.take_append_drop hN (slice arr left right)
  have d4 : arr.toList = arr.toList.take left.toNat ++ (slice arr left right).take hN ++
      (slice arr left right).drop hN ++ arr.toList.drop (right + 1).toNat := by
    rw [List.append_assoc (arr.toList.take left.toNat), hsplit]
    exact d
  obtain ⟨r, hrun, hres⟩ := merge_spec arr left mid right (arr.toList.take left.toNat)
    ((slice arr left right).take hN) ((slice arr left right).drop hN)
    (arr.toList.drop (right + 1).toNat) d4 (by omega) (by omega) (by omega)
  have hperm := mergeLists_perm _ ((slice arr left right).take hN)
    ((slice arr left right).drop hN) (le_refl _)
  rw [hsplit] at hperm
  have hlen := hperm.length_eq
  refine ⟨r, hrun, ?_, ?_⟩
  · have e1 := congrArg List.length hres
    have e2 := congrArg List.length d
    simp only [List.length_append, Array.length_toList] at e1 e2
    omega
  · intro k hk
    exact frame_of_decomp arr r _ _ _ _ d hres hlen k (by omega)

/-- C13: for a vector `arr` of length `n` and `0 <= low <= high < n`, `partition` returns
`p` with `low <= p <= high`; afterwards `arr[p]` is the old `arr[high]` (the pivot), every
element at `low .. p - 1` is strictly less than the pivot, every element at `p + 1 .. high`
is greater than or equal to it, and `arr[low .. high]` is a permutation of its previous
contents. -/
theorem partition_postcondition (arr : Array Int) (low high : Int) (hlo : 0 ≤ low)
    (hlh : low ≤ high) (hhi : high < arr.size) :
    ∃ (r : Array Int) (p : Int), partition arr low high = .ok (r, p) ∧ low ≤ p ∧ p ≤ high ∧
      r.size = arr.size ∧ gv r p = gv arr high ∧
      (∀ k : Int, low ≤ k → k < p → gv r k < gv arr high) ∧
      (∀ k : Int, p < k → k ≤ high → gv arr high ≤ gv r k) ∧
      (slice r low high).Perm (slice arr low high) := by
  obtain ⟨r, p, hrun, b1, b2, hperm, hpiv, hlt, hge⟩ := partition_spec arr low high hlo hlh hhi
  exact ⟨r, p, hrun, b1, b2, hperm.1, hpiv, hlt, hge, hperm.slice_perm hlo (by omega) hhi⟩

/-- Witness of C13 on `[3, 1, 2]` with the range `0 .. 2`. -/
theorem partition_postcondition_witness :
    ∃ (r : Array Int) (p : Int), partition (#[3, 1, 2] : Array Int) 0 2 = .ok (r, p) ∧
      0 ≤ p ∧ p ≤ 2 ∧ r.size = (#[3, 1, 2] : Array Int).size ∧
      gv r p = gv (#[3, 1, 2] : Array Int) 2 ∧
      (∀ k : Int, 0 ≤ k → k < p → gv r k < gv (#[3, 1, 2] : Array Int) 2) ∧
      (∀ k : Int, p < k → k ≤ 2 → gv (#[3, 1, 2] : Array Int) 2 ≤ gv r k) ∧
      (slice r 0 2).Perm (slice (#[3, 1, 2] : Array Int) 0 2) :=
  partition_postcondition #[3, 1, 2] 0 2 (by decide) (by decide) (by decide)

/-- Where the child indices fit `int` (`n <= 2^30 - 1`) sift-down restores the heap: if the
subtrees rooted at `2i + 1` and `2i + 2` (restricted to indices below `n`) each satisfy the
max-heap property, `heapify(arr, n, i)` returns with the subtree rooted at `i` satisfying
it, and `arr[0 .. n - 1]` is a permutation of its previous contents. -/
theorem heapify_restores_heap_in_range (arr : Array Int) (n i : Int) (fuel : Nat)
    (hi : 0 ≤ i) (hin : i < n) (hn : n ≤ arr.size) (hn30 : n ≤ 1073741823)
    (hfuel : (n - i).toNat ≤ fuel + 1)
    (hl : HeapSubtree arr n (2 * i + 1)) (hr : HeapSubtree arr n (2 * i + 2)) :
    ∃ r : Array Int, heapify fuel arr n i = .ok r ∧ r.size = arr.size ∧
      HeapSubtree r n i ∧ (slice r 0 (n - 1)).Perm (slice arr 0 (n - 1)) := by
  rw [heapify_eq_exact n hn30 fuel arr i hi hin]
  obtain ⟨r, hrun, hperm, _, _, hheap⟩ :=
    heapifyExact_subtree_spec n fuel arr i hi hin hn hfuel
  exact ⟨r, hrun, hperm.1, hheap hl hr,
    (hperm.mono hi (le_refl _)).slice_perm (le_refl _) (by omega) (by omega)⟩

theorem heapifyExact_leaf (arr : Array Int) (n i : Int) (h1 : ¬ 2 * i + 1 < n)
    (h2 : ¬ 2 * i + 2 < n) (fuel : Nat) : heapifyExact fuel arr n i = .ok arr := by
  have hL : heapifyLargestExact arr n i = .ok i := by
    simp only [heapifyLargestExact, h1, h2, if_false, bind, Except.bind, pure, Except.pure]
  cases fuel <;> simp [heapifyExact, hL, bind, Except.bind]

/-- C15 at its failing input: on `overflowInput` (`2^30` integers) with the bound
`n = 2^30` and the index `i = 2^30 - 1`, the hypotheses of the claim hold (`0 <= i < n <=
length`; `2i + 1` and `2i + 2` are not below `n`, so both subtrees are heaps), and
`heapify(arr, n, i)` does not return: `r = 2 * i + 2` overflows to `-2^31`, passes
`r < n`, and `arr[r]` is read out of bounds.  With `l` and `r` computed without overflow
the call returns the vector unchanged. -/
theorem heapify_faults_at_last_leaf :
    (0 : Int) ≤ 1073741823 ∧ (1073741823 : Int) < 1073741824 ∧
      (1073741824 : Int) ≤ overflowInput.size ∧
      HeapSubtree overflowInput 1073741824 (2 * 1073741823 + 1) ∧
      HeapSubtree overflowInput 1073741824 (2 * 1073741823 + 2) ∧
      (∀ fuel : Nat, heapify fuel overflowInput 1073741824 1073741823 =
        .error .outOfBounds) ∧
      (∀ fuel : Nat, heapifyExact fuel overflowInput 1073741824 1073741823 =
        .ok overflowInput) := by
  refine ⟨by decide, by decide, by rw [overflowInput_size]; decide,
    heapSubtree_of_leaf _ _ _ (by decide) (by decide),
    heapSubtree_of_leaf _ _ _ (by decide) (by decide),
    fun fuel => heapify_overflow fuel overflowInput, ?_⟩
  intro fuel
  exact heapifyExact_leaf overflowInput 1073741824 1073741823 (by decide) (by decide) fuel

/-- C16 fails on `narrowInput`, a vector of `2^31 + 1` integers: `int n = arr.size()`
narrows the length to `-(2^31 - 1)`, the first loop of `heapSort` starts at a negative `i`
and is not entered, and the vector it leaves is not a max-heap: the element at
`2 * i + 1` exceeds the one at `i = 2^30 - 1`. -/
theorem build_heap_narrowing_counterexample :
    narrowInput.size = 2147483649 ∧
      buildHeapLoop (w32 (narrowInput.size : Int)) narrowInput.size narrowInput
        (w32 (Int.tdiv (w32 (narrowInput.size : Int)) 2 - 1)) = .ok narrowInput ∧
      (2 * 1073741823 + 1 : Int) < narrowInput.size ∧
      gv narrowInput 1073741823 < gv narrowInput (2 * 1073741823 + 1) := by
  refine ⟨narrowInput_size, buildHeap_narrowInput, by rw [narrowInput_size]; decide, ?_⟩
  rw [show (2 * 1073741823 + 1 : Int) = 2147483647 by decide, narrowInput_values.1,
    narrowInput_values.2.1]
  decide

/-- C16, amended: for every vector of at most `2^30 - 1` elements the first loop of
`heapSort` (`heapify` at `i = n / 2 - 1` down to `0`, `n` the length) returns with the
whole vector a binary max-heap: `arr[i] >= arr[2i + 1]` when `2i + 1 < n` and
`arr[i] >= arr[2i + 2]` when `2i + 2 < n`, for every `i`; so `arr[0]` is a maximum.  Every
index `i >= n / 2` is a leaf (`2i + 1 >= n`), so no inner node is skipped.  The second
loop of `heapSort` starts from this heap. -/
theorem build_heap_postcondition (arr : Array Int) (hsize : arr.size ≤ 1073741823) :
    w32 (arr.size : Int) = arr.size ∧
    ∃ r : Array Int,
      buildHeapLoop (w32 (arr.size : Int)) arr.size arr
        (w32 (Int.tdiv (w32 (arr.size : Int)) 2 - 1)) = .ok r ∧
      heapSort arr = extractLoop arr.size r (w32 (w32 (arr.size : Int) - 1)) ∧
      r.size = arr.size ∧ r.toList.Perm arr.toList ∧
      (∀ i : Int, 0 ≤ i →
        (2 * i + 1 < arr.size → gv r (2 * i + 1) ≤ gv r i) ∧
        (2 * i + 2 < arr.size → gv r (2 * i + 2) ≤ gv r i)) ∧
      (∀ k : Int, 0 ≤ k → k < arr.size → gv r k ≤ gv r 0) ∧
      (∀ i : Int, Int.tdiv (arr.size : Int) 2 ≤ i → (arr.size : Int) ≤ 2 * i + 1) := by
  have hdiv : Int.tdiv (arr.size : Int) 2 = (arr.size : Int) / 2 :=
    Int.tdiv_eq_ediv (by omega) (by omega)
  have hw : w32 (arr.size : Int) = arr.size := w32_eq _ (by omega) (by omega)
  have hw2 : w32 (Int.tdiv (arr.size : Int) 2 - 1) = Int.tdiv (arr.size : Int) 2 - 1 :=
    w32_eq _ (by omega) (by omega)
  obtain ⟨r, hrun, hs, hp, hheap⟩ :=
    buildHeapLoopExact_spec (arr.size : Int) arr.size arr (Int.tdiv (arr.size : Int) 2 - 1) rfl
      (by omega) (by omega) (by omega)
      (by
        intro j hj1 hj2
        exact ⟨fun q => by omega, fun q => by omega⟩)
  rw [← buildHeapLoop_eq_exact (arr.size : Int) (by omega) _ arr _ (by omega)] at hrun
  refine ⟨hw, r, ?_, ?_, hs, hp, ?_, ?_, ?_⟩
  · rw [hw, hw2]
    exact hrun
  · unfold heapSort
    simp only [hw, hw2, hrun, bind, Except.bind]
  · intro i hi
    by_cases hin : i < arr.size
    · exact hheap i hi hin
    · exact ⟨fun q => by omega, fun q => by omega⟩
  · intro k h1 h2
    exact heap_root_max r (arr.size : Int) hheap k.toNat k h1 h2 (le_refl _)
  · intro i hi
    rw [hdiv] at hi
    omega

/-- Witness of C16 as amended, on `[1, 3, 2]`: the heap order at the root and the
leaf `1`. -/
theorem build_heap_postcondition_witness :
    (#[1, 3, 2] : Array Int).size ≤ 1073741823 ∧
      ∃ r : Array Int,
        buildHeapLoop (w32 ((#[1, 3, 2] : Array Int).size : Int)) (#[1, 3, 2] : Array Int).size
          (#[1, 3, 2] : Array Int)
          (w32 (Int.tdiv (w32 ((#[1, 3, 2] : Array Int).size : Int)) 2 - 1)) = .ok r ∧
        gv r 1 ≤ gv r 0 ∧ gv r 2 ≤ gv r 0 ∧ (3 : Int) ≤ 2 * 1 + 1 := by
  obtain ⟨_, r, hrun, _, _, _, hheap, hmax, hleaf⟩ :=
    build_heap_postcondition #[1, 3, 2] (by decide)
  exact ⟨by decide, r, hrun, ((hheap 0 (by decide)).1 (by decide)),
    hmax 2 (by decide) (by decide), hleaf 1 (by decide)⟩

theorem merge_pair_right_first (x y : Tagged) (h : ¬ x < y) :
    merge (#[x, y] : Array Tagged) 0 0 1 = .ok #[y, x] := by
  simp [merge, mergeRun, sliceVec, mergeLoop, copyRest, readAt, writeAt, h, bind, Except.bind,
    pure, Except.pure, Array.extract, Array.extract.loop, Array.setD]

theorem merge_pair_left_first (x y : Tagged) (h : x < y) :
    merge (#[x, y] : Array Tagged) 0 0 1 = .ok #[x, y] := by
  simp [merge, mergeRun, sliceVec, mergeLoop, copyRest, readAt, writeAt, h, bind, Except.bind,
    pure, Except.pure, Array.extract, Array.extract.loop, Array.setD]

theorem mergeSort_pair (x y : Tagged) :
    mergeSort (#[x, y] : Array Tagged) = merge (#[x, y] : Array Tagged) 0 0 1 := by
  have e : w32 (((#[x, y] : Array Tagged).size : Int) - 1) = 1 := by
    show w32 ((2 : Int) - 1) = 1
    decide
  unfold mergeSort
  rw [e]
  simp [mergeSortHelper, bind, Except.bind]
  rfl

theorem mergeLoop_takes_right {α : Type} [LT α] [DecidableRel (fun a b : α => a < b)]
    (leftVec rightVec arr : Array α) (fuel : Nat) (i j k : Int) (a b : α)
    (hi : i < leftVec.size) (hj : j < rightVec.size) (ha : readAt leftVec i = .ok a)
    (hb : readAt rightVec j = .ok b) (h : ¬ a < b) :
    mergeLoop leftVec rightVec (fuel + 1) arr i j k =
      (writeAt arr k b >>= fun arr1 => mergeLoop leftVec rightVec fuel arr1 i (j + 1) (k + 1)) := by
  simp only [mergeLoop, hi, hj, and_self, if_true, ha, hb, h, if_false, bind, Except.bind]

theorem mergeLoop_takes_left {α : Type} [LT α] [DecidableRel (fun a b : α => a < b)]
    (leftVec rightVec arr : Array α) (fuel : Nat) (i j k : Int) (a b : α)
    (hi : i < leftVec.size) (hj : j < rightVec.size) (ha : readAt leftVec i = .ok a)
    (hb : readAt rightVec j = .ok b) (h : a < b) :
    mergeLoop leftVec rightVec (fuel + 1) arr i j k =
      (writeAt arr k a >>= fun arr1 => mergeLoop leftVec rightVec fuel arr1 (i + 1) j (k + 1)) := by
  simp only [mergeLoop, hi, hj, and_self, if_true, ha, hb, h, bind, Except.bind]

/-! ### The claims on the generator, stability, index safety and frames -/

/-- C11 fails at `size = -1` and at `min = 5 > max = 1`: the first call ends in the
length error of the vector constructor, the second hands `min > max` unchecked to the
distribution; neither ends in an `InvalidArgument` condition. -/
theorem generateRandomArray_counterexample :
    ((-1 : Int) < 0 ∧
      generateRandomArray (fun _ lo _ => lo) (-1) 1 100000 = .error .lengthError ∧
      generateRandomArray (fun _ lo _ => lo) (-1) 1 100000 ≠ .error .invalidArgument) ∧
    ((1 : Int) < 5 ∧
      generateRandomArray (fun _ lo _ => lo) 3 5 1 = .error .distributionPrecondition ∧
      generateRandomArray (fun _ lo _ => lo) 3 5 1 ≠ .error .invalidArgument) := by
  decide

/-- C11, amended: `generateRandomArray` checks none of its arguments and never ends in
an `InvalidArgument` condition.  A negative `size` ends in the length error of the vector
constructor.  With `size >= 0` and `min <= max` it does not fail: it returns a vector of
exactly `size` elements, the `k`-th being the `k`-th draw, each within `[min, max]` as the
distribution guarantees. -/
theorem generateRandomArray_no_argument_check (sample : Nat → Int → Int → Int)
    (size min max : Int) :
    generateRandomArray sample size min max ≠ .error .invalidArgument ∧
    (size < 0 → generateRandomArray sample size min max = .error .lengthError) ∧
    (0 ≤ size → min ≤ max →
      (∀ k : Nat, min ≤ sample k min max ∧ sample k min max ≤ max) →
      ∃ arr : Array Int, generateRandomArray sample size min max = .ok arr ∧
        (arr.size : Int) = size ∧
        ∀ (k : Nat) (h : k < arr.size),
          arr[k] = sample k min max ∧ min ≤ arr[k] ∧ arr[k] ≤ max) := by
  refine ⟨?_, ?_, ?_⟩
  · unfold generateRandomArray
    split
    · simp
    · split <;> simp
  · intro h
    simp [generateRandomArray, h]
  · intro h0 h1 hs
    have h2 : ¬ size < 0 := by omega
    have h3 : ¬ max < min := by omega
    refine ⟨(Array.mkArray size.toNat (0 : Int)).mapIdx (fun k _ => sample k min max),
      by simp only [generateRandomArray, h2, h3, if_false], ?_, ?_⟩
    · simp; omega
    · intro k hk
      rw [Array.getElem_mapIdx]
      exact ⟨rfl, hs k⟩

/-- Witness of C11 as amended: three elements drawn from `[1, 100000]`. -/
theorem generateRandomArray_no_argument_check_witness :
    generateRandomArray (fun _ lo _ => lo) (-1) 1 100000 = .error .lengthError ∧
    ∃ arr : Array Int, generateRandomArray (fun _ lo _ => lo) 3 1 100000 = .ok arr ∧
      (arr.size : Int) = 3 ∧
      ∀ (k : Nat) (h : k < arr.size), arr[k] = (fun _ lo _ => lo) k 1 100000 ∧
        1 ≤ arr[k] ∧ arr[k] ≤ 100000 :=
  ⟨(generateRandomArray_no_argument_check (fun _ lo _ => lo) (-1) 1 100000).2.1 (by decide),
    (generateRandomArray_no_argument_check (fun _ lo _ => lo) 3 1 100000).2.2 (by decide)
      (by decide) (fun _ => by decide)⟩

/-- C12 fails on two elements with the same key: the fronts of the two halves tie, the
element of the right half is written first, and the pair leaves `merge` and `mergeSort`
in the opposite order, so `mergeSort` is not stable. -/
theorem mergeSort_stability_counterexample :
    (Tagged.mk 1 0).key = (Tagged.mk 1 1).key ∧
      merge (#[Tagged.mk 1 0, Tagged.mk 1 1] : Array Tagged) 0 0 1 =
        .ok #[Tagged.mk 1 1, Tagged.mk 1 0] ∧
      mergeSort (#[Tagged.mk 1 0, Tagged.mk 1 1] : Array Tagged) =
        .ok #[Tagged.mk 1 1, Tagged.mk 1 0] ∧
      mergeSort (#[Tagged.mk 1 0, Tagged.mk 1 1] : Array Tagged) ≠
        .ok #[Tagged.mk 1 0, Tagged.mk 1 1] := by
  decide

/-- C12, amended: in `merge` the front of the left half is taken only when it is strictly
less than the front of the right half; whenever the two fronts compare equal the element
of the right half is taken first.  Consequently `mergeSort` does not keep elements with
equal keys in input order: a pair `[x, y]` with equal keys leaves `merge` and `mergeSort`
as `[y, x]`. -/
theorem merge_ties_take_right (leftVec rightVec arr : Array Tagged) (fuel : Nat)
    (i j k : Int) (a b x y : Tagged) (hi : i < leftVec.size) (hj : j < rightVec.size)
    (ha : readAt leftVec i = .ok a) (hb : readAt rightVec j = .ok b)
    (hab : a.key = b.key) (hxy : x.key = y.key) :
    mergeLoop leftVec rightVec (fuel + 1) arr i j k =
      (writeAt arr k b >>= fun arr1 =>
        mergeLoop leftVec rightVec fuel arr1 i (j + 1) (k + 1)) ∧
    merge (#[x, y] : Array Tagged) 0 0 1 = .ok #[y, x] ∧
    mergeSort (#[x, y] : Array Tagged) = .ok #[y, x] := by
  have h1 : ¬ a < b := by
    show ¬ a.key < b.key
    omega
  have h2 : ¬ x < y := by
    show ¬ x.key < y.key
    omega
  refine ⟨mergeLoop_takes_right leftVec rightVec arr fuel i j k a b hi hj ha hb h1,
    merge_pair_right_first x y h2, ?_⟩
  rw [mergeSort_pair]
  exact merge_pair_right_first x y h2

/-- Witness of C12 as amended, on the pair `(1, 0)`, `(1, 1)`. -/
theorem merge_ties_take_right_witness :
    mergeLoop (#[Tagged.mk 1 0] : Array Tagged) #[Tagged.mk 1 1] (0 + 1)
        #[Tagged.mk 1 0, Tagged.mk 1 1] 0 0 0 =
      (writeAt (#[Tagged.mk 1 0, Tagged.mk 1 1] : Array Tagged) 0 (Tagged.mk 1 1) >>=
        fun arr1 => mergeLoop (#[Tagged.mk 1 0] : Array Tagged) #[Tagged.mk 1 1] 0 arr1 0
          (0 + 1) (0 + 1)) ∧
    merge (#[Tagged.mk 1 0, Tagged.mk 1 1] : Array Tagged) 0 0 1 =
      .ok #[Tagged.mk 1 1, Tagged.mk 1 0] ∧
    mergeSort (#[Tagged.mk 1 0, Tagged.mk 1 1] : Array Tagged) =
      .ok #[Tagged.mk 1 1, Tagged.mk 1 0] :=
  merge_ties_take_right #[Tagged.mk 1 0] #[Tagged.mk 1 1] #[Tagged.mk 1 0, Tagged.mk 1 1] 0
    0 0 0 (Tagged.mk 1 0) (Tagged.mk 1 1) (Tagged.mk 1 0) (Tagged.mk 1 1) (by decide)
    (by decide) (by decide) (by decide) (by decide) (by decide)

/-- C19 at its failing input: on a vector of `2^30` elements (a length that fits a 32-bit
`int`) whose last element exceeds its parent, `heapSort` reaches
`heapify(arr, n, 2^30 - 1)`, where `r = 2 * i + 2` wraps to `-2^31`, passes the test
`r < n` and reads `arr[r]` out of bounds.  With the index arithmetic carried out in `ℤ`
(`heapSortExact`) the same input is sorted without fault. -/
theorem heapSort_reads_out_of_bounds :
    overflowInput.size = 1073741824 ∧ (overflowInput.size : Int) < 2147483648 ∧
      heapSort overflowInput = .error .outOfBounds ∧
      ∃ r : Array Int, heapSortExact overflowInput = .ok r := by
  refine ⟨overflowInput_size, by rw [overflowInput_size]; decide, heapSort_overflowInput, ?_⟩
  obtain ⟨r, hrun, _⟩ := heapSortExact_spec overflowInput
  exact ⟨r, hrun⟩

/-- Where the index arithmetic is exact no run of the four sorts reaches an out-of-bounds
access: up to `2^31 - 1` elements for `selectionSort`, `mergeSort` and `quickSort`, up to
`2^30 - 1` elements for `heapSort`. -/
theorem sorts_in_bounds_in_range (S : Array Int) :
    (S.size ≤ 2147483647 → selectionSort S ≠ .error .outOfBounds ∧
      mergeSort S ≠ .error .outOfBounds ∧ quickSort S ≠ .error .outOfBounds) ∧
    (S.size ≤ 1073741823 → heapSort S ≠ .error .outOfBounds) := by
  constructor
  · intro h
    obtain ⟨r1, h1, _⟩ := selectionSort_spec S h
    obtain ⟨r2, h2, _⟩ := mergeSort_spec S h
    obtain ⟨r3, h3, _⟩ := quickSort_spec S h
    rw [h1, h2, h3]
    simp
  · intro h
    obtain ⟨r, h1, _⟩ := heapSort_spec S h
    rw [h1]
    simp

/-- On valid indices `mergeSortHelper(arr, left, right)` and `merge(arr, left, mid, right)`
leave every position outside `[left, right]` unchanged; `quickSortHelper(arr, low, high)`
and `partition(arr, low, high)` leave every position outside `[low, high]` unchanged;
under a bound `n <= 2^30 - 1` `heapify(arr, n, i)` leaves unchanged every position `>= n`
and every position `< n` outside the subtree rooted at `i`, so an iteration of the
extraction loop of `heapSort` puts the old root at `i` and leaves the positions above `i`
as they were. -/
theorem helpers_range_frame_in_range (arr : Array Int) :
    (∀ (left right : Int) (fuel : Nat), 0 ≤ left → right < arr.size →
      (right - left).toNat ≤ fuel →
      ∃ r : Array Int, mergeSortHelper fuel arr left right = .ok r ∧ r.size = arr.size ∧
        ∀ k : Int, k < left ∨ right < k → gv r k = gv arr k) ∧
    (∀ left mid right : Int, 0 ≤ left → left ≤ mid → mid < right → right < arr.size →
      ∃ r : Array Int, merge arr left mid right = .ok r ∧ r.size = arr.size ∧
        ∀ k : Int, k < left ∨ right < k → gv r k = gv arr k) ∧
    (∀ (low high : Int) (fuel : Nat), 0 ≤ low → high < arr.size →
      (high - low).toNat ≤ fuel →
      ∃ r : Array Int, quickSortHelper fuel arr low high = .ok r ∧ r.size = arr.size ∧
        ∀ k : Int, k < low ∨ high < k → gv r k = gv arr k) ∧
    (∀ low high : Int, 0 ≤ low → low ≤ high → high < arr.size →
      ∃ (r : Array Int) (p : Int), partition arr low high = .ok (r, p) ∧
        r.size = arr.size ∧ ∀ k : Int, k < low ∨ high < k → gv r k = gv arr k) ∧
    (∀ (n i : Int) (fuel : Nat), 0 ≤ i → i < n → n ≤ arr.size → n ≤ 1073741823 →
      (n - i).toNat ≤ fuel + 1 →
      ∃ r : Array Int, heapify fuel arr n i = .ok r ∧ r.size = arr.size ∧
        (∀ k : Int, n ≤ k → gv r k = gv arr k) ∧
        (∀ k : Int, k < n → ¬ InSubtree i k → gv r k = gv arr k)) ∧
    (∀ i : Int, 0 < i → i < arr.size → i ≤ 1073741823 →
      ∃ (arr1 r : Array Int), swapAt arr 0 i = .ok arr1 ∧ heapify i.toNat arr1 i 0 = .ok r ∧
        r.size = arr.size ∧ gv r i = gv arr 0 ∧ ∀ k : Int, i < k → gv r k = gv arr k) := by
  refine ⟨?_, ?_, ?_, ?_, ?_, ?_⟩
  · intro left right fuel h1 h2 h3
    exact mergeSortHelper_frame fuel arr left right h1 h2 h3
  · intro left mid right h0 h1 h2 h3
    exact merge_frame arr left mid right h0 h1 h2 h3
  · intro low high fuel h1 h2 h3
    obtain ⟨r, hrun, hperm, _⟩ := quickSortHelper_spec fuel arr low high h1 h2 h3
    exact ⟨r, hrun, hperm.1, hperm.2.2.1⟩
  · intro low high h1 h2 h3
    obtain ⟨r, p, hrun, _, _, hperm, _⟩ := partition_spec arr low high h1 h2 h3
    exact ⟨r, p, hrun, hperm.1, hperm.2.2.1⟩
  · intro n i fuel h1 h2 h3 h30 h4
    rw [heapify_eq_exact n h30 fuel arr i h1 h2]
    obtain ⟨r, hrun, hperm, hframe, _, _⟩ :=
      heapifyExact_subtree_spec n fuel arr i h1 h2 h3 h4
    exact ⟨r, hrun, hperm.1, fun k hk => hperm.2.2.1 k (by omega), fun k _ hk => hframe k hk⟩
  · intro i h1 h2 h30
    have hswap := swapAt_ok arr 0 i (le_refl _) (by omega) (by omega) h2
    have g := fun k => gv_swp arr 0 i k (le_refl _) (by omega) (by omega) h2
    obtain ⟨r, hrun, hperm, _, _, _⟩ :=
      heapifyExact_subtree_spec i i.toNat (swp arr 0 i) 0 (le_refl _) h1 (by simp; omega)
        (by omega)
    rw [← heapify_eq_exact i h30 i.toNat (swp arr 0 i) 0 (le_refl _) h1] at hrun
    refine ⟨swp arr 0 i, r, hswap, hrun, by rw [hperm.1]; simp, ?_, ?_⟩
    · rw [hperm.2.2.1 i (by omega), g, if_pos rfl]
    · intro k hk
      rw [hperm.2.2.1 k (by omega), g, if_neg (by omega), if_neg (by omega)]

/-- C20 at its failing input: on `overflowInput` (`2^30` integers) the call
`heapify(arr, n, i)` with `n = 2^30` and `i = 2^30 - 1` computes `r = 2 * i + 2 = -2^31`,
finds `r < n` and reads `arr[r]`: an index below `n` that is neither in the vector nor in
the subtree rooted at `i`.  The access is out of bounds and the call does not return. -/
theorem heapify_leaves_subtree_on_overflow :
    w32 (2 * 1073741823 + 2) = -2147483648 ∧ (-2147483648 : Int) < 1073741824 ∧
      ¬ InSubtree 1073741823 (-2147483648) ∧
      readAt overflowInput (-2147483648) = .error .outOfBounds ∧
      (1073741824 : Int) ≤ overflowInput.size ∧
      ∀ fuel : Nat, heapify fuel overflowInput 1073741824 1073741823 =
        .error .outOfBounds := by
  refine ⟨by decide, by decide, ?_, ?_, by rw [overflowInput_size]; decide,
    fun fuel => heapify_overflow fuel overflowInput⟩
  · intro h
    have := h.le (by decide)
    omega
  · have hneg : ¬ (0 : Int) ≤ -2147483648 := by decide
    simp only [readAt, hneg, if_false]

end SortBench
